import Mathlib

/-!
Verification of the GPU credit-auction scheduler (`app.py`) against its
natural-language specification.  The Python program is shallowly embedded:
calendar day keys are natural numbers (days since an epoch), slot keys are
absolute hour indices (`dayKey * 24 + hourOfDay`), wall-clock time is a
natural number of seconds, credit balances are exact integers counted in
hundredths of a credit (every balance mutation in the source lands on that
grid), and the Python dictionaries (which preserve insertion order) are
association lists.
Every mutation of the nested state dictionaries is modelled by key-based
functional update, which reproduces Python's aliasing semantics because all
reads and writes in the source go through the same key paths.
-/

namespace GpuSched

/-! ### Association lists (Python `dict` with insertion order) -/

/-- `d.get(k)`: first value bound to `k`. -/
def lookupA {α β : Type} [DecidableEq α] : List (α × β) → α → Option β
  | [], _ => none
  | (k', v') :: rest, k => if k' = k then some v' else lookupA rest k

/-- `d[k] = v`: replace in place if the key is present, else append. -/
def updateA {α β : Type} [DecidableEq α] : List (α × β) → α → β → List (α × β)
  | [], k, v => [(k, v)]
  | (k', v') :: rest, k, v =>
      if k' = k then (k, v) :: rest else (k', v') :: updateA rest k v

/-- `d.pop(k, None)`: remove the binding of `k` if present. -/
def removeA {α β : Type} [DecidableEq α] : List (α × β) → α → List (α × β)
  | [], _ => []
  | (k', v') :: rest, k =>
      if k' = k then rest else (k', v') :: removeA rest k

theorem lookupA_nil {α β : Type} [DecidableEq α] (k : α) :
    lookupA ([] : List (α × β)) k = none := rfl

theorem lookupA_cons {α β : Type} [DecidableEq α]
    (p : α × β) (rest : List (α × β)) (k : α) :
    lookupA (p :: rest) k = if p.1 = k then some p.2 else lookupA rest k := by
  cases p; rfl

theorem lookupA_updateA_self {α β : Type} [DecidableEq α]
    (l : List (α × β)) (k : α) (v : β) :
    lookupA (updateA l k v) k = some v := by
  induction l with
  | nil => simp [updateA, lookupA]
  | cons p rest ih =>
    by_cases h : p.1 = k
    · cases p
      simp_all [updateA, lookupA]
    · cases p
      simp_all [updateA, lookupA]

theorem lookupA_updateA_ne {α β : Type} [DecidableEq α]
    (l : List (α × β)) (k k' : α) (v : β) (h : k' ≠ k) :
    lookupA (updateA l k v) k' = lookupA l k' := by
  induction l with
  | nil => simp [updateA, lookupA, Ne.symm h]
  | cons p rest ih =>
    by_cases hp : p.1 = k
    · have hp' : ¬ p.1 = k' := by
        rw [hp]; exact Ne.symm h
      cases p
      simp_all [updateA, lookupA, Ne.symm h]
    · by_cases hp' : p.1 = k'
      · cases p
        simp_all [updateA, lookupA]
      · cases p
        simp_all [updateA, lookupA]

theorem lookupA_eq_none_of_not_mem_keys {α β : Type} [DecidableEq α]
    {l : List (α × β)} {k : α} (h : k ∉ l.map Prod.fst) :
    lookupA l k = none := by
  induction l with
  | nil => rfl
  | cons p rest ih =>
    simp only [List.map_cons, List.mem_cons] at h
    push_neg at h
    rw [lookupA_cons, if_neg (fun he => h.1 he.symm)]
    exact ih h.2

theorem keys_removeA_not_mem {α β : Type} [DecidableEq α]
    (l : List (α × β)) (k : α) (hnd : (l.map Prod.fst).Nodup) :
    k ∉ (removeA l k).map Prod.fst := by
  induction l with
  | nil => simp [removeA]
  | cons p rest ih =>
    simp only [List.map_cons, List.nodup_cons] at hnd
    by_cases hp : p.1 = k
    · simp only [removeA, if_pos hp]
      intro hmem
      rcases List.mem_map.mp hmem with ⟨x, hx, hx1⟩
      exact hnd.1 (hp ▸ hx1 ▸ List.mem_map.mpr ⟨x, hx, rfl⟩)
    · simp only [removeA, if_neg hp, List.map_cons, List.mem_cons]
      push_neg
      exact ⟨fun he => hp he.symm, ih hnd.2⟩

theorem lookupA_removeA_self {α β : Type} [DecidableEq α]
    (l : List (α × β)) (k : α) (hnd : (l.map Prod.fst).Nodup) :
    lookupA (removeA l k) k = none :=
  lookupA_eq_none_of_not_mem_keys (keys_removeA_not_mem l k hnd)

theorem lookupA_removeA_ne {α β : Type} [DecidableEq α]
    (l : List (α × β)) (k k' : α) (h : k' ≠ k) :
    lookupA (removeA l k) k' = lookupA l k' := by
  induction l with
  | nil => rfl
  | cons p rest ih =>
    by_cases hp : p.1 = k
    · have hp' : ¬ p.1 = k' := by
        rw [hp]; exact Ne.symm h
      simp only [removeA, if_pos hp, lookupA_cons, if_neg hp']
    · rw [removeA, if_neg hp, lookupA_cons, lookupA_cons]
      by_cases hp' : p.1 = k'
      · simp [hp']
      · simp [hp', ih]

theorem mem_updateA {α β : Type} [DecidableEq α]
    {l : List (α × β)} {k : α} {v : β} {x : α × β}
    (h : x ∈ updateA l k v) : x ∈ l ∨ x = (k, v) := by
  induction l with
  | nil =>
    simp only [updateA, List.mem_singleton] at h
    exact Or.inr h
  | cons p rest ih =>
    by_cases hp : p.1 = k
    · simp only [updateA, if_pos hp, List.mem_cons] at h
      rcases h with h | h
      · exact Or.inr h
      · exact Or.inl (List.mem_cons_of_mem _ h)
    · simp only [updateA, if_neg hp, List.mem_cons] at h
      rcases h with h | h
      · exact Or.inl (List.mem_cons.mpr (Or.inl h))
      · rcases ih h with h | h
        · exact Or.inl (List.mem_cons_of_mem _ h)
        · exact Or.inr h

theorem mem_removeA {α β : Type} [DecidableEq α]
    {l : List (α × β)} {k : α} {x : α × β}
    (h : x ∈ removeA l k) : x ∈ l := by
  induction l with
  | nil => simp [removeA] at h
  | cons p rest ih =>
    by_cases hp : p.1 = k
    · simp only [removeA, if_pos hp] at h
      exact List.mem_cons_of_mem _ h
    · simp only [removeA, if_neg hp, List.mem_cons] at h
      rcases h with h | h
      · exact List.mem_cons.mpr (Or.inl h)
      · exact List.mem_cons_of_mem _ (ih h)

theorem keys_updateA_mem {α β : Type} [DecidableEq α]
    (l : List (α × β)) (k : α) (v : β) (hk : k ∈ l.map Prod.fst) :
    (updateA l k v).map Prod.fst = l.map Prod.fst := by
  induction l with
  | nil => simp at hk
  | cons p rest ih =>
    by_cases hp : p.1 = k
    · simp [updateA, hp]
    · simp only [List.map_cons, List.mem_cons] at hk
      rcases hk with hk | hk
      · exact absurd hk.symm hp
      · simp [updateA, hp, ih hk]

theorem keys_updateA_not_mem {α β : Type} [DecidableEq α]
    (l : List (α × β)) (k : α) (v : β) (hk : k ∉ l.map Prod.fst) :
    (updateA l k v).map Prod.fst = l.map Prod.fst ++ [k] := by
  induction l with
  | nil => simp [updateA]
  | cons p rest ih =>
    simp only [List.map_cons, List.mem_cons] at hk
    push_neg at hk
    rw [updateA.eq_def]
    simp only [if_neg (Ne.symm hk.1)]
    simp [ih hk.2]

theorem keys_removeA_sublist {α β : Type} [DecidableEq α]
    (l : List (α × β)) (k : α) :
    ((removeA l k).map Prod.fst).Sublist (l.map Prod.fst) := by
  induction l with
  | nil => simp [removeA]
  | cons p rest ih =>
    by_cases hp : p.1 = k
    · simp only [removeA, if_pos hp]
      exact List.sublist_cons_self p.1 (rest.map Prod.fst)
    · simpa [removeA, hp] using ih.cons₂ p.1

theorem nodup_keys_updateA {α β : Type} [DecidableEq α]
    (l : List (α × β)) (k : α) (v : β)
    (h : (l.map Prod.fst).Nodup) : ((updateA l k v).map Prod.fst).Nodup := by
  by_cases hk : k ∈ l.map Prod.fst
  · rw [keys_updateA_mem l k v hk]; exact h
  · rw [keys_updateA_not_mem l k v hk]
    rw [List.nodup_append]
    refine ⟨h, List.nodup_singleton k, ?_⟩
    intro a ha hb
    simp only [List.mem_singleton] at hb
    subst hb
    exact hk ha

theorem nodup_keys_removeA {α β : Type} [DecidableEq α]
    (l : List (α × β)) (k : α)
    (h : (l.map Prod.fst).Nodup) : ((removeA l k).map Prod.fst).Nodup :=
  (keys_removeA_sublist l k).nodup h

theorem lookupA_append_right {α β : Type} [DecidableEq α]
    (l : List (α × β)) (k : α) (v : β) (hk : k ∉ l.map Prod.fst) :
    lookupA (l ++ [(k, v)]) k = some v := by
  induction l with
  | nil => simp [lookupA]
  | cons p rest ih =>
    simp only [List.map_cons, List.mem_cons] at hk
    push_neg at hk
    rw [List.cons_append, lookupA_cons, if_neg (fun he => hk.1 he.symm)]
    exact ih hk.2

theorem lookupA_append_left {α β : Type} [DecidableEq α]
    (l : List (α × β)) (k k' : α) (v : β) (h : k' ≠ k) :
    lookupA (l ++ [(k, v)]) k' = lookupA l k' := by
  induction l with
  | nil => simp [lookupA, Ne.symm h]
  | cons p rest ih =>
    rw [List.cons_append, lookupA_cons, lookupA_cons]
    by_cases hp : p.1 = k'
    · simp [hp]
    · simp [hp, ih]

theorem lookupA_eq_of_mem {α β : Type} [DecidableEq α]
    {l : List (α × β)} {k : α} {v : β}
    (hnd : (l.map Prod.fst).Nodup) (h : (k, v) ∈ l) :
    lookupA l k = some v := by
  induction l with
  | nil => simp at h
  | cons p rest ih =>
    simp only [List.map_cons, List.nodup_cons] at hnd
    rcases List.mem_cons.mp h with h | h
    · rw [← h, lookupA_cons, if_pos rfl]
    · have hne : p.1 ≠ k := by
        intro he
        exact hnd.1 (he ▸ List.mem_map.mpr ⟨(k, v), h, rfl⟩)
      rw [lookupA_cons, if_neg hne]
      exact ih hnd.2 h

theorem mem_of_lookupA_eq_some {α β : Type} [DecidableEq α]
    {l : List (α × β)} {k : α} {v : β}
    (h : lookupA l k = some v) : (k, v) ∈ l := by
  induction l with
  | nil => simp [lookupA] at h
  | cons p rest ih =>
    rw [lookupA_cons] at h
    by_cases hp : p.1 = k
    · rw [if_pos hp] at h
      have : p = (k, v) := by
        cases p
        simp only [Option.some.injEq] at h
        simp_all
      exact this ▸ List.mem_cons_self _ _
    · rw [if_neg hp] at h
      exact List.mem_cons_of_mem _ (ih h)

theorem lookupA_isSome_iff_mem_keys {α β : Type} [DecidableEq α]
    (l : List (α × β)) (k : α) :
    (lookupA l k).isSome ↔ k ∈ l.map Prod.fst := by
  induction l with
  | nil => simp [lookupA]
  | cons p rest ih =>
    rw [lookupA_cons]
    by_cases hp : p.1 = k
    · simp [hp]
    · simp [hp, ih, Ne.symm hp]

/-! ### Stable insertion sort (Python `sorted`) -/

/-- Insert `x` into `l` before the first element not below it (stable). -/
def insortBy {α : Type} (le : α → α → Bool) (x : α) : List α → List α
  | [] => [x]
  | y :: ys => if le x y then x :: y :: ys else y :: insortBy le x ys

/-- `sorted(l, key=...)` as a stable insertion sort. -/
def sortBy {α : Type} (le : α → α → Bool) (l : List α) : List α :=
  l.foldr (insortBy le) []

theorem insortBy_perm {α : Type} (le : α → α → Bool) (x : α) (l : List α) :
    List.Perm (insortBy le x l) (x :: l) := by
  induction l with
  | nil => exact List.Perm.refl _
  | cons y ys ih =>
    by_cases h : le x y
    · simp only [insortBy, if_pos h]
      exact List.Perm.refl _
    · simp only [insortBy]
      rw [if_neg (by simp [h])]
      exact List.Perm.trans (List.Perm.cons y ih) (List.Perm.swap x y ys)

theorem sortBy_perm {α : Type} (le : α → α → Bool) (l : List α) :
    List.Perm (sortBy le l) l := by
  induction l with
  | nil => exact List.Perm.refl _
  | cons x xs ih =>
    exact List.Perm.trans (insortBy_perm le x (sortBy le xs)) (List.Perm.cons x ih)

theorem mem_sortBy {α : Type} (le : α → α → Bool) (l : List α) (a : α) :
    a ∈ sortBy le l ↔ a ∈ l :=
  (sortBy_perm le l).mem_iff

theorem insortBy_pairwise {α : Type} (le : α → α → Bool)
    (htot : ∀ a b, le a b = false → le b a = true)
    (htrans : ∀ a b c, le a b = true → le b c = true → le a c = true)
    (x : α) (l : List α) (h : l.Pairwise (fun a b => le a b = true)) :
    (insortBy le x l).Pairwise (fun a b => le a b = true) := by
  induction l with
  | nil => simp [insortBy]
  | cons y ys ih =>
    rcases List.pairwise_cons.mp h with ⟨hy, hys⟩
    by_cases hxy : le x y
    · simp only [insortBy, if_pos hxy]
      refine List.pairwise_cons.mpr ⟨?_, h⟩
      intro b hb
      rcases List.mem_cons.mp hb with hb | hb
      · exact hb ▸ hxy
      · exact htrans x y b hxy (hy b hb)
    · simp only [insortBy]
      rw [if_neg (by simp_all)]
      refine List.pairwise_cons.mpr ⟨?_, ih hys⟩
      intro b hb
      rcases List.mem_cons.mp ((insortBy_perm le x ys).mem_iff.mp hb) with hb | hb
      · exact hb ▸ htot x y (by simpa using hxy)
      · exact hy b hb

theorem sortBy_pairwise {α : Type} (le : α → α → Bool)
    (htot : ∀ a b, le a b = false → le b a = true)
    (htrans : ∀ a b c, le a b = true → le b c = true → le a c = true)
    (l : List α) :
    (sortBy le l).Pairwise (fun a b => le a b = true) := by
  induction l with
  | nil => simp [sortBy]
  | cons x xs ih => exact insortBy_pairwise le htot htrans x (sortBy le xs) ih

/-! ### Data model (`app.py` global `state`) -/

abbrev Username := String

/-- One element of a `GpuEntry`'s append-only `bids` list. -/
structure BidRecord where
  username : Username
  price : Nat
  timestamp : Nat
deriving Repr, DecidableEq

/-- One GPU in one slot.  `actual_user = none` models the `actual_user`
field being absent from the entry dict; `some v` models it being present
with value `v` (where `v = none` is Python `None`). -/
structure GpuEntry where
  gpu : Nat
  price : Nat
  winner : Option Username
  bids : List BidRecord
  actual_user : Option (Option Username)
deriving Repr, DecidableEq

/-- A slot: `{"gpu_prices": [...]}`, 8 entries indexed by gpu index. -/
structure Slot where
  gpu_prices : List GpuEntry
deriving Repr, DecidableEq

inductive DayStatus
  | executing
  | opened
  | final
  | future
deriving Repr, DecidableEq

/-- A day record.  Slot keys are absolute hour indices
(`dayKey * 24 + calendarHour`). -/
structure Day where
  status : DayStatus
  finalized_at : Option Nat
  slots : List (Nat × Slot)
deriving Repr, DecidableEq

/-- A user record (fields relevant to the verified claims).  `balance` is
stored in hundredths of a credit: every balance mutation in the source
(integer budget additions, integer payout deductions, the 50% refund of an
integer price and the flat 0.34-credit bulk refund) lands exactly on that
grid, so integer hundredths represent the program's decimal arithmetic
exactly and keep it kernel-computable. -/
structure User where
  username : Username
  weekly_budget : Nat
  balance : Int
  enabled : Bool
  outbid_notification_queue : List (Nat × Nat × Nat)
deriving Repr, DecidableEq

/-- One element of the global bid log. -/
structure LogRecord where
  username : Username
  week : Nat
  slot : Nat
  gpu : Nat
  price : Nat
  timestamp : Nat
deriving Repr, DecidableEq

/-- The persistent scheduler state.  `reserved_slots` maps a day key to the
list of `(slotKey, gpu)` pairs reserved by admins; `day_transition_hour`
is `state["config"]["day_transition_hour"]`. -/
structure SysState where
  users : List (Username × User)
  days : List (Nat × Day)
  bid_log : List LogRecord
  reserved_slots : List (Nat × List (Nat × Nat))
  day_transition_hour : Nat
deriving Repr, DecidableEq

/-- Per-hour usage histograms: day key → slot key → gpu → username → count.
Inner maps are insertion-ordered, mirroring Python dicts. -/
abbrev Samples := List (Username × Nat)
abbrev GpuSamples := List (Nat × Samples)
abbrev SlotSamples := List (Nat × GpuSamples)
abbrev Tracking := List (Nat × SlotSamples)

def NUM_GPUS : Nat := 8
def HOURS_PER_DAY : Nat := 24

/-- `RELEASE_REFUND_CREDITS = 0.34` credits, in hundredths. -/
def RELEASE_REFUND_CENTS : Int := 34

/-- Python truthiness of an optional username (`None` and `""` are falsy). -/
def truthy : Option Username → Bool
  | none => false
  | some s => s ≠ ""

/-- Python `int()` on a balance: truncation toward zero of the credit
value.  The balance is stored in hundredths, so this is `balance / 100`
rounded toward zero (for the non-negative balances arising in practice it
is the floor of the credit value). -/
def pyInt (cents : Int) : Int := Int.tdiv cents 100

/-! ### Clock & calendar helpers -/

/-- `day_start_for`: the logical-day key containing instant `now`
(seconds).  If the calendar hour is before the transition hour we are
still in the previous logical day. -/
def day_start_key (th now : Nat) : Nat :=
  if now % 86400 / 3600 < th then now / 86400 - 1 else now / 86400

/-- `day_close_time(parse_day(key))` in seconds: start + 24h − 1s. -/
def day_close_sec (th key : Nat) : Nat :=
  key * 86400 + th * 3600 + 86399

/-! ### State accessors -/

def statusOf (s : SysState) (k : Nat) : Option DayStatus :=
  (lookupA s.days k).map Day.status

def readSlot (s : SysState) (dk hk : Nat) : Option Slot :=
  match lookupA s.days dk with
  | none => none
  | some d => lookupA d.slots hk

def readEntry (s : SysState) (dk hk : Nat) (g : Nat) : Option GpuEntry :=
  match readSlot s dk hk with
  | none => none
  | some sl => sl.gpu_prices[g]?

/-- Write one entry through its key path (Python mutates the aliased
nested dicts in place; every later read goes through the same keys). -/
def writeEntryIn (s : SysState) (dk hk : Nat) (g : Nat) (e' : GpuEntry) :
    SysState :=
  match lookupA s.days dk with
  | none => s
  | some d =>
    match lookupA d.slots hk with
    | none => s
    | some sl =>
      let sl' : Slot := { gpu_prices := sl.gpu_prices.set g e' }
      let d' : Day := { d with slots := updateA d.slots hk sl' }
      { s with days := updateA s.days dk d' }

def balOf (s : SysState) (u : Username) : Int :=
  match lookupA s.users u with
  | none => 0
  | some usr => usr.balance

/-! ### Day management (`find_day_by_status`, `ensure_day_exists`, ...) -/

def find_day_by_status (s : SysState) (st : DayStatus) : Option (Nat × Day) :=
  s.days.find? (fun kd => kd.2.status = st)

def find_days_by_status (s : SysState) (st : DayStatus) : List (Nat × Day) :=
  sortBy (fun a b => a.1 ≤ b.1) (s.days.filter (fun kd => kd.2.status = st))

def freshEntry (g : Nat) : GpuEntry :=
  { gpu := g, price := 0, winner := none, bids := [], actual_user := none }

def freshSlots (dayKey : Nat) : List (Nat × Slot) :=
  (List.range HOURS_PER_DAY).map
    (fun h => (dayKey * HOURS_PER_DAY + h,
      { gpu_prices := (List.range NUM_GPUS).map freshEntry }))

def freshDay (dayKey : Nat) (st : DayStatus) : Day :=
  { status := st, finalized_at := none, slots := freshSlots dayKey }

/-- `ensure_day_exists`: create the day if missing; if present, set its
status only when no slot of the day has a (truthy) winner. -/
def ensure_day_exists (s : SysState) (k : Nat) (st : DayStatus) : SysState :=
  match lookupA s.days k with
  | some d =>
    let has_data := d.slots.any (fun kv => kv.2.gpu_prices.any (fun e => truthy e.winner))
    let d' := if has_data then d else { d with status := st }
    { s with days := updateA s.days k d' }
  | none => { s with days := s.days ++ [(k, freshDay k st)] }

/-! ### Credit ledger -/

def entryCommitted (u : Username) (e : GpuEntry) : Nat :=
  if e.winner = some u then e.price else 0

def slotCommitted (u : Username) (sl : Slot) : Nat :=
  (sl.gpu_prices.map (entryCommitted u)).sum

def dayCommitted (u : Username) (d : Day) : Nat :=
  (d.slots.map (fun kv => slotCommitted u kv.2)).sum

/-- `committed_for_user`: total price of entries won by `u` over all open
days. -/
def committed_for_user (s : SysState) (u : Username) : Nat :=
  ((find_days_by_status s .opened).map (fun kd => dayCommitted u kd.2)).sum

/-! ### Policy -/

def isReserved (s : SysState) (dk hk : Nat) (g : Nat) : Bool :=
  match lookupA s.reserved_slots dk with
  | none => false
  | some l => (hk, g) ∈ l

/-! ### Bid log -/

/-- Truncate the bid log to its most recent 500 records. -/
def truncLog (l : List LogRecord) : List LogRecord :=
  if 500 < l.length then l.drop (l.length - 500) else l

/-! ### Auction engine -/

/-- Users collected from the entry's bid list who are outbid by a bid of
`uname` (Python builds a set; iteration order only affects which of the
disjoint per-user queues is appended to first, so a first-occurrence list
is state-equivalent). -/
def outbidUsers (bids : List BidRecord) (uname : Username) : List Username :=
  bids.foldl
    (fun acc b =>
      if b.username ≠ "" ∧ b.username ≠ uname ∧ b.username ∉ acc then
        acc ++ [b.username]
      else acc) []

/-- Push `trip` onto each named user's outbid queue unless already queued. -/
def notifyOutbid (users : List (Username × User)) (names : List Username)
    (trip : Nat × Nat × Nat) : List (Username × User) :=
  names.foldl
    (fun us o =>
      match lookupA us o with
      | none => us
      | some ou =>
        if trip ∈ ou.outbid_notification_queue then us
        else updateA us o
          { ou with outbid_notification_queue :=
              ou.outbid_notification_queue ++ [trip] }) users

/-- The state mutation performed by one accepted bid (shared verbatim by
`place_bid` and the execution phase of `place_bulk_bids`). -/
def applyBidMutation (s : SysState) (uname : Username)
    (week slotK g new_price ts : Nat) : SysState :=
  match readEntry s week slotK g with
  | none => s
  | some entry =>
    let outbid := outbidUsers entry.bids uname
    let entry' : GpuEntry :=
      { entry with
          price := new_price
          winner := some uname
          bids := entry.bids ++ [⟨uname, new_price, ts⟩] }
    let s1 := writeEntryIn s week slotK g entry'
    let s2 := { s1 with users := notifyOutbid s1.users outbid (week, slotK, g) }
    { s2 with bid_log := s2.bid_log ++
        [⟨uname, week, slotK, g, new_price, ts⟩] }

/-- `place_bid`: a single bid by `uname` on `(week, slotK, g)` at time
`now`.  An error return happens before any state mutation in the source,
hence the `Except` result. -/
def place_bid (s : SysState) (uname : Username) (week slotK : Nat)
    (g : Nat) (now : Nat) : Except String SysState :=
  if NUM_GPUS ≤ g then .error "GPU index out of range."
  else
    match lookupA s.users uname with
    | none => .error "User not found."
    | some user =>
      match lookupA s.days week with
      | none => .error "Day not found."
      | some day =>
        if day.status ≠ .opened then .error "Bidding is closed for this day."
        else
          match lookupA day.slots slotK with
          | none => .error "Slot not found."
          | some slot =>
            match slot.gpu_prices[g]? with
            | none => .error "Slot entry missing."
            | some entry =>
              if isReserved s week slotK g then
                .error "Slot is reserved by admins."
              else
                let current_price := entry.price
                let new_price := current_price + 1
                let committed0 : Int := committed_for_user s uname
                let avail : Int := pyInt user.balance
                let committed : Int :=
                  if entry.winner = some uname then committed0 - current_price
                  else committed0
                if avail < committed + new_price then
                  .error "Insufficient credits to hold this slot at close."
                else
                  let s' := applyBidMutation s uname week slotK g new_price now
                  .ok { s' with bid_log := truncLog s'.bid_log }

/-- `undo_bid`: revert the caller's own trailing bid, restoring the
client-supplied previous winner and price. -/
def undo_bid (s : SysState) (uname : Username) (week slotK : Nat) (g : Nat)
    (previous_winner : Option Username) (previous_price : Nat) :
    Except String SysState :=
  if NUM_GPUS ≤ g then .error "GPU index out of range."
  else
    match lookupA s.days week with
    | none => .error "Day not found."
    | some day =>
      if day.status ≠ .opened then
        .error "Cannot undo bid - day is not open for bidding."
      else
        match lookupA day.slots slotK with
        | none => .error "Slot not found."
        | some slot =>
          match slot.gpu_prices[g]? with
          | none => .error "Slot entry missing."
          | some entry =>
            if entry.winner ≠ some uname then
              .error "You do not own this slot - cannot undo."
            else if truthy previous_winner ∧ previous_winner ≠ some uname then
              .error "Cannot undo - you outbid another user."
            else
              let bids' :=
                if h : entry.bids ≠ [] then
                  if (entry.bids.getLast h).username = uname then
                    entry.bids.dropLast
                  else entry.bids
                else entry.bids
              let entry' : GpuEntry :=
                { entry with
                    winner := previous_winner
                    price := previous_price
                    bids := bids' }
              .ok (writeEntryIn s week slotK g entry')

/-! ### Release engine -/

/-- `release_slot`: release one owned future slot of the executing day for
a 50% refund. -/
def release_slot (s : SysState) (uname : Username) (dayKey slotK : Nat)
    (g : Nat) (now : Nat) : Except String (SysState × Int) :=
  if NUM_GPUS ≤ g then .error "GPU index out of range."
  else
    match lookupA s.users uname with
    | none => .error "User not found."
    | some user =>
      match lookupA s.days dayKey with
      | none => .error "Day not found."
      | some day =>
        if day.status ≠ .executing then
          .error "Can only release slots from the current executing day."
        else
          match lookupA day.slots slotK with
          | none => .error "Slot not found."
          | some slot =>
            if slot.gpu_prices.length ≤ g then .error "Invalid GPU index."
            else
              match slot.gpu_prices[g]? with
              | none => .error "Slot entry missing."
              | some entry =>
                if entry.winner ≠ some uname then
                  .error "You do not own this slot."
                else if slotK < now / 3600 + 1 then
                  .error "Cannot release slots that have started or are starting within the next hour."
                else
                  let refund : Int := (entry.price : Int) * 50
                  let user' := { user with balance := user.balance + refund }
                  let s1 := { s with users := updateA s.users uname user' }
                  let entry' : GpuEntry :=
                    { entry with winner := none, price := 0 }
                  .ok (writeEntryIn s1 dayKey slotK g entry', refund)

/-- One iteration of the `release_slots_bulk` loop: release the target if
every precondition holds, else leave the state unchanged and count 0. -/
def releaseBulkStep (uname : Username) (now : Nat)
    (acc : SysState × Nat) (v : Nat × Nat × Nat) : SysState × Nat :=
  let (s, cnt) := acc
  let (dk, hk, g) := v
  match lookupA s.days dk with
  | none => (s, cnt)
  | some day =>
    if day.status ≠ .executing then (s, cnt)
    else if hk < now / 3600 + 1 then (s, cnt)
    else
      match lookupA day.slots hk with
      | none => (s, cnt)
      | some slot =>
        if slot.gpu_prices.length ≤ g then (s, cnt)
        else
          match slot.gpu_prices[g]? with
          | none => (s, cnt)
          | some entry =>
            if entry.winner ≠ some uname then (s, cnt)
            else
              let entry' : GpuEntry := { entry with winner := none, price := 0 }
              (writeEntryIn s dk hk g entry', cnt + 1)

/-- `release_slots_bulk`: iterate over the requested targets, silently
skipping any that fails a precondition, then credit a flat refund of
`released_count × 0.34`. -/
def release_slots_bulk (s : SysState) (uname : Username)
    (items : List (Nat × Nat × Nat)) (now : Nat) :
    Except String (SysState × Nat × Int) :=
  if items.isEmpty then .error "No slots provided."
  else if items.any (fun v => NUM_GPUS ≤ v.2.2) then
    .error "GPU index out of range."
  else
    let (s1, released_count) := items.foldl (releaseBulkStep uname now) (s, 0)
    let total_refund : Int := released_count * RELEASE_REFUND_CENTS
    match lookupA s1.users uname with
    | none => .error "User not found."
    | some user =>
      let user' := { user with balance := user.balance + total_refund }
      .ok ({ s1 with users := updateA s1.users uname user' },
           released_count, total_refund)

/-! ### Bulk bids -/

/-- The data captured for one bid during the validation phase of
`place_bulk_bids`. -/
structure BulkValidation where
  week_key : Nat
  slot_key : Nat
  gpu_index : Nat
  current_price : Nat
  new_price : Nat
  is_mine : Bool
deriving Repr, DecidableEq

/-- Lexicographic comparison of `(week, slot, gpu)` triples
(Python tuple ordering used as the `sorted` key). -/
def leTriple (a b : Nat × Nat × Nat) : Bool :=
  a.1 < b.1 ∨ (a.1 = b.1 ∧ (a.2.1 < b.2.1 ∨ (a.2.1 = b.2.1 ∧ a.2.2 ≤ b.2.2)))

/-- First-occurrence deduplication of bid triples. -/
def dedupTriples (l : List (Nat × Nat × Nat)) : List (Nat × Nat × Nat) :=
  l.foldl (fun acc t => if t ∈ acc then acc else acc ++ [t]) []

/-- The per-bid validation phase of `place_bulk_bids`: check every bid and
collect prices; no state is mutated. -/
def validateBulk (s : SysState) (uname : Username) :
    List (Nat × Nat × Nat) → Except String (List BulkValidation)
  | [] => .ok []
  | (wk, sk, g) :: rest =>
    match lookupA s.days wk with
    | none => .error "Day not found."
    | some day =>
      if day.status ≠ .opened then .error "Bidding is closed for this day."
      else
        match lookupA day.slots sk with
        | none => .error "Slot not found."
        | some slot =>
          match slot.gpu_prices[g]? with
          | none => .error "Slot entry missing."
          | some entry =>
            if isReserved s wk sk g then .error "Slot is reserved."
            else
              match validateBulk s uname rest with
              | .error e => .error e
              | .ok vs =>
                .ok (⟨wk, sk, g, entry.price, entry.price + 1,
                      entry.winner = some uname⟩ :: vs)

/-- The execution phase of `place_bulk_bids`: apply every validated bid
with the single shared timestamp `ts`. -/
def execBulk (uname : Username) (ts : Nat) (s : SysState)
    (vs : List BulkValidation) : SysState :=
  vs.foldl
    (fun s v => applyBidMutation s uname v.week_key v.slot_key v.gpu_index
      v.new_price ts) s

/-- `place_bulk_bids`: all-or-nothing multi-bid.  Sort and deduplicate,
validate every bid, check the aggregate cost, then apply all bids with one
shared timestamp.  Any error return happens before any state mutation in
the source. -/
def place_bulk_bids (s : SysState) (uname : Username)
    (bids : List (Nat × Nat × Nat)) (now : Nat) : Except String SysState :=
  if bids.isEmpty then .error "No bids provided."
  else
    let uniq := dedupTriples (sortBy leTriple bids)
    if uniq.any (fun t => NUM_GPUS ≤ t.2.2) then
      .error "GPU index out of range."
    else
      match lookupA s.users uname with
      | none => .error "User not found."
      | some user =>
        match validateBulk s uname uniq with
        | .error e => .error e
        | .ok vs =>
          let committed0 : Int := committed_for_user s uname
          let avail : Int := pyInt user.balance
          let own_current_total : Int :=
            ((vs.filter (fun v => v.is_mine)).map
              (fun v => (v.current_price : Int))).sum
          let total_cost : Int := (vs.map (fun v => (v.new_price : Int))).sum
          if avail < committed0 - own_current_total + total_cost then
            .error "Insufficient credits for all bids."
          else
            let s' := execBulk uname now s vs
            .ok { s' with bid_log := truncLog s'.bid_log }

/-! ### Day-cycle state machine -/

/-- Accumulate `payouts[w] = payouts.get(w, 0.0) + price` (in hundredths
of a credit). -/
def payoutsAdd (acc : List (Username × Int)) (w : Username) (p : Nat) :
    List (Username × Int) :=
  match lookupA acc w with
  | none => acc ++ [(w, (p : Int) * 100)]
  | some old => updateA acc w (old + (p : Int) * 100)

/-- One entry's contribution to the payouts of the promoted day: truthy
winners accumulate their price. -/
def payoutEntry (acc : List (Username × Int)) (e : GpuEntry) :
    List (Username × Int) :=
  match e.winner with
  | some w => if w ≠ "" then payoutsAdd acc w e.price else acc
  | none => acc

def payoutSlot (acc : List (Username × Int)) (kv : Nat × Slot) :
    List (Username × Int) :=
  kv.2.gpu_prices.foldl payoutEntry acc

/-- Credits owed per winner of the day being promoted (hundredths). -/
def payoutsOf (d : Day) : List (Username × Int) :=
  d.slots.foldl payoutSlot []

/-- Deduct each payout from the winner's balance, floored at zero. -/
def apply_payout_deductions (users : List (Username × User))
    (payouts : List (Username × Int)) : List (Username × User) :=
  payouts.foldl
    (fun us wa =>
      match lookupA us wa.1 with
      | none => us
      | some u => updateA us wa.1
          { u with balance := max 0 (u.balance - wa.2) }) users

/-- Add the daily budget to every enabled user's balance. -/
def apply_daily_budgets (users : List (Username × User)) :
    List (Username × User) :=
  users.map
    (fun nu =>
      if nu.2.enabled then
        (nu.1, { nu.2 with balance := nu.2.balance + (nu.2.weekly_budget : Int) * 100 })
      else nu)

/-- `current_day["status"] = FINAL; set finalized_at only if unset`. -/
def advanceFinalizeCurrent (s : SysState) (ck now : Nat) : SysState :=
  match lookupA s.days ck with
  | none => s
  | some d =>
    let d' : Day :=
      { d with
          status := .final
          finalized_at :=
            match d.finalized_at with
            | some t => some t
            | none => some now }
    { s with days := updateA s.days ck d' }

/-- `next_day_data["status"] = CURRENT; finalized_at = now`. -/
def advancePromoteNext (s : SysState) (nk now : Nat) : SysState :=
  match lookupA s.days nk with
  | none => s
  | some d =>
    let d' : Day := { d with status := .executing, finalized_at := some now }
    { s with days := updateA s.days nk d' }

/-- `advance_day_cycle`: finalize the executing day, charge the winners of
the earliest open day, add daily budgets, promote that day to executing and
create a fresh sixth open day. -/
def advance_day_cycle (s : SysState) (now : Nat) : Except String SysState :=
  match find_days_by_status s .opened with
  | [] => .error "No open days to promote."
  | (next_key, next_day) :: _ =>
    let current_key :=
      match find_day_by_status s .executing with
      | some kd => kd.1
      | none => day_start_key s.day_transition_hour now
    let s1 :=
      match find_day_by_status s .executing with
      | some _ => s
      | none => ensure_day_exists s current_key .executing
    let payouts := payoutsOf next_day
    let s2 := { s1 with users := apply_payout_deductions s1.users payouts }
    let s3 := { s2 with users := apply_daily_budgets s2.users }
    let s4 := advanceFinalizeCurrent s3 current_key now
    let s5 := advancePromoteNext s4 next_key now
    let new_open_key := next_key + 6
    let s6 := { s5 with days := removeA s5.days new_open_key }
    .ok (ensure_day_exists s6 new_open_key .opened)

/-- The bounded catch-up loop of `maybe_auto_advance` (at most 10
advancement cycles per invocation; an error result does not break the
loop in the source, it merely repeats). -/
def autoAdvanceLoop (now : Nat) : Nat → SysState → SysState
  | 0, s => s
  | n + 1, s =>
    match find_day_by_status s .executing with
    | none => s
    | some kd =>
      if now < day_close_sec s.day_transition_hour kd.1 then s
      else
        match advance_day_cycle s now with
        | .ok s' => autoAdvanceLoop now n s'
        | .error _ => autoAdvanceLoop now n s

def maybe_auto_advance (s : SysState) (now : Nat) : SysState :=
  autoAdvanceLoop now 10 s

/-! ### Telemetry ingestion and finalization -/

def trackLookup (tr : Tracking) (d h g : Nat) : Option Samples :=
  match lookupA tr d with
  | none => none
  | some ss =>
    match lookupA ss h with
    | none => none
    | some gs => lookupA gs g

/-- Write the sample map at `(d, h, g)`; requires the day and slot levels
to exist (they are created by `process_gpu_status` before this is used). -/
def trackSet (tr : Tracking) (d h g : Nat) (v : Samples) : Tracking :=
  match lookupA tr d with
  | none => tr
  | some ss =>
    match lookupA ss h with
    | none => tr
    | some gs => updateA tr d (updateA ss h (updateA gs g v))

/-- `if k not in d: d[k] = dflt`. -/
def ensureA {β : Type} (l : List (Nat × β)) (k : Nat) (dflt : β) :
    List (Nat × β) :=
  match lookupA l k with
  | some _ => l
  | none => l ++ [(k, dflt)]

/-- One username sample of `process_gpu_status`: empty usernames are
skipped, any other bumps its count at `(wk, sk, g)`. -/
def pollUser (wk sk g : Nat) (tr : Tracking) (u : Username) : Tracking :=
  if u ≠ "" then
    let counts :=
      match trackLookup tr wk sk g with
      | some m => m
      | none => []
    let old :=
      match lookupA counts u with
      | some c => c
      | none => 0
    trackSet tr wk sk g (updateA counts u (old + 1))
  else tr

/-- One usage item of `process_gpu_status`: out-of-range gpu indices are
skipped; otherwise the gpu's sample map is materialised (possibly empty)
and each listed username is sampled. -/
def pollGpu (wk sk : Nat) (tr : Tracking) (gv : Nat × List Username) :
    Tracking :=
  if NUM_GPUS ≤ gv.1 then tr
  else
    let cur :=
      match trackLookup tr wk sk gv.1 with
      | some m => m
      | none => []
    let tr1 := trackSet tr wk sk gv.1 cur
    gv.2.foldl (pollUser wk sk gv.1) tr1

/-- The sample-recording effect of `process_gpu_status` (the bearer-token
check, the live-usage view and the clock-skew warning do not touch the
histograms).  The server clock decides the target `(day, slot)`. -/
def process_gpu_status (s : SysState) (tr : Tracking)
    (usage : List (Nat × List Username)) (now : Nat) : Tracking :=
  let week_key := day_start_key s.day_transition_hour now
  let slot_key := now / 3600
  let tr1 := ensureA tr week_key []
  let tr2 :=
    match lookupA tr1 week_key with
    | none => tr1
    | some ss => updateA tr1 week_key (ensureA ss slot_key [])
  usage.foldl (pollGpu week_key slot_key) tr2

/-- `max(user_counts.items(), key=count)[0]`: the first-seen username with
the maximal sample count (Python `max` keeps the earlier item on ties). -/
def argmaxFirst (l : Samples) : Option Username :=
  match l with
  | [] => none
  | x :: xs =>
    some (xs.foldl (fun best y => if best.2 < y.2 then y else best) x).1

/-- Innermost step of `finalize_past_gpu_slots`: write `actual_user` for
one tracked GPU if the entry exists and does not carry the field yet. -/
def finalizeGpu (dk hk : Nat) (acc : SysState × Nat) (gkv : Nat × Samples) :
    SysState × Nat :=
  match readSlot acc.1 dk hk with
  | none => acc
  | some slot =>
    if slot.gpu_prices.length ≤ gkv.1 then acc
    else
      match slot.gpu_prices[gkv.1]? with
      | none => acc
      | some entry =>
        if entry.actual_user.isSome then acc
        else
          (writeEntryIn acc.1 dk hk gkv.1
            { entry with actual_user := some (argmaxFirst gkv.2) },
           acc.2 + 1)

/-- Per-slot step of `finalize_past_gpu_slots`: only slots whose end is at
or before the current hour start are finalized. -/
def finalizeSlot (now dk : Nat) (acc : SysState × Nat)
    (skv : Nat × GpuSamples) : SysState × Nat :=
  if now / 3600 < skv.1 + 1 then acc
  else
    match readSlot acc.1 dk skv.1 with
    | none => acc
    | some _ => skv.2.foldl (finalizeGpu dk skv.1) acc

/-- Per-day step of `finalize_past_gpu_slots`: only executing or final
days are considered. -/
def finalizeDay (now : Nat) (acc : SysState × Nat) (dkv : Nat × SlotSamples) :
    SysState × Nat :=
  match lookupA acc.1.days dkv.1 with
  | none => acc
  | some day =>
    if day.status = .executing ∨ day.status = .final then
      dkv.2.foldl (finalizeSlot now dkv.1) acc
    else acc

/-- The tracking days kept by the cleanup pass: today through 7 days back. -/
def daysToKeep (th now : Nat) : List Nat :=
  (List.range 8).map (fun i => day_start_key th now + i - 7)

/-- `finalize_past_gpu_slots`: label completed tracked slots with their
observed `actual_user`, then prune histograms older than 7 days. -/
def finalize_past_gpu_slots (s : SysState) (tr : Tracking) (now : Nat) :
    SysState × Tracking × Nat :=
  let p := tr.foldl (finalizeDay now) (s, 0)
  let keep := daysToKeep s.day_transition_hour now
  (p.1, tr.filter (fun kv => kv.1 ∈ keep), p.2)

/-- One step of the open-day maintenance loop: create the day at
`ck + i + 1` if missing, else force its status to open. -/
def ensureOpen (ck : Nat) (s : SysState) (i : Nat) : SysState :=
  let dk := ck + i + 1
  match lookupA s.days dk with
  | none => ensure_day_exists s dk .opened
  | some d =>
    if d.status ≠ .opened then
      { s with days := updateA s.days dk { d with status := .opened } }
    else s

/-- `update_system_state`: ensure the executing day and the six following
open days exist, auto-advance while the executing day's close has passed,
then finalize completed tracked slots. -/
def update_system_state (s0 : SysState) (tr : Tracking) (now : Nat) :
    SysState × Tracking :=
  let current_key :=
    match find_day_by_status s0 .executing with
    | some kd => kd.1
    | none => day_start_key s0.day_transition_hour now
  let s1 :=
    match find_day_by_status s0 .executing with
    | some _ => s0
    | none => ensure_day_exists s0 current_key .executing
  let s2 := (List.range 6).foldl (ensureOpen current_key) s1
  let s3 := maybe_auto_advance s2 now
  let r := finalize_past_gpu_slots s3 tr now
  (r.1, r.2.1)

/-! ### Well-formedness

Python dictionaries have unique keys and every slot dict is created with
exactly 8 GPU entries; the embedding states these facts explicitly. -/

def SlotsWF (d : Day) : Prop :=
  (d.slots.map Prod.fst).Nodup ∧
  ∀ hs ∈ d.slots, hs.2.gpu_prices.length = NUM_GPUS

def WF (s : SysState) : Prop :=
  (s.days.map Prod.fst).Nodup ∧
  (s.users.map Prod.fst).Nodup ∧
  ∀ kd ∈ s.days, SlotsWF kd.2

instance (d : Day) : Decidable (SlotsWF d) := by
  unfold SlotsWF; infer_instance

instance (s : SysState) : Decidable (WF s) := by
  unfold WF; infer_instance

/-! ### Generic lemmas about `writeEntryIn` -/

theorem writeEntryIn_users (s : SysState) (dk hk g : Nat) (e' : GpuEntry) :
    (writeEntryIn s dk hk g e').users = s.users := by
  unfold writeEntryIn
  split
  · rfl
  · split
    · rfl
    · rfl

theorem writeEntryIn_bid_log (s : SysState) (dk hk g : Nat) (e' : GpuEntry) :
    (writeEntryIn s dk hk g e').bid_log = s.bid_log := by
  unfold writeEntryIn
  split
  · rfl
  · split
    · rfl
    · rfl

theorem writeEntryIn_reserved (s : SysState) (dk hk g : Nat) (e' : GpuEntry) :
    (writeEntryIn s dk hk g e').reserved_slots = s.reserved_slots := by
  unfold writeEntryIn
  split
  · rfl
  · split
    · rfl
    · rfl

theorem writeEntryIn_th (s : SysState) (dk hk g : Nat) (e' : GpuEntry) :
    (writeEntryIn s dk hk g e').day_transition_hour = s.day_transition_hour := by
  unfold writeEntryIn
  split
  · rfl
  · split
    · rfl
    · rfl

theorem statusOf_writeEntryIn (s : SysState) (dk hk g : Nat) (e' : GpuEntry)
    (k : Nat) : statusOf (writeEntryIn s dk hk g e') k = statusOf s k := by
  unfold writeEntryIn
  split
  · rfl
  next d hd =>
    split
    · rfl
    next sl hs =>
      unfold statusOf
      by_cases hkk : k = dk
      · subst hkk
        simp [lookupA_updateA_self, hd]
      · simp [lookupA_updateA_ne _ _ _ _ hkk]

theorem readEntry_writeEntryIn_self (s : SysState) (dk hk g : Nat)
    (d : Day) (sl : Slot) (e' : GpuEntry)
    (h1 : lookupA s.days dk = some d) (h2 : lookupA d.slots hk = some sl)
    (h3 : g < sl.gpu_prices.length) :
    readEntry (writeEntryIn s dk hk g e') dk hk g = some e' := by
  unfold writeEntryIn
  split
  next hd => rw [h1] at hd; cases hd
  next d0 hd =>
    rw [h1] at hd
    injection hd with hdd
    subst hdd
    split
    next hs => rw [h2] at hs; cases hs
    next sl0 hs =>
      rw [h2] at hs
      injection hs with hss
      subst hss
      unfold readEntry readSlot
      simp only [lookupA_updateA_self]
      simp [List.getElem?_set_self', h3]

theorem readSlot_writeEntryIn_other_slot (s : SysState) (dk hk g : Nat)
    (e' : GpuEntry) (dk' hk' : Nat) (hne : dk' ≠ dk ∨ hk' ≠ hk) :
    readSlot (writeEntryIn s dk hk g e') dk' hk' = readSlot s dk' hk' := by
  unfold writeEntryIn
  split
  · rfl
  next d hd =>
    split
    · rfl
    next sl hs =>
      unfold readSlot
      by_cases hdd : dk' = dk
      · subst hdd
        rcases hne with hne | hne
        · exact absurd rfl hne
        · simp [lookupA_updateA_self, hd, lookupA_updateA_ne _ _ _ _ hne]
      · simp [lookupA_updateA_ne _ _ _ _ hdd]

theorem readSlot_writeEntryIn_len (s : SysState) (dk hk g : Nat)
    (e' : GpuEntry) (dk' hk' : Nat) :
    (readSlot (writeEntryIn s dk hk g e') dk' hk').map
        (fun sl => sl.gpu_prices.length) =
      (readSlot s dk' hk').map (fun sl => sl.gpu_prices.length) := by
  unfold writeEntryIn
  split
  · rfl
  next d hd =>
    split
    · rfl
    next sl hs =>
      unfold readSlot
      by_cases hdd : dk' = dk
      · subst hdd
        simp only [lookupA_updateA_self, hd]
        by_cases hkk : hk' = hk
        · subst hkk
          simp [lookupA_updateA_self, hs]
        · simp [lookupA_updateA_ne _ _ _ _ hkk]
      · simp [lookupA_updateA_ne _ _ _ _ hdd]

theorem readEntry_writeEntryIn_other (s : SysState) (dk hk g : Nat)
    (e' : GpuEntry) (dk' hk' g' : Nat)
    (hne : dk' ≠ dk ∨ hk' ≠ hk ∨ g' ≠ g) :
    readEntry (writeEntryIn s dk hk g e') dk' hk' g' =
      readEntry s dk' hk' g' := by
  by_cases hslot : dk' ≠ dk ∨ hk' ≠ hk
  · unfold readEntry
    rw [readSlot_writeEntryIn_other_slot s dk hk g e' dk' hk' hslot]
  · push_neg at hslot
    obtain ⟨hd, hk'eq⟩ := hslot
    subst hd
    subst hk'eq
    have hg : g' ≠ g := by
      rcases hne with h | h | h
      · exact absurd rfl h
      · exact absurd rfl h
      · exact h
    unfold writeEntryIn
    split
    · rfl
    next d hd =>
      split
      · rfl
      next sl hs =>
        unfold readEntry readSlot
        simp only [lookupA_updateA_self, hd, hs]
        simp [List.getElem?_set_ne (Ne.symm hg)]

/-! ### C7: single release -/

/-- C7: `release_slot` succeeds only when the day is executing, the caller
is the entry's winner and the slot hour is at least the next full hour
(`now / 3600 + 1 ≤ hk`, equality accepted); on success the entry's winner
becomes null, its price 0, the caller's balance grows by exactly half the
previous price (50 hundredths per price unit), and no other entry changes.
A slot starting before the boundary is rejected. -/
theorem release_slot_correct (s : SysState) (u : Username)
    (dk hk g now : Nat) :
    (∀ s' refund, release_slot s u dk hk g now = .ok (s', refund) →
      ∃ day slot entry user,
        lookupA s.days dk = some day ∧ day.status = .executing ∧
        lookupA day.slots hk = some slot ∧
        slot.gpu_prices[g]? = some entry ∧
        lookupA s.users u = some user ∧
        entry.winner = some u ∧
        now / 3600 + 1 ≤ hk ∧
        refund = (entry.price : Int) * 50 ∧
        readEntry s' dk hk g =
          some { entry with winner := none, price := 0 } ∧
        balOf s' u = balOf s u + (entry.price : Int) * 50 ∧
        (∀ dk' hk' g', dk' ≠ dk ∨ hk' ≠ hk ∨ g' ≠ g →
          readEntry s' dk' hk' g' = readEntry s dk' hk' g')) ∧
    (hk < now / 3600 + 1 →
      ∀ r, release_slot s u dk hk g now ≠ .ok r) := by
  have hmain : ∀ s' refund, release_slot s u dk hk g now = .ok (s', refund) →
      ∃ day slot entry user,
        lookupA s.days dk = some day ∧ day.status = .executing ∧
        lookupA day.slots hk = some slot ∧
        slot.gpu_prices[g]? = some entry ∧
        lookupA s.users u = some user ∧
        entry.winner = some u ∧
        now / 3600 + 1 ≤ hk ∧
        refund = (entry.price : Int) * 50 ∧
        readEntry s' dk hk g =
          some { entry with winner := none, price := 0 } ∧
        balOf s' u = balOf s u + (entry.price : Int) * 50 ∧
        (∀ dk' hk' g', dk' ≠ dk ∨ hk' ≠ hk ∨ g' ≠ g →
          readEntry s' dk' hk' g' = readEntry s dk' hk' g') := by
    intro s' refund h
    unfold release_slot at h
    split at h
    · exact Except.noConfusion h
    split at h
    · exact Except.noConfusion h
    next user huser =>
    split at h
    · exact Except.noConfusion h
    next day hday =>
    split at h
    · exact Except.noConfusion h
    next hstat =>
    split at h
    · exact Except.noConfusion h
    next slot hslot =>
    split at h
    · exact Except.noConfusion h
    next hlen =>
    split at h
    · exact Except.noConfusion h
    next entry hentry =>
    split at h
    · exact Except.noConfusion h
    next hwin =>
    split at h
    · exact Except.noConfusion h
    next htime =>
    injection h with hpair
    rw [Prod.ext_iff] at hpair
    obtain ⟨hs', hr⟩ := hpair
    subst hs'
    subst hr
    have hstat' : day.status = .executing := not_not.mp hstat
    have hwin' : entry.winner = some u := not_not.mp hwin
    have htime' : now / 3600 + 1 ≤ hk := Nat.not_lt.mp htime
    have hglen : g < slot.gpu_prices.length := Nat.not_le.mp hlen
    refine ⟨day, slot, entry, user, hday, hstat', hslot, hentry, huser,
      hwin', htime', rfl, ?_, ?_, ?_⟩
    · exact readEntry_writeEntryIn_self _ dk hk g day slot _ hday hslot hglen
    · unfold balOf
      rw [writeEntryIn_users]
      simp only [lookupA_updateA_self, huser]
    · intro dk' hk' g' hne
      rw [readEntry_writeEntryIn_other _ dk hk g _ dk' hk' g' hne]
      rfl
  refine ⟨hmain, ?_⟩
  intro htime r hok
  obtain ⟨day, slot, entry, user, _, _, _, _, _, _, hle, _⟩ :=
    hmain r.1 r.2 hok
  exact absurd hle (Nat.not_le.mpr htime)

/-! ### Concrete states used by witnesses and counterexamples -/

/-- A user with a given balance (hundredths) and empty queue. -/
def mkUser (n : Username) (b : Int) : User :=
  { username := n, weekly_budget := 100, balance := b, enabled := true,
    outbid_notification_queue := [] }

/-- One slot of day 10 (hour `10*24+20 = 260`) whose gpu 2 is owned by
`"u1"` at price 5. -/
def ownedSlot : Slot :=
  { gpu_prices := (List.range NUM_GPUS).map (fun g =>
      if g = 2 then
        { gpu := 2, price := 5, winner := some "u1",
          bids := [⟨"u1", 5, 0⟩], actual_user := none }
      else freshEntry g) }

def ownedDay : Day :=
  let d := freshDay 10 .executing
  { d with slots := updateA d.slots 260 ownedSlot }

/-- Executing day 10 where `"u1"` owns `(10, 260, 2)` at price 5. -/
def relState : SysState :=
  { users := [("u1", mkUser "u1" 0)]
    days := [(10, ownedDay)]
    bid_log := []
    reserved_slots := []
    day_transition_hour := 0 }

/-- Witness for C7, applying `release_slot_correct` at a concrete input:
at `now = 260` hours sharp the slot at hour 260 has started, so the
release is rejected. -/
theorem release_slot_correct_witness :
    (release_slot relState "u1" 10 260 2 (260 * 3600)).isOk = false := by
  cases hret : release_slot relState "u1" 10 260 2 (260 * 3600) with
  | error e => rfl
  | ok r =>
    exact absurd hret
      ((release_slot_correct relState "u1" 10 260 2 (260 * 3600)).2
        (by decide) r)

/-! ### C9: undo against a third party's entry -/

/-- C9: when the caller owns the entry on an open day but supplies a
`previous_winner` that is a (truthy) third party, `undo_bid` returns the
conflict error.  The source returns before any assignment, so the entry,
every user's notification queue and the whole state are untouched — the
embedding returns the error without constructing any successor state. -/
theorem undo_bid_third_party_rejected (s : SysState) (u : Username)
    (dk hk g : Nat) (pw : Username) (pp : Nat)
    (day : Day) (slot : Slot) (entry : GpuEntry)
    (hg : g < NUM_GPUS)
    (hday : lookupA s.days dk = some day)
    (hopen : day.status = .opened)
    (hslot : lookupA day.slots hk = some slot)
    (hentry : slot.gpu_prices[g]? = some entry)
    (hown : entry.winner = some u)
    (hpw1 : pw ≠ "") (hpw2 : pw ≠ u) :
    undo_bid s u dk hk g (some pw) pp =
      .error "Cannot undo - you outbid another user." := by
  have hngle : ¬ NUM_GPUS ≤ g := Nat.not_le.mpr hg
  simp only [undo_bid, hngle, if_false, hday, hslot, hentry, hopen, hown,
    truthy]
  rw [if_neg (by simp)]
  rw [if_neg (by simp)]
  rw [if_pos ⟨by simp [hpw1], by simp [hpw2]⟩]

/-- A state in which `"u1"` has just outbid `"u2"` on entry
`(11, 269, 3)` of an open day, and `"u2"` already carries the outbid
notification for that slot. -/
def outbidSlot : Slot :=
  { gpu_prices := (List.range NUM_GPUS).map (fun g =>
      if g = 3 then
        { gpu := 3, price := 2, winner := some "u1",
          bids := [⟨"u2", 1, 10⟩, ⟨"u1", 2, 20⟩], actual_user := none }
      else freshEntry g) }

def outbidDay : Day :=
  let d := freshDay 11 .opened
  { d with slots := updateA d.slots 269 outbidSlot }

def undoState : SysState :=
  { users := [("u1", mkUser "u1" 10000),
              ("u2", { mkUser "u2" 10000 with
                  outbid_notification_queue := [(11, 269, 3)] })]
    days := [(11, outbidDay)]
    bid_log := []
    reserved_slots := []
    day_transition_hour := 0 }

/-- Witness for C9, applying `undo_bid_third_party_rejected` at a concrete
input: `"u1"`'s undo naming the displaced `"u2"` is rejected with the
conflict error. -/
theorem undo_bid_third_party_rejected_witness :
    undo_bid undoState "u1" 11 269 3 (some "u2") 1 =
      .error "Cannot undo - you outbid another user." :=
  undo_bid_third_party_rejected undoState "u1" 11 269 3 "u2" 1
    outbidDay outbidSlot
    { gpu := 3, price := 2, winner := some "u1",
      bids := [⟨"u2", 1, 10⟩, ⟨"u1", 2, 20⟩], actual_user := none }
    (by decide) (by decide) (by decide) (by decide) (by decide) (by decide)
    (by decide) (by decide)

/-! ### C5: the price/winner invariant (I3) -/

/-- Invariant I3 for one entry: `price ≥ 1` iff `winner ≠ null` (since the
price is a natural number, `winner = null` then forces `price = 0`). -/
def EntryInv (e : GpuEntry) : Prop := 1 ≤ e.price ↔ e.winner ≠ none

/-- I3 over every entry of every slot of every day. -/
def StateInv (s : SysState) : Prop :=
  ∀ kd ∈ s.days, ∀ hsl ∈ kd.2.slots, ∀ e ∈ hsl.2.gpu_prices, EntryInv e

instance (e : GpuEntry) : Decidable (EntryInv e) := by
  unfold EntryInv; infer_instance

instance (s : SysState) : Decidable (StateInv s) := by
  unfold StateInv; infer_instance

theorem EntryInv_fresh (g : Nat) : EntryInv (freshEntry g) := by
  simp [EntryInv, freshEntry]

theorem StateInv_freshDay (k : Nat) (st : DayStatus) (hsl : Nat × Slot)
    (hmem : hsl ∈ (freshDay k st).slots) (e : GpuEntry)
    (he : e ∈ hsl.2.gpu_prices) : EntryInv e := by
  simp only [freshDay, freshSlots, List.mem_map] at hmem
  obtain ⟨h, _, rfl⟩ := hmem
  simp only [List.mem_map] at he
  obtain ⟨g, _, rfl⟩ := he
  exact EntryInv_fresh g

theorem StateInv_writeEntryIn {s : SysState} {e' : GpuEntry}
    (dk hk g : Nat) (hinv : StateInv s) (he : EntryInv e') :
    StateInv (writeEntryIn s dk hk g e') := by
  unfold writeEntryIn
  split
  · exact hinv
  next d hd =>
  split
  · exact hinv
  next sl hs =>
  intro kd hkd hsl hmem e hmem2
  rcases mem_updateA hkd with hkd | hkd
  · exact hinv kd hkd hsl hmem e hmem2
  · subst hkd
    rcases mem_updateA hmem with hmem | hmem
    · exact hinv (dk, d) (mem_of_lookupA_eq_some hd) hsl hmem e hmem2
    · subst hmem
      rcases List.mem_or_eq_of_mem_set hmem2 with hmem2 | hmem2
      · exact hinv (dk, d) (mem_of_lookupA_eq_some hd) (hk, sl)
          (mem_of_lookupA_eq_some hs) e hmem2
      · exact hmem2 ▸ he

theorem StateInv_update_day {s : SysState} {k : Nat} {d d' : Day}
    (hd : lookupA s.days k = some d) (hslots : d'.slots = d.slots)
    (hinv : StateInv s) :
    StateInv { s with days := updateA s.days k d' } := by
  intro kd hkd hsl hmem e hmem2
  rcases mem_updateA hkd with hkd | hkd
  · exact hinv kd hkd hsl hmem e hmem2
  · subst hkd
    rw [hslots] at hmem
    exact hinv (k, d) (mem_of_lookupA_eq_some hd) hsl hmem e hmem2

theorem StateInv_removeA {s : SysState} (k : Nat) (hinv : StateInv s) :
    StateInv { s with days := removeA s.days k } :=
  fun kd hkd => hinv kd (mem_removeA hkd)

/-- `StateInv` only inspects the days, so any state with definitionally
equal days inherits it. -/
theorem StateInv_of_days_eq {s t : SysState} (hdays : t.days = s.days)
    (hinv : StateInv s) : StateInv t := by
  intro kd hkd
  exact hinv kd (hdays ▸ hkd)

theorem StateInv_ensure_day_exists {s : SysState} (k : Nat) (st : DayStatus)
    (hinv : StateInv s) : StateInv (ensure_day_exists s k st) := by
  unfold ensure_day_exists
  split
  next d hd =>
    dsimp only
    split
    · exact StateInv_update_day hd rfl hinv
    · exact StateInv_update_day hd rfl hinv
  next hd =>
    intro kd hkd hsl hmem e hmem2
    rcases List.mem_append.mp hkd with hkd | hkd
    · exact hinv kd hkd hsl hmem e hmem2
    · simp only [List.mem_singleton] at hkd
      subst hkd
      exact StateInv_freshDay k st hsl hmem e hmem2

theorem StateInv_applyBidMutation (s : SysState) (u : Username)
    (wk sk g np ts : Nat) (hinv : StateInv s) (hnp : 1 ≤ np) :
    StateInv (applyBidMutation s u wk sk g np ts) := by
  unfold applyBidMutation
  split
  · exact hinv
  next entry hre =>
    exact StateInv_writeEntryIn wk sk g hinv (by simp [EntryInv, hnp])

/-- Full inversion of a successful `place_bid`: all preconditions held and
the successor state is the single-bid mutation at price `entry.price + 1`
followed by the bid-log truncation. -/
theorem place_bid_ok_elim {s : SysState} {u : Username} {wk sk g now : Nat}
    {s' : SysState} (h : place_bid s u wk sk g now = .ok s') :
    ∃ user day slot entry,
      g < NUM_GPUS ∧
      lookupA s.users u = some user ∧
      lookupA s.days wk = some day ∧
      day.status = .opened ∧
      lookupA day.slots sk = some slot ∧
      slot.gpu_prices[g]? = some entry ∧
      isReserved s wk sk g = false ∧
      (committed_for_user s u : Int) -
        (if entry.winner = some u then (entry.price : Int) else 0) +
        ((entry.price : Int) + 1) ≤ pyInt user.balance ∧
      s' = { applyBidMutation s u wk sk g (entry.price + 1) now with
             bid_log := truncLog
               (applyBidMutation s u wk sk g (entry.price + 1) now).bid_log } := by
  unfold place_bid at h
  split at h
  · exact Except.noConfusion h
  next hg =>
  split at h
  · exact Except.noConfusion h
  next user huser =>
  split at h
  · exact Except.noConfusion h
  next day hday =>
  split at h
  · exact Except.noConfusion h
  next hstat =>
  split at h
  · exact Except.noConfusion h
  next slot hslot =>
  split at h
  · exact Except.noConfusion h
  next entry hentry =>
  split at h
  · exact Except.noConfusion h
  next hres =>
  dsimp only at h
  refine ⟨user, day, slot, entry, Nat.not_le.mp hg, huser, hday,
    not_not.mp hstat, hslot, hentry, by simpa using hres, ?_, ?_⟩
  · by_cases hw : entry.winner = some u
    · rw [if_pos hw] at h
      split at h
      · exact Except.noConfusion h
      next hins =>
        rw [if_pos hw]
        have := Int.not_lt.mp hins
        push_cast at this ⊢
        linarith
    · rw [if_neg hw] at h
      split at h
      · exact Except.noConfusion h
      next hins =>
        rw [if_neg hw]
        have := Int.not_lt.mp hins
        push_cast at this ⊢
        linarith
  · by_cases hw : entry.winner = some u
    · rw [if_pos hw] at h
      split at h
      · exact Except.noConfusion h
      · injection h with hs'
        exact hs'.symm
    · rw [if_neg hw] at h
      split at h
      · exact Except.noConfusion h
      · injection h with hs'
        exact hs'.symm

theorem place_bid_ok_inv {s : SysState} {u : Username} {wk sk g now : Nat}
    {s' : SysState} (h : place_bid s u wk sk g now = .ok s')
    (hinv : StateInv s) : StateInv s' := by
  obtain ⟨user, day, slot, entry, _, _, _, _, _, _, _, _, hs'⟩ :=
    place_bid_ok_elim h
  subst hs'
  exact StateInv_applyBidMutation s u wk sk g _ now hinv (Nat.le_add_left 1 _)

theorem validateBulk_new_price {s : SysState} {u : Username}
    {bids : List (Nat × Nat × Nat)} {vs : List BulkValidation}
    (h : validateBulk s u bids = .ok vs) :
    ∀ v ∈ vs, v.new_price = v.current_price + 1 := by
  induction bids generalizing vs with
  | nil =>
    simp only [validateBulk] at h
    injection h with h
    subst h
    simp
  | cons b rest ih =>
    obtain ⟨wk, sk, g⟩ := b
    unfold validateBulk at h
    split at h
    · exact Except.noConfusion h
    next day hday =>
    split at h
    · exact Except.noConfusion h
    split at h
    · exact Except.noConfusion h
    next slot hslot =>
    split at h
    · exact Except.noConfusion h
    next entry hentry =>
    split at h
    · exact Except.noConfusion h
    split at h
    · exact Except.noConfusion h
    next vs0 hvs0 =>
    injection h with h
    subst h
    intro v hv
    rcases List.mem_cons.mp hv with hv | hv
    · subst hv; rfl
    · exact ih hvs0 v hv

theorem execBulk_inv (u : Username) (ts : Nat) (s : SysState)
    (vs : List BulkValidation) (hinv : StateInv s)
    (hnp : ∀ v ∈ vs, 1 ≤ v.new_price) :
    StateInv (execBulk u ts s vs) := by
  induction vs generalizing s with
  | nil => exact hinv
  | cons v rest ih =>
    exact ih _
      (StateInv_applyBidMutation s u v.week_key v.slot_key v.gpu_index
        v.new_price ts hinv (hnp v (List.mem_cons_self _ _)))
      (fun w hw => hnp w (List.mem_cons_of_mem _ hw))

/-- Full inversion of a successful `place_bulk_bids`: every constituent
bid validated, the aggregate cost fit the balance, and the successor state
is the shared-timestamp execution of all validated bids followed by the
bid-log truncation. -/
theorem place_bulk_bids_ok_elim {s : SysState} {u : Username}
    {bids : List (Nat × Nat × Nat)} {now : Nat} {s' : SysState}
    (h : place_bulk_bids s u bids now = .ok s') :
    ∃ user vs,
      bids.isEmpty = false ∧
      ((dedupTriples (sortBy leTriple bids)).any
        (fun t => decide (NUM_GPUS ≤ t.2.2))) = false ∧
      lookupA s.users u = some user ∧
      validateBulk s u (dedupTriples (sortBy leTriple bids)) = .ok vs ∧
      (committed_for_user s u : Int) -
        ((vs.filter (fun v => v.is_mine)).map
          (fun v => (v.current_price : Int))).sum +
        (vs.map (fun v => (v.new_price : Int))).sum ≤ pyInt user.balance ∧
      s' = { execBulk u now s vs with
             bid_log := truncLog (execBulk u now s vs).bid_log } := by
  unfold place_bulk_bids at h
  split at h
  · exact Except.noConfusion h
  next hne =>
  dsimp only at h
  split at h
  · exact Except.noConfusion h
  next hgpu =>
  split at h
  · exact Except.noConfusion h
  next user huser =>
  split at h
  · exact Except.noConfusion h
  next vs hvs =>
  split at h
  · exact Except.noConfusion h
  next hins =>
  injection h with hs'
  refine ⟨user, vs, by simpa using hne, by simpa using hgpu, huser, hvs,
    ?_, hs'.symm⟩
  have := Int.not_lt.mp hins
  linarith

theorem place_bulk_bids_ok_inv {s : SysState} {u : Username}
    {bids : List (Nat × Nat × Nat)} {now : Nat} {s' : SysState}
    (h : place_bulk_bids s u bids now = .ok s')
    (hinv : StateInv s) : StateInv s' := by
  obtain ⟨user, vs, _, _, _, hvs, _, hs'⟩ := place_bulk_bids_ok_elim h
  subst hs'
  refine execBulk_inv u now s vs hinv ?_
  intro v hv
  rw [validateBulk_new_price hvs v hv]
  exact Nat.le_add_left 1 _

theorem undo_bid_ok_inv {s : SysState} {u : Username} {wk sk g : Nat}
    {pw : Option Username} {pp : Nat} {s' : SysState}
    (h : undo_bid s u wk sk g pw pp = .ok s')
    (hc : 1 ≤ pp ↔ pw ≠ none) (hinv : StateInv s) : StateInv s' := by
  unfold undo_bid at h
  split at h
  · exact Except.noConfusion h
  split at h
  · exact Except.noConfusion h
  next day hday =>
  split at h
  · exact Except.noConfusion h
  split at h
  · exact Except.noConfusion h
  next slot hslot =>
  split at h
  · exact Except.noConfusion h
  next entry hentry =>
  split at h
  · exact Except.noConfusion h
  split at h
  · exact Except.noConfusion h
  injection h with hs'
  subst hs'
  exact StateInv_writeEntryIn wk sk g hinv hc

theorem release_slot_ok_inv {s : SysState} {u : Username}
    {dk hk g now : Nat} {s' : SysState} {refund : Int}
    (h : release_slot s u dk hk g now = .ok (s', refund))
    (hinv : StateInv s) : StateInv s' := by
  obtain ⟨day, slot, entry, user, _, _, _, _, _, _, _, _, _, _, _⟩ :=
    (release_slot_correct s u dk hk g now).1 s' refund h
  -- re-derive the successor shape directly
  unfold release_slot at h
  split at h
  · exact Except.noConfusion h
  split at h
  · exact Except.noConfusion h
  next user' huser =>
  split at h
  · exact Except.noConfusion h
  next day' hday =>
  split at h
  · exact Except.noConfusion h
  split at h
  · exact Except.noConfusion h
  next slot' hslot =>
  split at h
  · exact Except.noConfusion h
  split at h
  · exact Except.noConfusion h
  next entry' hentry =>
  split at h
  · exact Except.noConfusion h
  split at h
  · exact Except.noConfusion h
  injection h with hpair
  rw [Prod.ext_iff] at hpair
  obtain ⟨hs', _⟩ := hpair
  subst hs'
  exact StateInv_writeEntryIn dk hk g hinv (by simp [EntryInv])

theorem releaseBulkStep_inv (u : Username) (now : Nat)
    (acc : SysState × Nat) (v : Nat × Nat × Nat)
    (hinv : StateInv acc.1) : StateInv (releaseBulkStep u now acc v).1 := by
  obtain ⟨s, cnt⟩ := acc
  obtain ⟨dk, hk, g⟩ := v
  unfold releaseBulkStep
  dsimp only at hinv ⊢
  split
  · exact hinv
  next day hday =>
  split
  · exact hinv
  split
  · exact hinv
  split
  · exact hinv
  next slot hslot =>
  split
  · exact hinv
  split
  · exact hinv
  next entry hentry =>
  split
  · exact hinv
  exact StateInv_writeEntryIn dk hk g hinv (by simp [EntryInv])

theorem release_slots_bulk_ok_inv {s : SysState} {u : Username}
    {items : List (Nat × Nat × Nat)} {now : Nat} {s' : SysState}
    {cnt : Nat} {refund : Int}
    (h : release_slots_bulk s u items now = .ok (s', cnt, refund))
    (hinv : StateInv s) : StateInv s' := by
  have hfold : ∀ (l : List (Nat × Nat × Nat)) (acc : SysState × Nat),
      StateInv acc.1 → StateInv (l.foldl (releaseBulkStep u now) acc).1 := by
    intro l
    induction l with
    | nil => intro acc ha; exact ha
    | cons x xs ih =>
      intro acc ha
      exact ih _ (releaseBulkStep_inv u now acc x ha)
  unfold release_slots_bulk at h
  split at h
  · exact Except.noConfusion h
  split at h
  · exact Except.noConfusion h
  split at h
  next s1 cnt0 hfeq =>
  dsimp only at h
  split at h
  · exact Except.noConfusion h
  next user huser =>
  injection h with hpair
  rw [Prod.ext_iff] at hpair
  obtain ⟨hs', _⟩ := hpair
  subst hs'
  have h1 := hfold items (s, 0) hinv
  rw [hfeq] at h1
  exact h1

theorem StateInv_advanceFinalizeCurrent {s : SysState} (ck now : Nat)
    (hinv : StateInv s) : StateInv (advanceFinalizeCurrent s ck now) := by
  unfold advanceFinalizeCurrent
  split
  · exact hinv
  next d hd => exact StateInv_update_day hd rfl hinv

theorem StateInv_advancePromoteNext {s : SysState} (nk now : Nat)
    (hinv : StateInv s) : StateInv (advancePromoteNext s nk now) := by
  unfold advancePromoteNext
  split
  · exact hinv
  next d hd => exact StateInv_update_day hd rfl hinv

theorem advance_day_cycle_ok_inv {s : SysState} {now : Nat} {s' : SysState}
    (h : advance_day_cycle s now = .ok s') (hinv : StateInv s) :
    StateInv s' := by
  unfold advance_day_cycle at h
  split at h
  · exact Except.noConfusion h
  next next_key next_day rest hopen =>
  dsimp only at h
  injection h with hs'
  subst hs'
  apply StateInv_ensure_day_exists
  apply StateInv_removeA
  apply StateInv_advancePromoteNext
  apply StateInv_advanceFinalizeCurrent
  have h1 : StateInv (match find_day_by_status s .executing with
      | some _ => s
      | none => ensure_day_exists s
          (match find_day_by_status s .executing with
           | some kd => kd.1
           | none => day_start_key s.day_transition_hour now) .executing) := by
    split
    · exact hinv
    · exact StateInv_ensure_day_exists _ _ hinv
  exact StateInv_of_days_eq rfl h1

/-- The operations quantified over by invariant claims: single and bulk
bids, undo, single and bulk release, and day advancement, each by a given
user; a rejected operation leaves the state unchanged. -/
inductive Op
  | bid (u : Username) (week slotK g now : Nat)
  | bulk (u : Username) (reqs : List (Nat × Nat × Nat)) (now : Nat)
  | undo (u : Username) (week slotK g : Nat) (pw : Option Username) (pp : Nat)
  | release (u : Username) (week slotK g now : Nat)
  | releaseBulk (u : Username) (items : List (Nat × Nat × Nat)) (now : Nat)
  | advance (now : Nat)
deriving Repr

def applyOp (s : SysState) : Op → SysState
  | .bid u wk sk g now =>
    match place_bid s u wk sk g now with
    | .ok s' => s'
    | .error _ => s
  | .bulk u reqs now =>
    match place_bulk_bids s u reqs now with
    | .ok s' => s'
    | .error _ => s
  | .undo u wk sk g pw pp =>
    match undo_bid s u wk sk g pw pp with
    | .ok s' => s'
    | .error _ => s
  | .release u wk sk g now =>
    match release_slot s u wk sk g now with
    | .ok p => p.1
    | .error _ => s
  | .releaseBulk u items now =>
    match release_slots_bulk s u items now with
    | .ok p => p.1
    | .error _ => s
  | .advance now =>
    match advance_day_cycle s now with
    | .ok s' => s'
    | .error _ => s

/-- An undo request whose client-supplied previous winner and price are
mutually consistent (the pair itself satisfies I3). -/
def undoConsistent : Op → Prop
  | .undo _ _ _ _ pw pp => 1 ≤ pp ↔ pw ≠ none
  | _ => True

instance (op : Op) : Decidable (undoConsistent op) := by
  unfold undoConsistent
  cases op <;> infer_instance

theorem StateInv_applyOp (s : SysState) (op : Op) (hinv : StateInv s)
    (hc : undoConsistent op) : StateInv (applyOp s op) := by
  cases op with
  | bid u wk sk g now =>
    dsimp only [applyOp]
    cases h : place_bid s u wk sk g now with
    | ok s' => exact place_bid_ok_inv h hinv
    | error e => exact hinv
  | bulk u reqs now =>
    dsimp only [applyOp]
    cases h : place_bulk_bids s u reqs now with
    | ok s' => exact place_bulk_bids_ok_inv h hinv
    | error e => exact hinv
  | undo u wk sk g pw pp =>
    dsimp only [applyOp]
    cases h : undo_bid s u wk sk g pw pp with
    | ok s' => exact undo_bid_ok_inv h hc hinv
    | error e => exact hinv
  | release u wk sk g now =>
    dsimp only [applyOp]
    cases h : release_slot s u wk sk g now with
    | ok p =>
      obtain ⟨s1, rf⟩ := p
      exact release_slot_ok_inv h hinv
    | error e => exact hinv
  | releaseBulk u items now =>
    dsimp only [applyOp]
    cases h : release_slots_bulk s u items now with
    | ok p =>
      obtain ⟨s1, cnt, rf⟩ := p
      exact release_slots_bulk_ok_inv h hinv
    | error e => exact hinv
  | advance now =>
    dsimp only [applyOp]
    cases h : advance_day_cycle s now with
    | ok s' => exact advance_day_cycle_ok_inv h hinv
    | error e => exact hinv

/-- C5 (amended): for every GPU entry, after any sequence of operations
(bids, bulk bids, releases, day advancement, and undos whose supplied
previous winner/price pair itself satisfies the invariant), `price ≥ 1`
iff `winner ≠ null`; a null winner forces `price = 0`.  The restriction
on undo payloads is forced by `undo_counterexample`: the source restores
the client-supplied previous price without validating it. -/
theorem entry_invariant_preserved (s : SysState) (ops : List Op)
    (hinv : StateInv s) (hops : ∀ op ∈ ops, undoConsistent op) :
    StateInv (ops.foldl applyOp s) := by
  induction ops generalizing s with
  | nil => exact hinv
  | cons op rest ih =>
    exact ih (applyOp s op)
      (StateInv_applyOp s op hinv (hops op (List.mem_cons_self _ _)))
      (fun o ho => hops o (List.mem_cons_of_mem _ ho))

/-- The state in which `"u1"` holds a fresh winning bid (price 1) on entry
`(11, 269, 3)` of an open day. -/
def undoCexSlot : Slot :=
  { gpu_prices := (List.range NUM_GPUS).map (fun g =>
      if g = 3 then
        { gpu := 3, price := 1, winner := some "u1",
          bids := [⟨"u1", 1, 10⟩], actual_user := none }
      else freshEntry g) }

def undoCexDay : Day :=
  let d := freshDay 11 .opened
  { d with slots := updateA d.slots 269 undoCexSlot }

def undoCexState : SysState :=
  { users := [("u1", mkUser "u1" 10000)]
    days := [(11, undoCexDay)]
    bid_log := []
    reserved_slots := []
    day_transition_hour := 0 }

/-- Counterexample for C5 as stated: starting from a state satisfying the
invariant, a single undo operation from the claim's list of operations —
with a forged `previous_price = 7` alongside `previous_winner = null` —
is accepted and leaves the entry with `price = 7` and `winner = null`. -/
theorem undo_counterexample :
    StateInv undoCexState ∧
    ¬ StateInv (applyOp undoCexState (Op.undo "u1" 11 269 3 none 7)) ∧
    readEntry (applyOp undoCexState (Op.undo "u1" 11 269 3 none 7))
        11 269 3 =
      some { gpu := 3, price := 7, winner := none, bids := [],
             actual_user := none } := by
  refine ⟨by decide, by decide, by decide⟩

/-- Witness for the amended C5, applying `entry_invariant_preserved` to a
concrete state and a concrete operation sequence (a bid, a consistent
undo of it, and a day advancement). -/
theorem entry_invariant_preserved_witness :
    StateInv undoCexState ∧
    StateInv ([Op.bid "u1" 11 269 0 77,
               Op.undo "u1" 11 269 0 none 0,
               Op.advance 0].foldl applyOp undoCexState) :=
  ⟨by decide,
   entry_invariant_preserved undoCexState
     [Op.bid "u1" 11 269 0 77, Op.undo "u1" 11 269 0 none 0, Op.advance 0]
     (by decide) (by decide)⟩

/-! ### C6: bulk release -/

/-- A target `(dk, hk, g)` that fails one of the preconditions the bulk
release loop actually checks: day missing or not executing, slot hour not
at least one full hour in the future, slot missing, gpu index out of the
slot's range, or the caller not the winner.  (The policy reserved set is
*not* among them; see `release_bulk_reserved_counterexample`.) -/
def bulkSkipCond (s : SysState) (u : Username) (now : Nat)
    (dk hk g : Nat) : Prop :=
  statusOf s dk ≠ some .executing ∨
  hk < now / 3600 + 1 ∨
  readSlot s dk hk = none ∨
  (∃ sl, readSlot s dk hk = some sl ∧ sl.gpu_prices.length ≤ g) ∨
  (∀ e, readEntry s dk hk g = some e → e.winner ≠ some u)

theorem releaseBulkStep_preserve {s0 : SysState} (u : Username) (now : Nat)
    (dk hk g : Nat) (hskip : bulkSkipCond s0 u now dk hk g)
    (acc : SysState × Nat) (v : Nat × Nat × Nat)
    (hstat : ∀ k, statusOf acc.1 k = statusOf s0 k)
    (hlen : (readSlot acc.1 dk hk).map (fun sl => sl.gpu_prices.length) =
            (readSlot s0 dk hk).map (fun sl => sl.gpu_prices.length))
    (hent : readEntry acc.1 dk hk g = readEntry s0 dk hk g) :
    (∀ k, statusOf (releaseBulkStep u now acc v).1 k = statusOf s0 k) ∧
    ((readSlot (releaseBulkStep u now acc v).1 dk hk).map
        (fun sl => sl.gpu_prices.length) =
      (readSlot s0 dk hk).map (fun sl => sl.gpu_prices.length)) ∧
    readEntry (releaseBulkStep u now acc v).1 dk hk g =
      readEntry s0 dk hk g := by
  obtain ⟨s, cnt⟩ := acc
  obtain ⟨dk', hk', g'⟩ := v
  unfold releaseBulkStep
  dsimp only at hstat hlen hent ⊢
  split
  · exact ⟨hstat, hlen, hent⟩
  next day hday =>
  split
  · exact ⟨hstat, hlen, hent⟩
  next hstat' =>
  split
  · exact ⟨hstat, hlen, hent⟩
  next htime' =>
  split
  · exact ⟨hstat, hlen, hent⟩
  next slot hslot =>
  split
  · exact ⟨hstat, hlen, hent⟩
  next hlen' =>
  split
  · exact ⟨hstat, hlen, hent⟩
  next entry hentry =>
  split
  · exact ⟨hstat, hlen, hent⟩
  next hwin' =>
  -- the step performs the release at (dk', hk', g')
  refine ⟨?_, ?_, ?_⟩
  · intro k
    rw [statusOf_writeEntryIn]
    exact hstat k
  · rw [readSlot_writeEntryIn_len]
    exact hlen
  · by_cases heq : dk = dk' ∧ hk = hk' ∧ g = g'
    · -- the tracked target itself: its skip condition contradicts the
      -- runtime checks that just passed
      obtain ⟨h1, h2, h3⟩ := heq
      subst h1
      subst h2
      subst h3
      exfalso
      have hstat0 : statusOf s dk = some .executing := by
        unfold statusOf
        rw [hday]
        simp [not_not.mp hstat']
      have hrslot : readSlot s dk hk = some slot := by
        unfold readSlot
        rw [hday]
        exact hslot
      have hrent : readEntry s dk hk g = some entry := by
        unfold readEntry
        rw [hrslot]
        exact hentry
      rcases hskip with hc | hc | hc | hc | hc
      · exact hc ((hstat dk).symm.trans hstat0)
      · exact htime' hc
      · rw [hc, hrslot] at hlen
        exact Option.noConfusion hlen
      · obtain ⟨sl0, hsl0, hlen0⟩ := hc
        rw [hsl0] at hlen
        rw [hrslot] at hlen
        injection hlen with hlen
        have hlen2 : slot.gpu_prices.length = sl0.gpu_prices.length := hlen
        exact hlen' (by rw [hlen2]; exact hlen0)
      · have := hc entry (by rw [← hent]; exact hrent)
        exact this (not_not.mp hwin')
    · have hne : dk ≠ dk' ∨ hk ≠ hk' ∨ g ≠ g' := by
        by_cases h1 : dk = dk'
        · by_cases h2 : hk = hk'
          · exact Or.inr (Or.inr (fun h3 => heq ⟨h1, h2, h3⟩))
          · exact Or.inr (Or.inl h2)
        · exact Or.inl h1
      rw [readEntry_writeEntryIn_other _ _ _ _ _ _ _ _ hne]
      exact hent

theorem releaseBulk_fold_preserve {s0 : SysState} (u : Username) (now : Nat)
    (dk hk g : Nat) (hskip : bulkSkipCond s0 u now dk hk g)
    (l : List (Nat × Nat × Nat)) (acc : SysState × Nat)
    (hstat : ∀ k, statusOf acc.1 k = statusOf s0 k)
    (hlen : (readSlot acc.1 dk hk).map (fun sl => sl.gpu_prices.length) =
            (readSlot s0 dk hk).map (fun sl => sl.gpu_prices.length))
    (hent : readEntry acc.1 dk hk g = readEntry s0 dk hk g) :
    readEntry (l.foldl (releaseBulkStep u now) acc).1 dk hk g =
      readEntry s0 dk hk g := by
  induction l generalizing acc with
  | nil => exact hent
  | cons v rest ih =>
    obtain ⟨h1, h2, h3⟩ :=
      releaseBulkStep_preserve u now dk hk g hskip acc v hstat hlen hent
    exact ih (releaseBulkStep u now acc v) h1 h2 h3

/-- The users list is untouched by the bulk release fold. -/
theorem releaseBulk_fold_users (u : Username) (now : Nat)
    (l : List (Nat × Nat × Nat)) (acc : SysState × Nat) :
    (l.foldl (releaseBulkStep u now) acc).1.users = acc.1.users := by
  induction l generalizing acc with
  | nil => rfl
  | cons v rest ih =>
    rw [List.foldl_cons, ih (releaseBulkStep u now acc v)]
    obtain ⟨s, cnt⟩ := acc
    obtain ⟨dk', hk', g'⟩ := v
    unfold releaseBulkStep
    dsimp only
    split
    · rfl
    split
    · rfl
    split
    · rfl
    split
    · rfl
    split
    · rfl
    split
    · rfl
    split
    · rfl
    exact writeEntryIn_users _ _ _ _ _

/-- C6 (amended): `release_slots_bulk` silently skips every target that
fails one of the checked preconditions — day missing or not executing,
slot hour not at least one full hour in the future, slot missing, gpu out
of range, caller not the winner — leaving such entries unchanged, and
credits the caller with exactly `released_count × 0.34` credits
(`released_count × 34` hundredths).  Unlike the claim as stated, the
policy reserved set is *not* consulted (see
`release_bulk_reserved_counterexample`). -/
theorem release_slots_bulk_correct {s : SysState} {u : Username}
    {items : List (Nat × Nat × Nat)} {now : Nat}
    {s' : SysState} {cnt : Nat} {refund : Int}
    (h : release_slots_bulk s u items now = .ok (s', cnt, refund)) :
    refund = (cnt : Int) * 34 ∧
    balOf s' u = balOf s u + (cnt : Int) * 34 ∧
    ∀ dk hk g, bulkSkipCond s u now dk hk g →
      readEntry s' dk hk g = readEntry s dk hk g := by
  unfold release_slots_bulk at h
  split at h
  · exact Except.noConfusion h
  split at h
  · exact Except.noConfusion h
  split at h
  next s1 cnt0 hfeq =>
  dsimp only at h
  split at h
  · exact Except.noConfusion h
  next user huser =>
  injection h with hpair
  rw [Prod.ext_iff] at hpair
  obtain ⟨hs', hcr⟩ := hpair
  rw [Prod.ext_iff] at hcr
  obtain ⟨hcnt, hrefund⟩ := hcr
  subst hs'
  subst hcnt
  subst hrefund
  have husers : s1.users = s.users := by
    have := releaseBulk_fold_users u now items (s, 0)
    rw [hfeq] at this
    exact this
  have huser0 : lookupA s.users u = some user := by
    rw [← husers]
    exact huser
  refine ⟨rfl, ?_, ?_⟩
  · unfold balOf
    dsimp only
    simp only [lookupA_updateA_self, huser0]
    rfl
  · intro dk hk g hskip
    have hbase := releaseBulk_fold_preserve u now dk hk g hskip items (s, 0)
      (fun k => rfl) rfl rfl
    rw [hfeq] at hbase
    exact hbase

/-- Slot at hour 270 whose gpu 2 is owned by `"u1"` at price 5. -/
def reservedBulkSlot : Slot :=
  { gpu_prices := (List.range NUM_GPUS).map (fun g =>
      if g = 2 then
        { gpu := 2, price := 5, winner := some "u1",
          bids := [⟨"u1", 5, 0⟩], actual_user := none }
      else freshEntry g) }

def reservedBulkDay : Day :=
  let d := freshDay 10 .executing
  { d with slots := updateA d.slots 270 reservedBulkSlot }

/-- A state whose executing day 10 has entry `(10, 270, 2)` owned by
`"u1"` *and* listed in the policy reserved set. -/
def reservedBulkState : SysState :=
  { users := [("u1", mkUser "u1" 0)]
    days := [(10, reservedBulkDay)]
    bid_log := []
    reserved_slots := [(10, [(270, 2)])]
    day_transition_hour := 0 }

/-- Counterexample for C6 as stated: the claim lists membership in the
policy reserved set among the skip conditions, but `release_slots_bulk`
never consults it — a reserved, owned, future entry is released (count 1,
refund 0.34) and its winner is cleared. -/
theorem release_bulk_reserved_counterexample :
    isReserved reservedBulkState 10 270 2 = true ∧
    (match release_slots_bulk reservedBulkState "u1" [(10, 270, 2)]
        (265 * 3600) with
     | .ok p => some (p.2.1, p.2.2,
         (readEntry p.1 10 270 2).map (fun e => (e.price, e.winner)))
     | .error _ => none) =
      some (1, 34, some (0, none)) := by
  exact ⟨by decide, by decide⟩

/-- Witness for the amended C6, applying `release_slots_bulk_correct` at a
concrete input: one future owned slot and one past slot; the past one is
skipped and left unchanged, and the balance grows by exactly
`released_count × 0.34` credits. -/
theorem release_slots_bulk_correct_witness :
    (match release_slots_bulk relState "u1" [(10, 260, 2), (10, 241, 2)]
        (245 * 3600) with
     | .ok p => some (balOf p.1 "u1" - balOf relState "u1",
         decide (p.2.2 = (p.2.1 : Int) * 34),
         decide (readEntry p.1 10 241 2 = readEntry relState 10 241 2))
     | .error _ => none) = some (34, true, true) := by
  cases hret : release_slots_bulk relState "u1" [(10, 260, 2), (10, 241, 2)]
      (245 * 3600) with
  | error e =>
    exfalso
    have : (release_slots_bulk relState "u1" [(10, 260, 2), (10, 241, 2)]
        (245 * 3600)).isOk = true := by decide
    rw [hret] at this
    exact Bool.noConfusion this
  | ok p =>
    obtain ⟨s1, cnt, rf⟩ := p
    obtain ⟨hrefund, hbal, hskip⟩ := release_slots_bulk_correct hret
    have hskip241 : readEntry s1 10 241 2 = readEntry relState 10 241 2 :=
      hskip 10 241 2 (Or.inr (Or.inl (by decide)))
    have hconc : (release_slots_bulk relState "u1" [(10, 260, 2), (10, 241, 2)]
        (245 * 3600)).toOption.map (fun q => q.2.1) = some 1 := by decide
    rw [hret] at hconc
    have hcnt : cnt = 1 := by
      simpa [Except.toOption] using hconc
    show some (balOf s1 "u1" - balOf relState "u1",
        decide (rf = (cnt : Int) * 34),
        decide (readEntry s1 10 241 2 = readEntry relState 10 241 2)) =
      some (34, true, true)
    rw [decide_eq_true hrefund, decide_eq_true hskip241, hbal, hcnt]
    norm_num

/-! ### C8 and C10: telemetry finalization -/

/-- Python dictionaries have unique keys at every level of the sample
histograms. -/
def TrackingWF (tr : Tracking) : Prop :=
  (tr.map Prod.fst).Nodup ∧
  ∀ dkv ∈ tr, (dkv.2.map Prod.fst).Nodup ∧
    ∀ skv ∈ dkv.2, (skv.2.map Prod.fst).Nodup

instance (tr : Tracking) : Decidable (TrackingWF tr) := by
  unfold TrackingWF; infer_instance

theorem readSlot_some_elim {s : SysState} {dk hk : Nat} {sl : Slot}
    (h : readSlot s dk hk = some sl) :
    ∃ d, lookupA s.days dk = some d ∧ lookupA d.slots hk = some sl := by
  unfold readSlot at h
  split at h
  · exact Option.noConfusion h
  next d hd => exact ⟨d, hd, h⟩

theorem readEntry_some_elim {s : SysState} {dk hk g : Nat} {e : GpuEntry}
    (h : readEntry s dk hk g = some e) :
    ∃ sl, readSlot s dk hk = some sl ∧ sl.gpu_prices[g]? = some e := by
  unfold readEntry at h
  split at h
  · exact Option.noConfusion h
  next sl hsl => exact ⟨sl, hsl, h⟩

/-- One `finalizeGpu` step either leaves the accumulator unchanged or
performs exactly one `actual_user` write on an entry not yet carrying the
field. -/
theorem finalizeGpu_cases (dkey hkey : Nat) (acc : SysState × Nat)
    (gkv : Nat × Samples) :
    finalizeGpu dkey hkey acc gkv = acc ∨
    ∃ sl e, readSlot acc.1 dkey hkey = some sl ∧
      gkv.1 < sl.gpu_prices.length ∧
      sl.gpu_prices[gkv.1]? = some e ∧ e.actual_user = none ∧
      finalizeGpu dkey hkey acc gkv =
        (writeEntryIn acc.1 dkey hkey gkv.1
          { e with actual_user := some (argmaxFirst gkv.2) }, acc.2 + 1) := by
  unfold finalizeGpu
  split
  · exact Or.inl rfl
  next sl hsl =>
  split
  · exact Or.inl rfl
  next hlen =>
  split
  · exact Or.inl rfl
  next e he =>
  split
  next hsome => exact Or.inl rfl
  next hsome =>
    exact Or.inr ⟨sl, e, hsl, Nat.not_le.mp hlen, he,
      Option.not_isSome_iff_eq_none.mp (by simpa using hsome), rfl⟩

/-- One `finalizeSlot` step either leaves the accumulator unchanged (slot
too recent or missing) or delegates to the gpu fold. -/
theorem finalizeSlot_cases (now dkey : Nat) (acc : SysState × Nat)
    (skv : Nat × GpuSamples) :
    finalizeSlot now dkey acc skv = acc ∨
    (skv.1 + 1 ≤ now / 3600 ∧
     finalizeSlot now dkey acc skv =
       skv.2.foldl (finalizeGpu dkey skv.1) acc) := by
  unfold finalizeSlot
  split
  · exact Or.inl rfl
  next htime =>
  split
  · exact Or.inl rfl
  · exact Or.inr ⟨Nat.not_lt.mp htime, rfl⟩

/-- One `finalizeDay` step either leaves the accumulator unchanged (day
missing or not executing/final) or delegates to the slot fold. -/
theorem finalizeDay_cases (now : Nat) (acc : SysState × Nat)
    (dkv : Nat × SlotSamples) :
    finalizeDay now acc dkv = acc ∨
    ((statusOf acc.1 dkv.1 = some .executing ∨
      statusOf acc.1 dkv.1 = some .final) ∧
     finalizeDay now acc dkv = dkv.2.foldl (finalizeSlot now dkv.1) acc) := by
  unfold finalizeDay
  split
  · exact Or.inl rfl
  next day hday =>
  split
  next hst =>
    refine Or.inr ⟨?_, rfl⟩
    rcases hst with hst | hst
    · exact Or.inl (by unfold statusOf; rw [hday]; simp [hst])
    · exact Or.inr (by unfold statusOf; rw [hday]; simp [hst])
  next hst => exact Or.inl rfl

/-- Day statuses are unchanged by the whole finalization fold. -/
theorem statusOf_finalize_fold (now : Nat) (tr : Tracking)
    (acc : SysState × Nat) (k : Nat) :
    statusOf (tr.foldl (finalizeDay now) acc).1 k = statusOf acc.1 k := by
  have hgpu : ∀ (dkey hkey : Nat) (gs : GpuSamples) (a : SysState × Nat),
      statusOf (gs.foldl (finalizeGpu dkey hkey) a).1 k = statusOf a.1 k := by
    intro dkey hkey gs
    induction gs with
    | nil => intro a; rfl
    | cons gkv rest ih =>
      intro a
      rw [List.foldl_cons, ih]
      rcases finalizeGpu_cases dkey hkey a gkv with hc | ⟨sl, e, _, _, _, _, hc⟩
      · rw [hc]
      · rw [hc]
        exact statusOf_writeEntryIn _ _ _ _ _ _
  have hslot : ∀ (dkey : Nat) (ss : SlotSamples) (a : SysState × Nat),
      statusOf (ss.foldl (finalizeSlot now dkey) a).1 k = statusOf a.1 k := by
    intro dkey ss
    induction ss with
    | nil => intro a; rfl
    | cons skv rest ih =>
      intro a
      rw [List.foldl_cons, ih]
      rcases finalizeSlot_cases now dkey a skv with hc | ⟨_, hc⟩
      · rw [hc]
      · rw [hc]
        exact hgpu dkey skv.1 skv.2 a
  induction tr generalizing acc with
  | nil => rfl
  | cons dkv rest ih =>
    rw [List.foldl_cons, ih]
    rcases finalizeDay_cases now acc dkv with hc | ⟨_, hc⟩
    · rw [hc]
    · rw [hc]
      exact hslot dkv.1 dkv.2 acc

/-- Slot shapes (presence and gpu-list length) are unchanged by the whole
finalization fold. -/
theorem len_finalize_fold (now : Nat) (tr : Tracking)
    (acc : SysState × Nat) (d h : Nat) :
    (readSlot (tr.foldl (finalizeDay now) acc).1 d h).map
        (fun sl => sl.gpu_prices.length) =
      (readSlot acc.1 d h).map (fun sl => sl.gpu_prices.length) := by
  have hgpu : ∀ (dkey hkey : Nat) (gs : GpuSamples) (a : SysState × Nat),
      (readSlot (gs.foldl (finalizeGpu dkey hkey) a).1 d h).map
          (fun sl => sl.gpu_prices.length) =
        (readSlot a.1 d h).map (fun sl => sl.gpu_prices.length) := by
    intro dkey hkey gs
    induction gs with
    | nil => intro a; rfl
    | cons gkv rest ih =>
      intro a
      rw [List.foldl_cons, ih]
      rcases finalizeGpu_cases dkey hkey a gkv with hc | ⟨sl, e, _, _, _, _, hc⟩
      · rw [hc]
      · rw [hc]
        exact readSlot_writeEntryIn_len _ _ _ _ _ _ _
  have hslot : ∀ (dkey : Nat) (ss : SlotSamples) (a : SysState × Nat),
      (readSlot (ss.foldl (finalizeSlot now dkey) a).1 d h).map
          (fun sl => sl.gpu_prices.length) =
        (readSlot a.1 d h).map (fun sl => sl.gpu_prices.length) := by
    intro dkey ss
    induction ss with
    | nil => intro a; rfl
    | cons skv rest ih =>
      intro a
      rw [List.foldl_cons, ih]
      rcases finalizeSlot_cases now dkey a skv with hc | ⟨_, hc⟩
      · rw [hc]
      · rw [hc]
        exact hgpu dkey skv.1 skv.2 a
  induction tr generalizing acc with
  | nil => rfl
  | cons dkv rest ih =>
    rw [List.foldl_cons, ih]
    rcases finalizeDay_cases now acc dkv with hc | ⟨_, hc⟩
    · rw [hc]
    · rw [hc]
      exact hslot dkv.1 dkv.2 acc

theorem readEntry_intro {s : SysState} {dk hk g : Nat} {sl : Slot}
    {e : GpuEntry} (h1 : readSlot s dk hk = some sl)
    (h2 : sl.gpu_prices[g]? = some e) : readEntry s dk hk g = some e := by
  unfold readEntry
  rw [h1]
  exact h2

/-- The seed's count never exceeds the fold result's count. -/
theorem argmax_seed_le (x : Username × Nat) (xs : Samples) :
    x.2 ≤ (xs.foldl (fun best y => if best.2 < y.2 then y else best) x).2 := by
  induction xs generalizing x with
  | nil => exact Nat.le_refl _
  | cons y ys ih =>
    rw [List.foldl_cons]
    by_cases h : x.2 < y.2
    · rw [if_pos h]
      exact Nat.le_trans (Nat.le_of_lt h) (ih y)
    · rw [if_neg h]
      exact ih x

theorem argmax_go_spec (x : Username × Nat) (xs : Samples) :
    ∃ l₁ l₂,
      x :: xs = l₁ ++
        (xs.foldl (fun best y => if best.2 < y.2 then y else best) x) :: l₂ ∧
      (∀ p ∈ l₁,
        p.2 < (xs.foldl (fun best y => if best.2 < y.2 then y else best) x).2) ∧
      (∀ p ∈ l₂,
        p.2 ≤ (xs.foldl (fun best y => if best.2 < y.2 then y else best) x).2) := by
  induction xs generalizing x with
  | nil => exact ⟨[], [], rfl, by simp, by simp⟩
  | cons y ys ih =>
    rw [List.foldl_cons]
    by_cases h : x.2 < y.2
    · rw [if_pos h]
      obtain ⟨l₁, l₂, heq, hlt, hle⟩ := ih y
      refine ⟨x :: l₁, l₂, by rw [List.cons_append, ← heq], ?_, hle⟩
      intro p hp
      rcases List.mem_cons.mp hp with hp | hp
      · subst hp
        exact Nat.lt_of_lt_of_le h (argmax_seed_le y ys)
      · exact hlt p hp
    · rw [if_neg h]
      obtain ⟨l₁, l₂, heq, hlt, hle⟩ := ih x
      cases l₁ with
      | nil =>
        simp only [List.nil_append] at heq
        injection heq with he1 he2
        refine ⟨[], y :: l₂, ?_, by simp, ?_⟩
        · rw [List.nil_append, ← he1, he2]
        · intro p hp
          rcases List.mem_cons.mp hp with hp | hp
          · subst hp
            rw [← he1]
            exact Nat.le_of_not_lt h
          · exact hle p hp
      | cons z l₁' =>
        rw [List.cons_append] at heq
        injection heq with he1 he2
        subst he1
        have hxlt := hlt x (List.mem_cons_self x l₁')
        refine ⟨x :: y :: l₁', l₂, ?_, ?_, hle⟩
        · exact congrArg (fun t => x :: y :: t) he2
        · intro p hp
          rcases List.mem_cons.mp hp with hp | hp
          · subst hp
            exact hxlt
          · rcases List.mem_cons.mp hp with hp | hp
            · subst hp
              exact Nat.lt_of_le_of_lt (Nat.le_of_not_lt h) hxlt
            · exact hlt p (List.mem_cons_of_mem _ hp)

/-- `argmaxFirst` returns the first-seen username carrying the maximal
count: everything before it counts strictly less, everything after at
most as much. -/
theorem argmaxFirst_spec (l : Samples) (hne : l ≠ []) :
    ∃ w c l₁ l₂, argmaxFirst l = some w ∧ l = l₁ ++ (w, c) :: l₂ ∧
      (∀ p ∈ l₁, p.2 < c) ∧ (∀ p ∈ l₂, p.2 ≤ c) := by
  cases l with
  | nil => exact absurd rfl hne
  | cons x xs =>
    obtain ⟨l₁, l₂, heq, hlt, hle⟩ := argmax_go_spec x xs
    have hval : argmaxFirst (x :: xs) =
        some ((xs.foldl (fun best y => if best.2 < y.2 then y else best) x)).1 :=
      rfl
    exact ⟨(xs.foldl (fun best y => if best.2 < y.2 then y else best) x).1,
      (xs.foldl (fun best y => if best.2 < y.2 then y else best) x).2,
      l₁, l₂, hval, heq, hlt, hle⟩

/-- A gpu fold that finalizes slot `(dkey, hkey)` never touches an entry
of a different slot. -/
theorem readEntry_finalizeGpu_fold_other (dkey hkey : Nat) (gs : GpuSamples)
    (a : SysState × Nat) (dk hk g : Nat) (hne : dk ≠ dkey ∨ hk ≠ hkey) :
    readEntry (gs.foldl (finalizeGpu dkey hkey) a).1 dk hk g =
      readEntry a.1 dk hk g := by
  induction gs generalizing a with
  | nil => rfl
  | cons gkv rest ih =>
    rw [List.foldl_cons, ih]
    rcases finalizeGpu_cases dkey hkey a gkv with hc | ⟨sl, e, _, _, _, _, hc⟩
    · rw [hc]
    · rw [hc]
      exact readEntry_writeEntryIn_other _ _ _ _ _ _ _ _
        (by rcases hne with hne | hne
            · exact Or.inl hne
            · exact Or.inr (Or.inl hne))

/-- A slot fold over day `dkey` never touches an entry of another day. -/
theorem readEntry_finalizeSlot_fold_other (now dkey : Nat) (ss : SlotSamples)
    (a : SysState × Nat) (dk hk g : Nat) (hne : dk ≠ dkey) :
    readEntry (ss.foldl (finalizeSlot now dkey) a).1 dk hk g =
      readEntry a.1 dk hk g := by
  induction ss generalizing a with
  | nil => rfl
  | cons skv rest ih =>
    rw [List.foldl_cons, ih]
    rcases finalizeSlot_cases now dkey a skv with hc | ⟨_, hc⟩
    · rw [hc]
    · rw [hc]
      exact readEntry_finalizeGpu_fold_other dkey skv.1 skv.2 a dk hk g
        (Or.inl hne)

/-- The dichotomy maintained by the finalization folds for a fixed target
entry: either untouched, or written exactly once under the required
conditions. -/
def FinInv (s : SysState) (tr : Tracking) (now dk hk g : Nat)
    (cur : SysState) : Prop :=
  readEntry cur dk hk g = readEntry s dk hk g ∨
  ∃ e samples, readEntry s dk hk g = some e ∧ e.actual_user = none ∧
    trackLookup tr dk hk g = some samples ∧
    (statusOf s dk = some .executing ∨ statusOf s dk = some .final) ∧
    hk + 1 ≤ now / 3600 ∧
    readEntry cur dk hk g =
      some { e with actual_user := some (argmaxFirst samples) }

theorem FinInv_gpu_fold {s : SysState} {tr : Tracking} {now dk hk g : Nat}
    (hstat : statusOf s dk = some .executing ∨ statusOf s dk = some .final)
    (htime : hk + 1 ≤ now / 3600)
    (gs : GpuSamples)
    (hpath : ∀ gkv ∈ gs, trackLookup tr dk hk gkv.1 = some gkv.2)
    (a : SysState × Nat) (hinv : FinInv s tr now dk hk g a.1) :
    FinInv s tr now dk hk g (gs.foldl (finalizeGpu dk hk) a).1 := by
  induction gs generalizing a with
  | nil => exact hinv
  | cons gkv rest ih =>
    rw [List.foldl_cons]
    refine ih (fun w hw => hpath w (List.mem_cons_of_mem _ hw))
      (finalizeGpu dk hk a gkv) ?_
    rcases finalizeGpu_cases dk hk a gkv with hc | ⟨sl, e0, hsl, hlen, hget, hnone, hc⟩
    · rw [hc]; exact hinv
    · rw [hc]
      by_cases hgeq : gkv.1 = g
      · subst hgeq
        have hcur : readEntry a.1 dk hk gkv.1 = some e0 := readEntry_intro hsl hget
        rcases hinv with hinv | ⟨e, samples, he, hea, htrk, _, _, hcur'⟩
        · -- first (and only) write of the target entry
          obtain ⟨d, hd, hds⟩ := readSlot_some_elim hsl
          refine Or.inr ⟨e0, gkv.2, hinv ▸ hcur, hnone,
            hpath gkv (List.mem_cons_self _ _), hstat, htime, ?_⟩
          exact readEntry_writeEntryIn_self _ _ _ _ _ _ _ hd hds hlen
        · -- a second write is impossible: the field is already present
          rw [hcur] at hcur'
          injection hcur' with hcur'
          rw [hcur'] at hnone
          simp at hnone
      · have hother := readEntry_writeEntryIn_other a.1 dk hk gkv.1
          { e0 with actual_user := some (argmaxFirst gkv.2) } dk hk g
          (Or.inr (Or.inr (Ne.symm hgeq)))
        rcases hinv with hinv | ⟨e, samples, he, hea, htrk, hstat', htime', hcur⟩
        · exact Or.inl (hother.trans hinv)
        · exact Or.inr ⟨e, samples, he, hea, htrk, hstat', htime',
            hother.trans hcur⟩

theorem FinInv_slot_fold {s : SysState} {tr : Tracking} {now dk hk g : Nat}
    (hstat : statusOf s dk = some .executing ∨ statusOf s dk = some .final)
    (ss : SlotSamples)
    (hpath : ∀ skv ∈ ss, ∀ gkv ∈ skv.2,
      trackLookup tr dk skv.1 gkv.1 = some gkv.2)
    (a : SysState × Nat) (hinv : FinInv s tr now dk hk g a.1) :
    FinInv s tr now dk hk g (ss.foldl (finalizeSlot now dk) a).1 := by
  induction ss generalizing a with
  | nil => exact hinv
  | cons skv rest ih =>
    rw [List.foldl_cons]
    refine ih (fun w hw => hpath w (List.mem_cons_of_mem _ hw))
      (finalizeSlot now dk a skv) ?_
    rcases finalizeSlot_cases now dk a skv with hc | ⟨htime, hc⟩
    · rw [hc]; exact hinv
    · rw [hc]
      by_cases hheq : skv.1 = hk
      · subst hheq
        exact FinInv_gpu_fold hstat htime skv.2
          (hpath skv (List.mem_cons_self _ _)) a hinv
      · have hother := readEntry_finalizeGpu_fold_other dk skv.1 skv.2 a
          dk hk g (Or.inr (Ne.symm hheq))
        rcases hinv with hinv | ⟨e, samples, he, hea, htrk, hstat', htime', hcur⟩
        · exact Or.inl (hother.trans hinv)
        · exact Or.inr ⟨e, samples, he, hea, htrk, hstat', htime',
            hother.trans hcur⟩

theorem FinInv_day_fold {s : SysState} {tr0 : Tracking} {now dk hk g : Nat}
    (tr : Tracking)
    (hpath : ∀ dkv ∈ tr, lookupA tr0 dkv.1 = some dkv.2)
    (hwf : ∀ dkv ∈ tr, (dkv.2.map Prod.fst).Nodup ∧
      ∀ skv ∈ dkv.2, (skv.2.map Prod.fst).Nodup)
    (a : SysState × Nat)
    (hst : ∀ k, statusOf a.1 k = statusOf s k)
    (hinv : FinInv s tr0 now dk hk g a.1) :
    FinInv s tr0 now dk hk g (tr.foldl (finalizeDay now) a).1 := by
  induction tr generalizing a with
  | nil => exact hinv
  | cons dkv rest ih =>
    rw [List.foldl_cons]
    refine ih (fun w hw => hpath w (List.mem_cons_of_mem _ hw))
      (fun w hw => hwf w (List.mem_cons_of_mem _ hw))
      (finalizeDay now a dkv) ?_ ?_
    · intro k
      have := statusOf_finalize_fold now [dkv] a k
      simp only [List.foldl_cons, List.foldl_nil] at this
      rw [this]
      exact hst k
    rcases finalizeDay_cases now a dkv with hc | ⟨hstat, hc⟩
    · rw [hc]; exact hinv
    · rw [hc]
      by_cases hdeq : dkv.1 = dk
      · subst hdeq
        have hstat' : statusOf s dkv.1 = some .executing ∨
            statusOf s dkv.1 = some .final := by
          rw [← hst dkv.1]
          exact hstat
        refine FinInv_slot_fold hstat' dkv.2 ?_ a hinv
        intro skv hskv gkv hgkv
        obtain ⟨hnd1, hnd2⟩ := hwf dkv (List.mem_cons_self _ _)
        simp only [trackLookup, hpath dkv (List.mem_cons_self _ _),
          lookupA_eq_of_mem hnd1 hskv,
          lookupA_eq_of_mem (hnd2 skv hskv) hgkv]
      · have hother := readEntry_finalizeSlot_fold_other now dkv.1 dkv.2 a
          dk hk g (Ne.symm hdeq)
        rcases hinv with hinv | ⟨e, samples, he, hea, htrk, hstat', htime', hcur⟩
        · exact Or.inl (hother.trans hinv)
        · exact Or.inr ⟨e, samples, he, hea, htrk, hstat', htime',
            hother.trans hcur⟩

theorem triple_ne {a b c a' b' c' : Nat} (h : ¬ (a = a' ∧ b = b' ∧ c = c')) :
    a ≠ a' ∨ b ≠ b' ∨ c ≠ c' := by
  by_cases h1 : a = a'
  · by_cases h2 : b = b'
    · exact Or.inr (Or.inr (fun h3 => h ⟨h1, h2, h3⟩))
    · exact Or.inr (Or.inl h2)
  · exact Or.inl h1

theorem statusOf_some_elim {s : SysState} {k : Nat} {st : DayStatus}
    (h : statusOf s k = some st) :
    ∃ d, lookupA s.days k = some d ∧ d.status = st := by
  unfold statusOf at h
  cases hd : lookupA s.days k with
  | none => rw [hd] at h; exact Option.noConfusion h
  | some d =>
    rw [hd] at h
    simp only [Option.map_some'] at h
    injection h with h
    exact ⟨d, rfl, h⟩

/-- An entry already carrying `actual_user` survives a gpu fold
untouched. -/
theorem stable_gpu_fold (dkey hkey : Nat) (gs : GpuSamples)
    (a : SysState × Nat) (dk hk g : Nat) (e : GpuEntry)
    (he : readEntry a.1 dk hk g = some e) (hsome : e.actual_user.isSome) :
    readEntry (gs.foldl (finalizeGpu dkey hkey) a).1 dk hk g = some e := by
  induction gs generalizing a with
  | nil => exact he
  | cons gkv rest ih =>
    rw [List.foldl_cons]
    refine ih (finalizeGpu dkey hkey a gkv) ?_
    rcases finalizeGpu_cases dkey hkey a gkv with hc |
      ⟨sl, e0, hsl, hlen, hget, hnone, hc⟩
    · rw [hc]; exact he
    · rw [hc]
      by_cases heq : dk = dkey ∧ hk = hkey ∧ g = gkv.1
      · obtain ⟨h1, h2, h3⟩ := heq
        subst h1
        subst h2
        subst h3
        have hre : readEntry a.1 dk hk gkv.1 = some e0 :=
          readEntry_intro hsl hget
        rw [he] at hre
        injection hre with hre
        rw [← hre] at hnone
        rw [hnone] at hsome
        exact absurd hsome (by simp)
      · rw [readEntry_writeEntryIn_other _ _ _ _ _ _ _ _ (triple_ne heq)]
        exact he

/-- An entry already carrying `actual_user` survives a slot fold. -/
theorem stable_slot_fold (now dkey : Nat) (ss : SlotSamples)
    (a : SysState × Nat) (dk hk g : Nat) (e : GpuEntry)
    (he : readEntry a.1 dk hk g = some e) (hsome : e.actual_user.isSome) :
    readEntry (ss.foldl (finalizeSlot now dkey) a).1 dk hk g = some e := by
  induction ss generalizing a with
  | nil => exact he
  | cons skv rest ih =>
    rw [List.foldl_cons]
    refine ih (finalizeSlot now dkey a skv) ?_
    rcases finalizeSlot_cases now dkey a skv with hc | ⟨_, hc⟩
    · rw [hc]; exact he
    · rw [hc]
      exact stable_gpu_fold dkey skv.1 skv.2 a dk hk g e he hsome

/-- An entry already carrying `actual_user` survives the whole
finalization fold. -/
theorem stable_day_fold (now : Nat) (tr : Tracking) (a : SysState × Nat)
    (dk hk g : Nat) (e : GpuEntry)
    (he : readEntry a.1 dk hk g = some e) (hsome : e.actual_user.isSome) :
    readEntry (tr.foldl (finalizeDay now) a).1 dk hk g = some e := by
  induction tr generalizing a with
  | nil => exact he
  | cons dkv rest ih =>
    rw [List.foldl_cons]
    refine ih (finalizeDay now a dkv) ?_
    rcases finalizeDay_cases now a dkv with hc | ⟨_, hc⟩
    · rw [hc]; exact he
    · rw [hc]
      exact stable_slot_fold now dkv.1 dkv.2 a dk hk g e he hsome

/-- If the target gpu is present in the gs map with `samples` and the
entry at `(dk, hk, g)` has no `actual_user` yet, the gpu fold writes
`argmaxFirst samples` into it. -/
theorem progress_gpu_fold (dk hk : Nat) (gs : GpuSamples) (g : Nat)
    (samples : Samples) (hmem : (g, samples) ∈ gs)
    (hnd : (gs.map Prod.fst).Nodup)
    (a : SysState × Nat) (e : GpuEntry)
    (hE : readEntry a.1 dk hk g = some e) (hnone : e.actual_user = none) :
    readEntry (gs.foldl (finalizeGpu dk hk) a).1 dk hk g =
      some { e with actual_user := some (argmaxFirst samples) } := by
  induction gs generalizing a with
  | nil => simp at hmem
  | cons gkv rest ih =>
    obtain ⟨g0, s0⟩ := gkv
    simp only [List.map_cons, List.nodup_cons] at hnd
    rw [List.foldl_cons]
    by_cases hgeq : g0 = g
    · subst hgeq
      have hsamp : s0 = samples := by
        rcases List.mem_cons.mp hmem with hm | hm
        · exact congrArg Prod.snd hm.symm
        · exact absurd (List.mem_map.mpr ⟨(g0, samples), hm, rfl⟩) hnd.1
      subst hsamp
      obtain ⟨sl, hsl, hget⟩ := readEntry_some_elim hE
      have hlen : g0 < sl.gpu_prices.length := (List.getElem?_eq_some.mp hget).1
      have hstep : finalizeGpu dk hk a (g0, s0) =
          (writeEntryIn a.1 dk hk g0
            { e with actual_user := some (argmaxFirst s0) },
           a.2 + 1) := by
        unfold finalizeGpu
        simp only [hsl, hget, hnone, Nat.not_le.mpr hlen, if_false,
          Option.isSome_none]
        rfl
      rw [hstep]
      obtain ⟨d, hd, hds⟩ := readSlot_some_elim hsl
      refine stable_gpu_fold dk hk rest _ dk hk g0
        { e with actual_user := some (argmaxFirst s0) } ?_ (by simp)
      exact readEntry_writeEntryIn_self _ _ _ _ _ _ _ hd hds hlen
    · have hpres : readEntry (finalizeGpu dk hk a (g0, s0)).1 dk hk g =
          readEntry a.1 dk hk g := by
        rcases finalizeGpu_cases dk hk a (g0, s0) with hc |
          ⟨sl, e0, hsl, hlen, hget, hnone0, hc⟩
        · rw [hc]
        · rw [hc]
          exact readEntry_writeEntryIn_other _ _ _ _ _ _ _ _
            (Or.inr (Or.inr (Ne.symm hgeq)))
      refine ih ?_ hnd.2 (finalizeGpu dk hk a (g0, s0)) (hpres.trans hE)
      rcases List.mem_cons.mp hmem with hm | hm
      · injection hm with h1 _
        exact absurd h1.symm hgeq
      · exact hm

/-- If the target slot is tracked with gpu map `gs`, its hour has fully
elapsed, and the target entry has no `actual_user` yet, the slot fold
writes `argmaxFirst samples` into it. -/
theorem progress_slot_fold (now dkey : Nat) (ss : SlotSamples)
    (hk : Nat) (gs : GpuSamples) (hmem : (hk, gs) ∈ ss)
    (hnd : (ss.map Prod.fst).Nodup)
    (hwfg : (gs.map Prod.fst).Nodup)
    (g : Nat) (samples : Samples) (hgmem : (g, samples) ∈ gs)
    (a : SysState × Nat) (e : GpuEntry)
    (hE : readEntry a.1 dkey hk g = some e) (hnone : e.actual_user = none)
    (htime : hk + 1 ≤ now / 3600) :
    readEntry (ss.foldl (finalizeSlot now dkey) a).1 dkey hk g =
      some { e with actual_user := some (argmaxFirst samples) } := by
  induction ss generalizing a with
  | nil => simp at hmem
  | cons skv rest ih =>
    obtain ⟨hk0, gs0⟩ := skv
    simp only [List.map_cons, List.nodup_cons] at hnd
    rw [List.foldl_cons]
    by_cases hkeq : hk0 = hk
    · subst hkeq
      have hgs : gs0 = gs := by
        rcases List.mem_cons.mp hmem with hm | hm
        · exact congrArg Prod.snd hm.symm
        · exact absurd (List.mem_map.mpr ⟨(hk0, gs), hm, rfl⟩) hnd.1
      subst hgs
      obtain ⟨sl, hsl, _⟩ := readEntry_some_elim hE
      have hstep : finalizeSlot now dkey a (hk0, gs0) =
          gs0.foldl (finalizeGpu dkey hk0) a := by
        unfold finalizeSlot
        rw [if_neg (Nat.not_lt.mpr htime), hsl]
      rw [hstep]
      have hprog := progress_gpu_fold dkey hk0 gs0 g samples hgmem hwfg a e
        hE hnone
      exact stable_slot_fold now dkey rest _ dkey hk0 g _ hprog (by simp)
    · have hpres : readEntry (finalizeSlot now dkey a (hk0, gs0)).1
          dkey hk g = readEntry a.1 dkey hk g := by
        rcases finalizeSlot_cases now dkey a (hk0, gs0) with hc | ⟨_, hc⟩
        · rw [hc]
        · rw [hc]
          exact readEntry_finalizeGpu_fold_other dkey hk0 gs0 a dkey hk g
            (Or.inr (Ne.symm hkeq))
      refine ih ?_ hnd.2 _ (hpres.trans hE)
      rcases List.mem_cons.mp hmem with hm | hm
      · exact absurd (congrArg Prod.fst hm).symm hkeq
      · exact hm

/-- If the target day is tracked, executing or final, the slot hour has
fully elapsed, and the target entry has no `actual_user` yet, the whole
finalization fold writes `argmaxFirst samples` into it. -/
theorem progress_day_fold (now : Nat) (tr : Tracking)
    (dk : Nat) (ss : SlotSamples) (hdmem : (dk, ss) ∈ tr)
    (hnd : (tr.map Prod.fst).Nodup)
    (hwfs : (ss.map Prod.fst).Nodup)
    (hk : Nat) (gs : GpuSamples) (hsmem : (hk, gs) ∈ ss)
    (hwfg : (gs.map Prod.fst).Nodup)
    (g : Nat) (samples : Samples) (hgmem : (g, samples) ∈ gs)
    (a : SysState × Nat) (e : GpuEntry)
    (hE : readEntry a.1 dk hk g = some e) (hnone : e.actual_user = none)
    (htime : hk + 1 ≤ now / 3600)
    (hstat : statusOf a.1 dk = some .executing ∨
      statusOf a.1 dk = some .final) :
    readEntry (tr.foldl (finalizeDay now) a).1 dk hk g =
      some { e with actual_user := some (argmaxFirst samples) } := by
  induction tr generalizing a with
  | nil => simp at hdmem
  | cons dkv rest ih =>
    obtain ⟨dk0, ss0⟩ := dkv
    simp only [List.map_cons, List.nodup_cons] at hnd
    rw [List.foldl_cons]
    by_cases hdeq : dk0 = dk
    · subst hdeq
      have hss : ss0 = ss := by
        rcases List.mem_cons.mp hdmem with hm | hm
        · exact congrArg Prod.snd hm.symm
        · exact absurd (List.mem_map.mpr ⟨(dk0, ss), hm, rfl⟩) hnd.1
      subst hss
      have hstep : finalizeDay now a (dk0, ss0) =
          ss0.foldl (finalizeSlot now dk0) a := by
        obtain ⟨d, hd, hds⟩ : ∃ d, lookupA a.1.days dk0 = some d ∧
            (d.status = .executing ∨ d.status = .final) := by
          rcases hstat with hst | hst
          · obtain ⟨d, hd, hds⟩ := statusOf_some_elim hst
            exact ⟨d, hd, Or.inl hds⟩
          · obtain ⟨d, hd, hds⟩ := statusOf_some_elim hst
            exact ⟨d, hd, Or.inr hds⟩
        unfold finalizeDay
        rw [hd]
        dsimp only
        rw [if_pos hds]
      rw [hstep]
      have hprog := progress_slot_fold now dk0 ss0 hk gs hsmem hwfs hwfg g
        samples hgmem a e hE hnone htime
      exact stable_day_fold now rest _ dk0 hk g _ hprog (by simp)
    · have hpres1 : readEntry (finalizeDay now a (dk0, ss0)).1 dk hk g =
          readEntry a.1 dk hk g := by
        rcases finalizeDay_cases now a (dk0, ss0) with hc | ⟨_, hc⟩
        · rw [hc]
        · rw [hc]
          exact readEntry_finalizeSlot_fold_other now dk0 ss0 a dk hk g
            (Ne.symm hdeq)
      have hpres2 : statusOf (finalizeDay now a (dk0, ss0)).1 dk =
          statusOf a.1 dk := by
        have := statusOf_finalize_fold now [(dk0, ss0)] a dk
        rwa [List.foldl_cons, List.foldl_nil] at this
      refine ih ?_ hnd.2 _ (hpres1.trans hE) ?_
      · rcases List.mem_cons.mp hdmem with hm | hm
        · exact absurd (congrArg Prod.fst hm).symm hdeq
        · exact hm
      · rw [hpres2]
        exact hstat

/-- C8: `finalize_past_gpu_slots` writes `actual_user` only for tracked
(day, slot, gpu) triples whose day status is executing or final and whose
slot hour has fully ended (`hk + 1 ≤ now / 3600`); every other entry, and
every entry already carrying the field, reads back unchanged; a written
entry changes only in its `actual_user` field, which receives
`argmaxFirst samples`, and `argmaxFirst` picks the first-seen username of
maximal sample count (strictly larger than every earlier count, at least
as large as every later one). -/
theorem finalize_past_gpu_slots_correct (s : SysState) (tr : Tracking)
    (now dk hk g : Nat) (hwf : TrackingWF tr) :
    (readEntry (finalize_past_gpu_slots s tr now).1 dk hk g =
        readEntry s dk hk g ∨
      ∃ e samples, readEntry s dk hk g = some e ∧
        e.actual_user = none ∧
        trackLookup tr dk hk g = some samples ∧
        (statusOf s dk = some .executing ∨ statusOf s dk = some .final) ∧
        hk + 1 ≤ now / 3600 ∧
        readEntry (finalize_past_gpu_slots s tr now).1 dk hk g =
          some { e with actual_user := some (argmaxFirst samples) }) ∧
    (∀ samples : Samples, samples ≠ [] →
      ∃ w c l₁ l₂, argmaxFirst samples = some w ∧
        samples = l₁ ++ (w, c) :: l₂ ∧
        (∀ p ∈ l₁, p.2 < c) ∧ (∀ p ∈ l₂, p.2 ≤ c)) := by
  constructor
  · have hfin : FinInv s tr now dk hk g
        (tr.foldl (finalizeDay now) (s, 0)).1 := by
      refine FinInv_day_fold tr ?_ ?_ (s, 0) (fun k => rfl) (Or.inl rfl)
      · intro dkv hdkv
        exact lookupA_eq_of_mem hwf.1 hdkv
      · intro dkv hdkv
        exact hwf.2 dkv hdkv
    exact hfin
  · intro samples hne
    exact argmaxFirst_spec samples hne

/-- Usage tracking for the C8 witness: gpu 2 of slot 260 on day 10 was
sampled three times for each of two users; the first-seen one wins the
tie. -/
def finWitTr : Tracking := [(10, [(260, [(2, [("u1", 3), ("u2", 3)])])])]

/-- Witness for C8: the theorem applied at the concrete owned state with
the concrete tracking, at a time one hour after slot 260 ended. -/
theorem finalize_past_gpu_slots_correct_witness :
    TrackingWF finWitTr ∧
    ((readEntry (finalize_past_gpu_slots relState finWitTr 939600).1
          10 260 2 = readEntry relState 10 260 2 ∨
      ∃ e samples, readEntry relState 10 260 2 = some e ∧
        e.actual_user = none ∧
        trackLookup finWitTr 10 260 2 = some samples ∧
        (statusOf relState 10 = some .executing ∨
          statusOf relState 10 = some .final) ∧
        260 + 1 ≤ 939600 / 3600 ∧
        readEntry (finalize_past_gpu_slots relState finWitTr 939600).1
            10 260 2 =
          some { e with actual_user := some (argmaxFirst samples) }) ∧
    (∀ samples : Samples, samples ≠ [] →
      ∃ w c l₁ l₂, argmaxFirst samples = some w ∧
        samples = l₁ ++ (w, c) :: l₂ ∧
        (∀ p ∈ l₁, p.2 < c) ∧ (∀ p ∈ l₂, p.2 ≤ c))) :=
  ⟨by decide,
   finalize_past_gpu_slots_correct relState finWitTr 939600 10 260 2
     (by decide)⟩

/-! ### Telemetry polling lemmas (C10) -/

theorem lookupA_ensureA_self {β : Type} (l : List (Nat × β)) (k : Nat)
    (d : β) :
    lookupA (ensureA l k d) k = some ((lookupA l k).getD d) := by
  unfold ensureA
  cases h : lookupA l k with
  | some v =>
    dsimp only
    exact h
  | none =>
    dsimp only
    refine lookupA_append_right l k d (fun hm => ?_)
    have hs := (lookupA_isSome_iff_mem_keys l k).mpr hm
    rw [h] at hs
    simp at hs

theorem trackLookup_trackSet_self {tr : Tracking} {d h : Nat}
    {ss : SlotSamples} {gs : GpuSamples}
    (hss : lookupA tr d = some ss) (hgs : lookupA ss h = some gs)
    (g : Nat) (v : Samples) :
    trackLookup (trackSet tr d h g v) d h g = some v := by
  unfold trackSet
  rw [hss]
  dsimp only
  rw [hgs]
  dsimp only
  unfold trackLookup
  rw [lookupA_updateA_self]
  dsimp only
  rw [lookupA_updateA_self]
  dsimp only
  rw [lookupA_updateA_self]

theorem trackLookup_trackSet_ne (tr : Tracking) (d h g' : Nat) (v : Samples)
    (g : Nat) (hne : g ≠ g') :
    trackLookup (trackSet tr d h g' v) d h g = trackLookup tr d h g := by
  unfold trackSet
  split
  · rfl
  next ss hss =>
  split
  · rfl
  next gs hgs =>
  unfold trackLookup
  rw [lookupA_updateA_self]
  dsimp only
  rw [lookupA_updateA_self]
  dsimp only
  rw [lookupA_updateA_ne _ _ _ _ hne, hss]
  dsimp only
  rw [hgs]

/-- The day and slot levels of the tracking map exist at `(d, h)` (they
are materialised by `process_gpu_status` before any per-gpu write). -/
def HasLevels (t : Tracking) (d h : Nat) : Prop :=
  ∃ ss gs, lookupA t d = some ss ∧ lookupA ss h = some gs

theorem trackSet_levels {t : Tracking} {d h : Nat} (g : Nat) (v : Samples)
    (hlev : HasLevels t d h) : HasLevels (trackSet t d h g v) d h := by
  obtain ⟨ss, gs, hss, hgs⟩ := hlev
  unfold trackSet
  rw [hss]
  dsimp only
  rw [hgs]
  dsimp only
  exact ⟨_, _, lookupA_updateA_self _ _ _, lookupA_updateA_self _ _ _⟩

theorem pollUser_levels (wk sk g : Nat) (t : Tracking) (u : Username)
    (hlev : HasLevels t wk sk) : HasLevels (pollUser wk sk g t u) wk sk := by
  unfold pollUser
  split
  · dsimp only
    exact trackSet_levels g _ hlev
  · exact hlev

theorem pollUser_fold_levels (wk sk g : Nat) (l : List Username)
    (t : Tracking) (hlev : HasLevels t wk sk) :
    HasLevels (l.foldl (pollUser wk sk g) t) wk sk := by
  induction l generalizing t with
  | nil => exact hlev
  | cons u rest ih =>
    rw [List.foldl_cons]
    exact ih _ (pollUser_levels wk sk g t u hlev)

theorem pollUser_fold_empty (wk sk g : Nat) (l : List Username)
    (hus : ∀ u ∈ l, u = "") (t : Tracking) :
    l.foldl (pollUser wk sk g) t = t := by
  induction l generalizing t with
  | nil => rfl
  | cons u rest ih =>
    rw [List.foldl_cons]
    have hu : u = "" := hus u (List.mem_cons_self _ _)
    subst hu
    have hstep : pollUser wk sk g t "" = t := by
      unfold pollUser
      rw [if_neg (by simp)]
    rw [hstep]
    exact ih (fun u hu => hus u (List.mem_cons_of_mem _ hu)) t

theorem pollUser_trackLookup_ne (wk sk g' : Nat) (t : Tracking)
    (u : Username) (g : Nat) (hne : g ≠ g') :
    trackLookup (pollUser wk sk g' t u) wk sk g = trackLookup t wk sk g := by
  unfold pollUser
  split
  · dsimp only
    exact trackLookup_trackSet_ne t wk sk g' _ g hne
  · rfl

theorem pollUser_fold_ne (wk sk g' : Nat) (l : List Username) (t : Tracking)
    (g : Nat) (hne : g ≠ g') :
    trackLookup (l.foldl (pollUser wk sk g') t) wk sk g =
      trackLookup t wk sk g := by
  induction l generalizing t with
  | nil => rfl
  | cons u rest ih =>
    rw [List.foldl_cons, ih _]
    exact pollUser_trackLookup_ne wk sk g' t u g hne

theorem pollGpu_levels (wk sk : Nat) (t : Tracking)
    (gv : Nat × List Username) (hlev : HasLevels t wk sk) :
    HasLevels (pollGpu wk sk t gv) wk sk := by
  unfold pollGpu
  split
  · exact hlev
  · dsimp only
    exact pollUser_fold_levels wk sk gv.1 gv.2 _
      (trackSet_levels gv.1 _ hlev)

theorem pollGpu_trackLookup_ne (wk sk : Nat) (t : Tracking)
    (gv : Nat × List Username) (g : Nat) (hne : g ≠ gv.1) :
    trackLookup (pollGpu wk sk t gv) wk sk g = trackLookup t wk sk g := by
  unfold pollGpu
  split
  · rfl
  · dsimp only
    rw [pollUser_fold_ne wk sk gv.1 gv.2 _ g hne]
    exact trackLookup_trackSet_ne t wk sk gv.1 _ g hne

/-- A usage item whose usernames are all empty materialises the gpu's
sample map (empty if absent) and adds no sample. -/
theorem pollGpu_all_empty (wk sk : Nat) (t : Tracking)
    (gv : Nat × List Username) (hg : gv.1 < NUM_GPUS)
    (hus : ∀ u ∈ gv.2, u = "") (hlev : HasLevels t wk sk) :
    trackLookup (pollGpu wk sk t gv) wk sk gv.1 =
      some ((trackLookup t wk sk gv.1).getD []) := by
  obtain ⟨ss, gs, hss, hgs⟩ := hlev
  unfold pollGpu
  rw [if_neg (Nat.not_le.mpr hg)]
  dsimp only
  rw [pollUser_fold_empty wk sk gv.1 gv.2 hus]
  cases htl : trackLookup t wk sk gv.1 with
  | none =>
    dsimp only
    exact trackLookup_trackSet_self hss hgs gv.1 []
  | some m =>
    dsimp only
    exact trackLookup_trackSet_self hss hgs gv.1 m

/-- Folding usage items that never carry a non-empty username for gpu `g`
keeps the levels present and keeps gpu `g`'s sample map absent-or-empty;
once empty it stays exactly empty. -/
theorem pollGpu_fold_empty (wk sk g : Nat) (l : List (Nat × List Username))
    (hempty : ∀ gv ∈ l, gv.1 = g → ∀ u ∈ gv.2, u = "")
    (t : Tracking) (hlev : HasLevels t wk sk)
    (hopt : trackLookup t wk sk g = none ∨ trackLookup t wk sk g = some []) :
    HasLevels (l.foldl (pollGpu wk sk) t) wk sk ∧
    (trackLookup (l.foldl (pollGpu wk sk) t) wk sk g = none ∨
     trackLookup (l.foldl (pollGpu wk sk) t) wk sk g = some []) ∧
    (trackLookup t wk sk g = some [] →
     trackLookup (l.foldl (pollGpu wk sk) t) wk sk g = some []) := by
  induction l generalizing t with
  | nil => exact ⟨hlev, hopt, fun h => h⟩
  | cons gv rest ih =>
    rw [List.foldl_cons]
    have hlev' : HasLevels (pollGpu wk sk t gv) wk sk :=
      pollGpu_levels wk sk t gv hlev
    have hrest : ∀ w ∈ rest, w.1 = g → ∀ u ∈ w.2, u = "" :=
      fun w hw => hempty w (List.mem_cons_of_mem _ hw)
    by_cases hgeq : gv.1 = g
    · by_cases hrange : NUM_GPUS ≤ gv.1
      · have hstep : pollGpu wk sk t gv = t := by
          unfold pollGpu
          rw [if_pos hrange]
        rw [hstep]
        exact ih hrest t hlev hopt
      · have hstep := pollGpu_all_empty wk sk t gv (Nat.not_le.mp hrange)
          (hempty gv (List.mem_cons_self _ _) hgeq) hlev
        rw [hgeq] at hstep
        have hsome : trackLookup (pollGpu wk sk t gv) wk sk g = some [] := by
          rcases hopt with h | h
          · rw [hstep, h]
            rfl
          · rw [hstep, h]
            rfl
        obtain ⟨L, O, S⟩ := ih hrest (pollGpu wk sk t gv) hlev'
          (Or.inr hsome)
        exact ⟨L, O, fun _ => S hsome⟩
    · have hne : trackLookup (pollGpu wk sk t gv) wk sk g =
          trackLookup t wk sk g :=
        pollGpu_trackLookup_ne wk sk t gv g (fun he => hgeq he.symm)
      obtain ⟨L, O, S⟩ := ih hrest (pollGpu wk sk t gv) hlev'
        (by rw [hne]; exact hopt)
      exact ⟨L, O, fun h => S (by rw [hne]; exact h)⟩

/-- C10: a poll whose usage list mentions in-range gpu `g` only with
empty usernames creates an empty sample map at the poll's
(day, slot, gpu); once that slot's hour has fully ended, finalization
writes `actual_user = null` (here `some none`) into the entry; and
because the field is then present, every later finalization pass leaves
the entry untouched, so no real username can ever replace the null. -/
theorem empty_poll_finalizes_null (s : SysState) (tr : Tracking)
    (usage : List (Nat × List Username)) (now₀ : Nat)
    (g wk hk : Nat) (users : List Username)
    (hwk : wk = day_start_key s.day_transition_hour now₀)
    (hhk : hk = now₀ / 3600)
    (hg : g < NUM_GPUS) (hmem : (g, users) ∈ usage)
    (hempty : ∀ gv ∈ usage, gv.1 = g → ∀ u ∈ gv.2, u = "")
    (hnew : trackLookup tr wk hk g = none)
    (s₁ : SysState) (now₁ : Nat) (e : GpuEntry)
    (hwf : TrackingWF (process_gpu_status s tr usage now₀))
    (hE : readEntry s₁ wk hk g = some e)
    (hnone : e.actual_user = none)
    (htime : hk + 1 ≤ now₁ / 3600)
    (hstat : statusOf s₁ wk = some .executing ∨
      statusOf s₁ wk = some .final) :
    trackLookup (process_gpu_status s tr usage now₀) wk hk g = some [] ∧
    readEntry (finalize_past_gpu_slots s₁
        (process_gpu_status s tr usage now₀) now₁).1 wk hk g =
      some { e with actual_user := some none } ∧
    (∀ s₂ tr₂ now₂,
      readEntry s₂ wk hk g = some { e with actual_user := some none } →
      readEntry (finalize_past_gpu_slots s₂ tr₂ now₂).1 wk hk g =
        some { e with actual_user := some none }) := by
  have hres : process_gpu_status s tr usage now₀ =
      usage.foldl (pollGpu wk hk)
        (updateA (ensureA tr wk []) wk
          (ensureA ((lookupA tr wk).getD []) hk [])) := by
    rw [hwk, hhk]
    unfold process_gpu_status
    dsimp only
    rw [lookupA_ensureA_self]
  have hlev2 : HasLevels (updateA (ensureA tr wk []) wk
      (ensureA ((lookupA tr wk).getD []) hk [])) wk hk :=
    ⟨_, _, lookupA_updateA_self _ _ _, lookupA_ensureA_self _ _ _⟩
  have hopt2 : trackLookup (updateA (ensureA tr wk []) wk
      (ensureA ((lookupA tr wk).getD []) hk [])) wk hk g = none := by
    unfold trackLookup
    rw [lookupA_updateA_self]
    dsimp only
    rw [lookupA_ensureA_self]
    dsimp only
    unfold trackLookup at hnew
    cases hA : lookupA tr wk with
    | none => rfl
    | some ss =>
      rw [hA] at hnew
      dsimp only [Option.getD] at hnew ⊢
      cases hB : lookupA ss hk with
      | none => rfl
      | some gs =>
        rw [hB] at hnew
        dsimp only [Option.getD] at hnew ⊢
        exact hnew
  obtain ⟨pre, post, hsplit⟩ := List.append_of_mem hmem
  have hpre : ∀ gv ∈ pre, gv.1 = g → ∀ u ∈ gv.2, u = "" :=
    fun gv hgv => hempty gv (by rw [hsplit]
                                exact List.mem_append_left _ hgv)
  have hpost : ∀ gv ∈ post, gv.1 = g → ∀ u ∈ gv.2, u = "" :=
    fun gv hgv => hempty gv (by rw [hsplit]
                                exact List.mem_append_right _
                                  (List.mem_cons_of_mem _ hgv))
  obtain ⟨Lp, Op, _⟩ := pollGpu_fold_empty wk hk g pre hpre _ hlev2
    (Or.inl hopt2)
  have hstep : trackLookup
      (pollGpu wk hk (pre.foldl (pollGpu wk hk)
        (updateA (ensureA tr wk []) wk
          (ensureA ((lookupA tr wk).getD []) hk []))) (g, users)) wk hk g =
      some ((trackLookup (pre.foldl (pollGpu wk hk)
        (updateA (ensureA tr wk []) wk
          (ensureA ((lookupA tr wk).getD []) hk []))) wk hk g).getD []) :=
    pollGpu_all_empty wk hk _ (g, users) hg (hempty (g, users) hmem rfl) Lp
  have hsome : trackLookup
      (pollGpu wk hk (pre.foldl (pollGpu wk hk)
        (updateA (ensureA tr wk []) wk
          (ensureA ((lookupA tr wk).getD []) hk []))) (g, users)) wk hk g =
      some [] := by
    rcases Op with h | h
    · rw [hstep, h]
      rfl
    · rw [hstep, h]
      rfl
  have hlevs := pollGpu_levels wk hk _ (g, users) Lp
  obtain ⟨_, _, Sp⟩ := pollGpu_fold_empty wk hk g post hpost _ hlevs
    (Or.inr hsome)
  have htr : trackLookup (process_gpu_status s tr usage now₀) wk hk g =
      some [] := by
    rw [hres, hsplit, List.foldl_append, List.foldl_cons]
    exact Sp hsome
  refine ⟨htr, ?_, ?_⟩
  · have hch : ∃ ss gs,
        lookupA (process_gpu_status s tr usage now₀) wk = some ss ∧
        lookupA ss hk = some gs ∧ lookupA gs g = some [] := by
      have h := htr
      unfold trackLookup at h
      split at h
      · exact Option.noConfusion h
      next ss hss =>
      split at h
      · exact Option.noConfusion h
      next gs hgs => exact ⟨ss, gs, hss, hgs, h⟩
    obtain ⟨ss, gs, hss, hgs, hgl⟩ := hch
    have hdmem := mem_of_lookupA_eq_some hss
    have hsmem := mem_of_lookupA_eq_some hgs
    have hgmem := mem_of_lookupA_eq_some hgl
    obtain ⟨hnds, hndg⟩ := hwf.2 _ hdmem
    exact progress_day_fold now₁ (process_gpu_status s tr usage now₀)
      wk ss hdmem hwf.1 hnds hk gs hsmem (hndg _ hsmem) g [] hgmem
      (s₁, 0) e hE hnone htime hstat
  · intro s₂ tr₂ now₂ h₂
    exact stable_day_fold now₂ tr₂ (s₂, 0) wk hk g _ h₂ rfl

/-- The entry owned by `"u1"` in the C7/C8 witness state. -/
def ownedEntryVal : GpuEntry :=
  { gpu := 2, price := 5, winner := some "u1", bids := [⟨"u1", 5, 0⟩],
    actual_user := none }

/-- Witness for C10: the concrete poll `usage = [(2, [])]` at hour 260 of
day 10 creates the empty sample map, the finalization one hour later
writes `actual_user = null` into the owned entry, and any further pass
keeps it. -/
theorem empty_poll_finalizes_null_witness :
    trackLookup (process_gpu_status relState [] [(2, [])] 936000)
        10 260 2 = some [] ∧
    readEntry (finalize_past_gpu_slots relState
        (process_gpu_status relState [] [(2, [])] 936000) 939600).1
        10 260 2 =
      some { ownedEntryVal with actual_user := some none } ∧
    (∀ s₂ tr₂ now₂,
      readEntry s₂ 10 260 2 =
        some { ownedEntryVal with actual_user := some none } →
      readEntry (finalize_past_gpu_slots s₂ tr₂ now₂).1 10 260 2 =
        some { ownedEntryVal with actual_user := some none }) :=
  empty_poll_finalizes_null relState [] [(2, [])] 936000 2 10 260 []
    (by decide) (by decide) (by decide) (by decide) (by decide) (by decide)
    relState 939600 ownedEntryVal (by decide) (by decide) (by decide)
    (by decide) (Or.inl (by decide))

/-! ### Committed-credit accounting (C1) -/

theorem committed_of_days_eq {t s : SysState} (h : t.days = s.days)
    (u : Username) : committed_for_user t u = committed_for_user s u := by
  unfold committed_for_user find_days_by_status
  rw [h]

theorem committed_eq_filter_sum (s : SysState) (u : Username) :
    committed_for_user s u =
      ((s.days.filter (fun kd => kd.2.status = DayStatus.opened)).map
        (fun kd => dayCommitted u kd.2)).sum := by
  unfold committed_for_user find_days_by_status
  exact List.Perm.sum_eq (List.Perm.map _ (sortBy_perm _ _))

theorem map_sum_set (u : Username) (l : List GpuEntry) (g : Nat)
    (entry e' : GpuEntry) (hget : l[g]? = some entry) :
    ((l.set g e').map (entryCommitted u)).sum + entryCommitted u entry =
      (l.map (entryCommitted u)).sum + entryCommitted u e' := by
  induction l generalizing g with
  | nil => exact Option.noConfusion hget
  | cons x xs ih =>
    cases g with
    | zero =>
      rw [List.getElem?_cons_zero] at hget
      injection hget with hx
      subst hx
      simp only [List.set_cons_zero, List.map_cons, List.sum_cons]
      omega
    | succ n =>
      rw [List.getElem?_cons_succ] at hget
      simp only [List.set_cons_succ, List.map_cons, List.sum_cons]
      have := ih n hget
      omega

theorem slotSum_updateA (u : Username) (slots : List (Nat × Slot)) (sk : Nat)
    (sl sl' : Slot) (hl : lookupA slots sk = some sl) :
    ((updateA slots sk sl').map (fun kv => slotCommitted u kv.2)).sum +
      slotCommitted u sl =
    (slots.map (fun kv => slotCommitted u kv.2)).sum +
      slotCommitted u sl' := by
  induction slots with
  | nil => exact Option.noConfusion hl
  | cons p rest ih =>
    obtain ⟨k, v⟩ := p
    rw [lookupA_cons] at hl
    dsimp only at hl
    by_cases hk : k = sk
    · rw [if_pos hk] at hl
      injection hl with hl
      unfold updateA
      rw [if_pos hk]
      simp only [List.map_cons, List.sum_cons]
      rw [← hl]
      omega
    · rw [if_neg hk] at hl
      unfold updateA
      rw [if_neg hk]
      simp only [List.map_cons, List.sum_cons]
      have := ih hl
      omega

theorem openDaySum_updateA (u : Username) (days : List (Nat × Day))
    (wk : Nat) (d d' : Day) (hl : lookupA days wk = some d)
    (hst : d'.status = d.status) :
    (((updateA days wk d').filter
        (fun kd => kd.2.status = DayStatus.opened)).map
      (fun kd => dayCommitted u kd.2)).sum +
      (if d.status = DayStatus.opened then dayCommitted u d else 0) =
    ((days.filter (fun kd => kd.2.status = DayStatus.opened)).map
      (fun kd => dayCommitted u kd.2)).sum +
      (if d'.status = DayStatus.opened then dayCommitted u d' else 0) := by
  induction days with
  | nil => exact Option.noConfusion hl
  | cons p rest ih =>
    obtain ⟨k, v⟩ := p
    rw [lookupA_cons] at hl
    dsimp only at hl
    by_cases hk : k = wk
    · rw [if_pos hk] at hl
      injection hl with hl
      subst hl
      unfold updateA
      rw [if_pos hk]
      by_cases hop : v.status = DayStatus.opened
      · rw [List.filter_cons_of_pos (by simp [hst, hop]),
          List.filter_cons_of_pos (by simp [hop])]
        simp only [List.map_cons, List.sum_cons]
        rw [if_pos hop, if_pos (hst.trans hop)]
        omega
      · rw [List.filter_cons_of_neg (by simp [hst, hop]),
          List.filter_cons_of_neg (by simp [hop])]
        rw [if_neg hop, if_neg (fun hh => hop (hst.symm.trans hh))]
    · rw [if_neg hk] at hl
      unfold updateA
      rw [if_neg hk]
      have := ih hl
      by_cases hop : v.status = DayStatus.opened
      · rw [List.filter_cons_of_pos (by simp [hop]),
          List.filter_cons_of_pos (by simp [hop])]
        simp only [List.map_cons, List.sum_cons]
        omega
      · rw [List.filter_cons_of_neg (by simp [hop]),
          List.filter_cons_of_neg (by simp [hop])]
        exact this

/-- Overwriting one entry of an open day shifts the committed total of
`u` by exactly the entry's contribution delta. -/
theorem committed_writeEntryIn_opened (s : SysState) (u : Username)
    (wk sk g : Nat) (day : Day) (slot : Slot) (entry e' : GpuEntry)
    (hday : lookupA s.days wk = some day) (hop : day.status = .opened)
    (hslot : lookupA day.slots sk = some slot)
    (hentry : slot.gpu_prices[g]? = some entry) :
    committed_for_user (writeEntryIn s wk sk g e') u +
      entryCommitted u entry =
    committed_for_user s u + entryCommitted u e' := by
  unfold writeEntryIn
  rw [hday]
  dsimp only
  rw [hslot]
  dsimp only
  rw [committed_eq_filter_sum, committed_eq_filter_sum]
  have h1 := openDaySum_updateA u s.days wk day
    { day with slots := updateA day.slots sk { gpu_prices := slot.gpu_prices.set g e' } } hday rfl
  dsimp only
  dsimp only at h1
  rw [if_pos hop, if_pos hop] at h1
  have h2 := slotSum_updateA u day.slots sk slot
    { gpu_prices := slot.gpu_prices.set g e' } hslot
  have h3 := map_sum_set u slot.gpu_prices g entry e' hentry
  have hc1 : dayCommitted u { day with slots := updateA day.slots sk { gpu_prices := slot.gpu_prices.set g e' } } =
      ((updateA day.slots sk
        { gpu_prices := slot.gpu_prices.set g e' }).map
        (fun kv => slotCommitted u kv.2)).sum := rfl
  have hc2 : dayCommitted u day =
      (day.slots.map (fun kv => slotCommitted u kv.2)).sum := rfl
  have hc3 : slotCommitted u { gpu_prices := slot.gpu_prices.set g e' } =
      ((slot.gpu_prices.set g e').map (entryCommitted u)).sum := rfl
  have hc4 : slotCommitted u slot =
      (slot.gpu_prices.map (entryCommitted u)).sum := rfl
  rw [hc1, hc2] at h1
  rw [hc3, hc4] at h2
  omega

/-- Outbid notifications never change any balance. -/
theorem notifyOutbid_balance (names : List Username)
    (us : List (Username × User)) (trip : Nat × Nat × Nat) (v : Username) :
    (lookupA (notifyOutbid us names trip) v).map User.balance =
      (lookupA us v).map User.balance := by
  induction names generalizing us with
  | nil => rfl
  | cons o rest ih =>
    have hstep : notifyOutbid us (o :: rest) trip =
        notifyOutbid (match lookupA us o with
          | none => us
          | some ou =>
            if trip ∈ ou.outbid_notification_queue then us
            else updateA us o
              { ou with outbid_notification_queue :=
                  ou.outbid_notification_queue ++ [trip] }) rest trip := rfl
    rw [hstep, ih]
    split
    · rfl
    next ou hou =>
      split
      · rfl
      · by_cases hv : v = o
        · subst hv
          rw [lookupA_updateA_self, hou]
          rfl
        · rw [lookupA_updateA_ne _ _ _ _ hv]

/-- After any single accepted bid, the bidder's committed total is within
the integer part of their (unchanged) balance. -/
theorem place_bid_budget {s : SysState} {u : Username} {wk sk g now : Nat}
    {s' : SysState} (h : place_bid s u wk sk g now = .ok s') :
    (committed_for_user s' u : Int) ≤ pyInt (balOf s' u) := by
  obtain ⟨user, day, slot, entry, hg, huser, hday, hop, hslot, hentry,
    hres, hcheck, hs'⟩ := place_bid_ok_elim h
  have hrs : readSlot s wk sk = some slot := by
    unfold readSlot
    rw [hday]
    dsimp only
    exact hslot
  have hre : readEntry s wk sk g = some entry := readEntry_intro hrs hentry
  have hdays : s'.days = (writeEntryIn s wk sk g
      { entry with
          price := entry.price + 1
          winner := some u
          bids := entry.bids ++ [⟨u, entry.price + 1, now⟩] }).days := by
    rw [hs']
    unfold applyBidMutation
    rw [hre]
  have hcom : committed_for_user s' u + entryCommitted u entry =
      committed_for_user s u + (entry.price + 1) := by
    rw [committed_of_days_eq hdays u]
    have := committed_writeEntryIn_opened s u wk sk g day slot entry
      { entry with
          price := entry.price + 1
          winner := some u
          bids := entry.bids ++ [⟨u, entry.price + 1, now⟩] }
      hday hop hslot hentry
    rw [this]
    have he' : entryCommitted u
        { entry with
            price := entry.price + 1
            winner := some u
            bids := entry.bids ++ [⟨u, entry.price + 1, now⟩] } =
        entry.price + 1 := by
      unfold entryCommitted
      rw [if_pos rfl]
    rw [he']
  have hbal : balOf s' u = user.balance := by
    have husers : s'.users = notifyOutbid
        (writeEntryIn s wk sk g
          { entry with
              price := entry.price + 1
              winner := some u
              bids := entry.bids ++ [⟨u, entry.price + 1, now⟩] }).users
        (outbidUsers entry.bids u) (wk, sk, g) := by
      rw [hs']
      unfold applyBidMutation
      rw [hre]
    have hmap : (lookupA s'.users u).map User.balance =
        some user.balance := by
      rw [husers, notifyOutbid_balance, writeEntryIn_users, huser]
      rfl
    unfold balOf
    cases hlu : lookupA s'.users u with
    | none =>
      rw [hlu] at hmap
      exact Option.noConfusion hmap
    | some usr =>
      rw [hlu] at hmap
      injection hmap with hmap
  have hEC : (entryCommitted u entry : Int) =
      if entry.winner = some u then (entry.price : Int) else 0 := by
    unfold entryCommitted
    by_cases hw : entry.winner = some u
    · rw [if_pos hw, if_pos hw]
    · rw [if_neg hw, if_neg hw]
      rfl
  rw [hbal]
  have hcomZ : (committed_for_user s' u : Int) + entryCommitted u entry =
      committed_for_user s u + (entry.price + 1) := by
    exact_mod_cast congrArg (Nat.cast : Nat → Int) hcom
  by_cases hw : entry.winner = some u
  · rw [if_pos hw] at hcheck
    rw [if_pos hw] at hEC
    linarith
  · rw [if_neg hw] at hcheck
    rw [if_neg hw] at hEC
    linarith

/-- A sequence of single bids by `u`, each of which must be accepted. -/
def runBids (u : Username) :
    List (Nat × Nat × Nat × Nat) → SysState → Except String SysState
  | [], s => .ok s
  | b :: rest, s =>
    match place_bid s u b.1 b.2.1 b.2.2.1 b.2.2.2 with
    | .error msg => .error msg
    | .ok s1 => runBids u rest s1

theorem runBids_budget (u : Username) (bs : List (Nat × Nat × Nat × Nat))
    (hne : bs ≠ []) (t t' : SysState) (h : runBids u bs t = .ok t') :
    (committed_for_user t' u : Int) ≤ pyInt (balOf t' u) := by
  induction bs generalizing t with
  | nil => exact absurd rfl hne
  | cons b rest ih =>
    unfold runBids at h
    split at h
    · exact Except.noConfusion h
    next s1 hpb =>
      cases rest with
      | nil =>
        unfold runBids at h
        injection h with h
        rw [← h]
        exact place_bid_budget hpb
      | cons c cs =>
        exact ih (by simp) s1 h

/-- C1: a single bid by `u` is accepted only when the gpu index is in
range, the day exists with status open, the slot and entry exist, the
entry is not in the policy reserved set, and committed(u) minus the
bidder's own current hold on the entry plus the new price (old + 1) fits
within the integer part of the bidder's balance; consequently, after any
non-empty sequence of accepted bids by `u`, committed(u) is at most
floor(balance(u)). -/
theorem place_bid_correct (s : SysState) (u : Username) (wk sk g now : Nat)
    (s' : SysState) (bs : List (Nat × Nat × Nat × Nat)) (t t' : SysState)
    (h : place_bid s u wk sk g now = .ok s')
    (hseq : runBids u bs t = .ok t') (hne : bs ≠ []) :
    (g < NUM_GPUS ∧
     ∃ day, lookupA s.days wk = some day ∧ day.status = .opened ∧
       ∃ slot, lookupA day.slots sk = some slot ∧
         ∃ entry, slot.gpu_prices[g]? = some entry ∧
           isReserved s wk sk g = false ∧
           (committed_for_user s u : Int) -
             (if entry.winner = some u then (entry.price : Int) else 0) +
             ((entry.price : Int) + 1) ≤ pyInt (balOf s u)) ∧
    (committed_for_user t' u : Int) ≤ pyInt (balOf t' u) := by
  refine ⟨?_, runBids_budget u bs hne t t' hseq⟩
  obtain ⟨user, day, slot, entry, hg, huser, hday, hop, hslot, hentry,
    hres, hcheck, _⟩ := place_bid_ok_elim h
  have hb : balOf s u = user.balance := by
    unfold balOf
    rw [huser]
  exact ⟨hg, day, hday, hop, slot, hslot, entry, hentry, hres,
    by rw [hb]; exact hcheck⟩

/-- Fresh open day 20 and a funded user, for the C1 witness. -/
def bidWitState : SysState :=
  { users := [("u1", mkUser "u1" 1000)]
    days := [(20, freshDay 20 .opened)]
    bid_log := []
    reserved_slots := []
    day_transition_hour := 0 }

/-- The state after the C1 witness bid on `(20, 480, 0)` at price 1. -/
def bidWitResult : SysState :=
  { applyBidMutation bidWitState "u1" 20 480 0 1 0 with
    bid_log := truncLog (applyBidMutation bidWitState "u1" 20 480 0 1 0).bid_log }

/-- Witness for C1: the concrete bid on gpu 0 of slot 480 (day 20) by a
user with balance 10.00 is accepted, and the one-bid sequence leaves
committed = 1 at most floor(balance) = 10. -/
theorem place_bid_correct_witness :
    (0 < NUM_GPUS ∧
     ∃ day, lookupA bidWitState.days 20 = some day ∧
       day.status = .opened ∧
       ∃ slot, lookupA day.slots 480 = some slot ∧
         ∃ entry, slot.gpu_prices[0]? = some entry ∧
           isReserved bidWitState 20 480 0 = false ∧
           (committed_for_user bidWitState "u1" : Int) -
             (if entry.winner = some "u1" then (entry.price : Int) else 0) +
             ((entry.price : Int) + 1) ≤ pyInt (balOf bidWitState "u1")) ∧
    (committed_for_user bidWitResult "u1" : Int) ≤
      pyInt (balOf bidWitResult "u1") :=
  place_bid_correct bidWitState "u1" 20 480 0 0 bidWitResult
    [(20, 480, 0, 0)] bidWitState bidWitResult rfl rfl (by decide)

/-! ### Bulk-bid execution lemmas (C4) -/

/-- The per-bid validation conditions of the bulk path (everything except
the gpu-range and aggregate-cost checks, which are global). -/
def BidValid (s : SysState) (t : Nat × Nat × Nat) : Prop :=
  ∃ day, lookupA s.days t.1 = some day ∧ day.status = .opened ∧
    ∃ slot, lookupA day.slots t.2.1 = some slot ∧
      ∃ entry, slot.gpu_prices[t.2.2]? = some entry ∧
        isReserved s t.1 t.2.1 t.2.2 = false

theorem mem_dedup_go (l acc : List (Nat × Nat × Nat)) (t : Nat × Nat × Nat) :
    t ∈ l.foldl (fun acc t => if t ∈ acc then acc else acc ++ [t]) acc ↔
      t ∈ acc ∨ t ∈ l := by
  induction l generalizing acc with
  | nil => simp
  | cons x xs ih =>
    rw [List.foldl_cons]
    by_cases hx : x ∈ acc
    · rw [if_pos hx, ih]
      simp only [List.mem_cons]
      constructor
      · rintro (h | h)
        · exact Or.inl h
        · exact Or.inr (Or.inr h)
      · rintro (h | h | h)
        · exact Or.inl h
        · exact Or.inl (h ▸ hx)
        · exact Or.inr h
    · rw [if_neg hx, ih]
      simp only [List.mem_append, List.mem_cons, List.mem_singleton]
      constructor
      · rintro ((h | h | h) | h)
        · exact Or.inl h
        · exact Or.inr (Or.inl h)
        · exact absurd h (List.not_mem_nil t)
        · exact Or.inr (Or.inr h)
      · rintro (h | h | h)
        · exact Or.inl (Or.inl h)
        · exact Or.inl (Or.inr (Or.inl h))
        · exact Or.inr h

theorem mem_dedupTriples (l : List (Nat × Nat × Nat)) (t : Nat × Nat × Nat) :
    t ∈ dedupTriples l ↔ t ∈ l := by
  unfold dedupTriples
  rw [mem_dedup_go]
  simp

theorem nodup_dedup_go (l acc : List (Nat × Nat × Nat)) (hacc : acc.Nodup) :
    (l.foldl (fun acc t => if t ∈ acc then acc else acc ++ [t]) acc).Nodup := by
  induction l generalizing acc with
  | nil => exact hacc
  | cons x xs ih =>
    rw [List.foldl_cons]
    by_cases hx : x ∈ acc
    · rw [if_pos hx]
      exact ih acc hacc
    · rw [if_neg hx]
      refine ih _ ?_
      simp [List.nodup_append, hacc, hx]

theorem nodup_dedupTriples (l : List (Nat × Nat × Nat)) :
    (dedupTriples l).Nodup :=
  nodup_dedup_go l [] List.nodup_nil

theorem validateBulk_ok_valid {s : SysState} {u : Username}
    {l : List (Nat × Nat × Nat)} {vs : List BulkValidation}
    (h : validateBulk s u l = .ok vs) :
    ∀ t ∈ l, BidValid s t := by
  induction l generalizing vs with
  | nil =>
    intro t ht
    simp at ht
  | cons x xs ih =>
    obtain ⟨wk, sk, g⟩ := x
    unfold validateBulk at h
    split at h
    · exact Except.noConfusion h
    next day hday =>
    split at h
    · exact Except.noConfusion h
    next hst =>
    split at h
    · exact Except.noConfusion h
    next slot hslot =>
    split at h
    · exact Except.noConfusion h
    next entry hentry =>
    split at h
    · exact Except.noConfusion h
    next hres =>
    split at h
    · exact Except.noConfusion h
    next vs0 hvs0 =>
    intro t ht
    rcases List.mem_cons.mp ht with ht | ht
    · subst ht
      exact ⟨day, hday, not_not.mp hst, slot, hslot, entry, hentry,
        by simpa using hres⟩
    · exact ih hvs0 t ht

theorem validateBulk_triples {s : SysState} {u : Username}
    {l : List (Nat × Nat × Nat)} {vs : List BulkValidation}
    (h : validateBulk s u l = .ok vs) :
    vs.map (fun v => (v.week_key, v.slot_key, v.gpu_index)) = l := by
  induction l generalizing vs with
  | nil =>
    unfold validateBulk at h
    injection h with h
    rw [← h]
    rfl
  | cons x xs ih =>
    obtain ⟨wk, sk, g⟩ := x
    unfold validateBulk at h
    split at h
    · exact Except.noConfusion h
    next day hday =>
    split at h
    · exact Except.noConfusion h
    next hst =>
    split at h
    · exact Except.noConfusion h
    next slot hslot =>
    split at h
    · exact Except.noConfusion h
    next entry hentry =>
    split at h
    · exact Except.noConfusion h
    next hres =>
    split at h
    · exact Except.noConfusion h
    next vs0 hvs0 =>
    injection h with h
    rw [← h, List.map_cons, ih hvs0]

theorem readEntry_of_days_eq {t s : SysState} (h : t.days = s.days)
    (dk hk g : Nat) : readEntry t dk hk g = readEntry s dk hk g := by
  unfold readEntry readSlot
  rw [h]

theorem readEntry_applyBid_other (s : SysState) (u : Username)
    (wk sk g p ts : Nat) (wk' sk' g' : Nat)
    (hne : wk' ≠ wk ∨ sk' ≠ sk ∨ g' ≠ g) :
    readEntry (applyBidMutation s u wk sk g p ts) wk' sk' g' =
      readEntry s wk' sk' g' := by
  unfold applyBidMutation
  split
  · rfl
  next entry hre =>
    dsimp only
    exact (readEntry_of_days_eq rfl wk' sk' g').trans
      (readEntry_writeEntryIn_other s wk sk g _ wk' sk' g' hne)

theorem readEntry_applyBid_self {s : SysState} {u : Username}
    {wk sk g p ts : Nat} {entry : GpuEntry}
    (hre : readEntry s wk sk g = some entry) :
    readEntry (applyBidMutation s u wk sk g p ts) wk sk g =
      some { entry with
          price := p
          winner := some u
          bids := entry.bids ++ [⟨u, p, ts⟩] } := by
  obtain ⟨sl, hsl, hget⟩ := readEntry_some_elim hre
  obtain ⟨d, hd, hds⟩ := readSlot_some_elim hsl
  have hlen : g < sl.gpu_prices.length := (List.getElem?_eq_some.mp hget).1
  unfold applyBidMutation
  rw [hre]
  dsimp only
  exact (readEntry_of_days_eq rfl wk sk g).trans
    (readEntry_writeEntryIn_self s wk sk g d sl _ hd hds hlen)

theorem applyBid_bid_log {s : SysState} {u : Username}
    {wk sk g p ts : Nat} {entry : GpuEntry}
    (hre : readEntry s wk sk g = some entry) :
    (applyBidMutation s u wk sk g p ts).bid_log =
      s.bid_log ++ [⟨u, wk, sk, g, p, ts⟩] := by
  unfold applyBidMutation
  rw [hre]
  dsimp only
  rw [writeEntryIn_bid_log]

theorem execBulk_preserve (u : Username) (ts : Nat)
    (vs : List BulkValidation) (s : SysState) (wk sk g : Nat)
    (hne : ∀ v ∈ vs, wk ≠ v.week_key ∨ sk ≠ v.slot_key ∨ g ≠ v.gpu_index) :
    readEntry (execBulk u ts s vs) wk sk g = readEntry s wk sk g := by
  induction vs generalizing s with
  | nil => rfl
  | cons v rest ih =>
    have hunf : execBulk u ts s (v :: rest) =
        execBulk u ts (applyBidMutation s u v.week_key v.slot_key
          v.gpu_index v.new_price ts) rest := rfl
    rw [hunf, ih _ (fun w hw => hne w (List.mem_cons_of_mem _ hw))]
    exact readEntry_applyBid_other s u _ _ _ _ _ wk sk g
      (hne v (List.mem_cons_self _ _))

theorem execBulk_spec (u : Username) (ts : Nat) (vs : List BulkValidation)
    (s : SysState)
    (hex : ∀ v ∈ vs, (readEntry s v.week_key v.slot_key v.gpu_index).isSome)
    (hnd : (vs.map (fun v => (v.week_key, v.slot_key, v.gpu_index))).Nodup) :
    (execBulk u ts s vs).bid_log = s.bid_log ++ vs.map
      (fun v => (⟨u, v.week_key, v.slot_key, v.gpu_index, v.new_price, ts⟩ :
        LogRecord)) ∧
    ∀ v ∈ vs, ∃ e, readEntry s v.week_key v.slot_key v.gpu_index = some e ∧
      readEntry (execBulk u ts s vs) v.week_key v.slot_key v.gpu_index =
        some { e with
            price := v.new_price
            winner := some u
            bids := e.bids ++ [⟨u, v.new_price, ts⟩] } := by
  induction vs generalizing s with
  | nil =>
    refine ⟨by simp [execBulk], fun v hv => absurd hv (by simp)⟩
  | cons v rest ih =>
    simp only [List.map_cons, List.nodup_cons] at hnd
    obtain ⟨e, he⟩ :=
      Option.isSome_iff_exists.mp (hex v (List.mem_cons_self _ _))
    have hdisj : ∀ w ∈ rest, w.week_key ≠ v.week_key ∨
        w.slot_key ≠ v.slot_key ∨ w.gpu_index ≠ v.gpu_index := by
      intro w hw
      refine triple_ne (fun hc => hnd.1 ?_)
      obtain ⟨h1, h2, h3⟩ := hc
      refine List.mem_map.mpr ⟨w, hw, ?_⟩
      dsimp only
      rw [h1, h2, h3]
    have hdisj' : ∀ w ∈ rest, v.week_key ≠ w.week_key ∨
        v.slot_key ≠ w.slot_key ∨ v.gpu_index ≠ w.gpu_index := by
      intro w hw
      rcases hdisj w hw with h | h | h
      · exact Or.inl (Ne.symm h)
      · exact Or.inr (Or.inl (Ne.symm h))
      · exact Or.inr (Or.inr (Ne.symm h))
    have hunf : execBulk u ts s (v :: rest) =
        execBulk u ts (applyBidMutation s u v.week_key v.slot_key
          v.gpu_index v.new_price ts) rest := rfl
    have hex1 : ∀ w ∈ rest,
        (readEntry (applyBidMutation s u v.week_key v.slot_key v.gpu_index
          v.new_price ts) w.week_key w.slot_key w.gpu_index).isSome := by
      intro w hw
      rw [readEntry_applyBid_other s u _ _ _ _ _ _ _ _ (hdisj w hw)]
      exact hex w (List.mem_cons_of_mem _ hw)
    obtain ⟨ihlog, ihentries⟩ := ih _ hex1 hnd.2
    constructor
    · rw [hunf, ihlog, applyBid_bid_log he, List.append_assoc]
      rfl
    · intro w hw
      rcases List.mem_cons.mp hw with hw | hw
      · subst hw
        refine ⟨e, he, ?_⟩
        rw [hunf,
          execBulk_preserve u ts rest _ _ _ _ (hdisj' · ·),
          readEntry_applyBid_self he]
      · obtain ⟨e0, he0, hfin⟩ := ihentries w hw
        rw [readEntry_applyBid_other s u _ _ _ _ _ _ _ _ (hdisj w hw)] at he0
        exact ⟨e0, he0, by rw [hunf]; exact hfin⟩

/-- C4: bulk bid is all-or-nothing.  Success implies every constituent
bid (after sorting and first-occurrence deduplication, membership is
unchanged) passed validation — gpu in range, day present and open, slot
and entry present, not reserved — and the aggregate cost fits within the
integer part of the balance; on success every validated bid is applied
(entry price set to its new price, winner set to the caller, one bid
record appended per entry) and every appended log record carries the one
shared timestamp `now`.  An error return constructs no successor state,
mirroring the source where every validation failure returns before any
mutation. -/
theorem place_bulk_bids_correct (s : SysState) (u : Username)
    (bids : List (Nat × Nat × Nat)) (now : Nat) (s' : SysState)
    (h : place_bulk_bids s u bids now = .ok s') :
    (∀ t ∈ bids, t.2.2 < NUM_GPUS ∧ BidValid s t) ∧
    (∃ user vs, lookupA s.users u = some user ∧
      validateBulk s u (dedupTriples (sortBy leTriple bids)) = .ok vs ∧
      (committed_for_user s u : Int) -
        ((vs.filter (fun v => v.is_mine)).map
          (fun v => (v.current_price : Int))).sum +
        (vs.map (fun v => (v.new_price : Int))).sum ≤ pyInt user.balance ∧
      s'.bid_log = truncLog (s.bid_log ++ vs.map
        (fun v => (⟨u, v.week_key, v.slot_key, v.gpu_index, v.new_price,
          now⟩ : LogRecord))) ∧
      ∀ v ∈ vs, ∃ e,
        readEntry s v.week_key v.slot_key v.gpu_index = some e ∧
        readEntry s' v.week_key v.slot_key v.gpu_index =
          some { e with
              price := v.new_price
              winner := some u
              bids := e.bids ++ [⟨u, v.new_price, now⟩] }) := by
  obtain ⟨user, vs, hne, hgpu, huser, hvs, hcost, hs'⟩ :=
    place_bulk_bids_ok_elim h
  have hmemu : ∀ t ∈ bids, t ∈ dedupTriples (sortBy leTriple bids) := by
    intro t ht
    exact (mem_dedupTriples _ t).mpr ((mem_sortBy leTriple bids t).mpr ht)
  have hvalid := validateBulk_ok_valid hvs
  have hrange : ∀ t ∈ dedupTriples (sortBy leTriple bids),
      t.2.2 < NUM_GPUS := by
    intro t ht
    have := List.any_eq_false.mp hgpu t ht
    simpa using this
  have htrip := validateBulk_triples hvs
  have hnd : (vs.map (fun v =>
      (v.week_key, v.slot_key, v.gpu_index))).Nodup := by
    rw [htrip]
    exact nodup_dedupTriples _
  have hex : ∀ v ∈ vs,
      (readEntry s v.week_key v.slot_key v.gpu_index).isSome := by
    intro v hv
    have hmem : (v.week_key, v.slot_key, v.gpu_index) ∈
        dedupTriples (sortBy leTriple bids) := by
      rw [← htrip]
      exact List.mem_map.mpr ⟨v, hv, rfl⟩
    obtain ⟨day, hday, _, slot, hslot, entry, hentry, _⟩ :=
      hvalid _ hmem
    have hrs : readSlot s v.week_key v.slot_key = some slot := by
      unfold readSlot
      rw [hday]
      exact hslot
    rw [readEntry_intro hrs hentry]
    rfl
  obtain ⟨hlog, hentries⟩ := execBulk_spec u now vs s hex hnd
  refine ⟨fun t ht => ⟨hrange t (hmemu t ht), hvalid t (hmemu t ht)⟩,
    user, vs, huser, hvs, hcost, ?_, ?_⟩
  · rw [hs']
    dsimp only
    rw [hlog]
  · intro v hv
    obtain ⟨e, he, hfin⟩ := hentries v hv
    refine ⟨e, he, ?_⟩
    rw [hs']
    rw [readEntry_of_days_eq rfl]
    exact hfin

/-- The state after the C4 witness bulk bid on `(20, 480, 0)` and
`(20, 481, 1)` at shared timestamp 5. -/
def bulkWitResult : SysState :=
  { execBulk "u1" 5 bidWitState
      [⟨20, 480, 0, 0, 1, false⟩, ⟨20, 481, 1, 0, 1, false⟩] with
    bid_log := truncLog (execBulk "u1" 5 bidWitState
      [⟨20, 480, 0, 0, 1, false⟩, ⟨20, 481, 1, 0, 1, false⟩]).bid_log }

/-- Witness for C4: a concrete two-bid bulk call on the fresh open day
succeeds; both entries pass validation and both are applied with the one
shared timestamp 5. -/
theorem place_bulk_bids_correct_witness :
    (∀ t ∈ [((20 : Nat), (480 : Nat), (0 : Nat)), (20, 481, 1)],
      t.2.2 < NUM_GPUS ∧ BidValid bidWitState t) ∧
    (∃ user vs, lookupA bidWitState.users "u1" = some user ∧
      validateBulk bidWitState "u1"
        (dedupTriples (sortBy leTriple [(20, 480, 0), (20, 481, 1)])) =
        .ok vs ∧
      (committed_for_user bidWitState "u1" : Int) -
        ((vs.filter (fun v => v.is_mine)).map
          (fun v => (v.current_price : Int))).sum +
        (vs.map (fun v => (v.new_price : Int))).sum ≤
        pyInt user.balance ∧
      bulkWitResult.bid_log = truncLog (bidWitState.bid_log ++ vs.map
        (fun v => (⟨"u1", v.week_key, v.slot_key, v.gpu_index, v.new_price,
          5⟩ : LogRecord))) ∧
      ∀ v ∈ vs, ∃ e,
        readEntry bidWitState v.week_key v.slot_key v.gpu_index = some e ∧
        readEntry bulkWitResult v.week_key v.slot_key v.gpu_index =
          some { e with
              price := v.new_price
              winner := some "u1"
              bids := e.bids ++ [⟨"u1", v.new_price, 5⟩] }) :=
  place_bulk_bids_correct bidWitState "u1" [(20, 480, 0), (20, 481, 1)] 5
    bulkWitResult rfl

/-! ### Day-advancement accounting (C3) -/

theorem payoutsAdd_lookup_self (acc : List (Username × Int))
    (w : Username) (p : Nat) :
    lookupA (payoutsAdd acc w p) w =
      some ((lookupA acc w).getD 0 + (p : Int) * 100) := by
  unfold payoutsAdd
  cases hw : lookupA acc w with
  | none =>
    dsimp only
    have hnm : w ∉ acc.map Prod.fst := by
      intro hm
      have := (lookupA_isSome_iff_mem_keys acc w).mpr hm
      rw [hw] at this
      simp at this
    rw [lookupA_append_right acc w _ hnm]
    simp
  | some old =>
    dsimp only
    exact lookupA_updateA_self acc w _

theorem payoutsAdd_lookup_ne (acc : List (Username × Int))
    (w : Username) (p : Nat) (v : Username) (hv : v ≠ w) :
    lookupA (payoutsAdd acc w p) v = lookupA acc v := by
  unfold payoutsAdd
  cases hw : lookupA acc w with
  | none =>
    dsimp only
    exact lookupA_append_left acc w v _ hv
  | some old =>
    dsimp only
    exact lookupA_updateA_ne _ _ _ _ hv

theorem payoutsAdd_keys_nodup (acc : List (Username × Int))
    (w : Username) (p : Nat) (hnd : (acc.map Prod.fst).Nodup) :
    ((payoutsAdd acc w p).map Prod.fst).Nodup := by
  unfold payoutsAdd
  cases hw : lookupA acc w with
  | none =>
    dsimp only
    have hnm : w ∉ acc.map Prod.fst := by
      intro hm
      have := (lookupA_isSome_iff_mem_keys acc w).mpr hm
      rw [hw] at this
      simp at this
    simp [List.nodup_append, hnd, hnm]
  | some old =>
    dsimp only
    exact nodup_keys_updateA acc w _ hnd

theorem payoutEntry_keys_nodup (acc : List (Username × Int)) (e : GpuEntry)
    (hnd : (acc.map Prod.fst).Nodup) :
    ((payoutEntry acc e).map Prod.fst).Nodup := by
  unfold payoutEntry
  split
  next w hw =>
    split
    · exact payoutsAdd_keys_nodup acc w e.price hnd
    · exact hnd
  · exact hnd

theorem payoutSlot_keys_nodup (acc : List (Username × Int))
    (kv : Nat × Slot) (hnd : (acc.map Prod.fst).Nodup) :
    ((payoutSlot acc kv).map Prod.fst).Nodup := by
  unfold payoutSlot
  induction kv.2.gpu_prices generalizing acc with
  | nil => exact hnd
  | cons e l ih =>
    rw [List.foldl_cons]
    exact ih _ (payoutEntry_keys_nodup acc e hnd)

theorem payoutsOf_keys_nodup (d : Day) :
    ((payoutsOf d).map Prod.fst).Nodup := by
  unfold payoutsOf
  have hgen : ∀ (l : List (Nat × Slot)) (acc : List (Username × Int)),
      (acc.map Prod.fst).Nodup →
      ((l.foldl payoutSlot acc).map Prod.fst).Nodup := by
    intro l
    induction l with
    | nil => exact fun acc h => h
    | cons kv rest ih =>
      intro acc hacc
      rw [List.foldl_cons]
      exact ih _ (payoutSlot_keys_nodup acc kv hacc)
  exact hgen d.slots [] (by simp)

/-- Value and presence of a user's payout through the per-entry fold. -/
theorem payoutEntry_fold (v : Username) (hv : v ≠ "") (l : List GpuEntry)
    (acc : List (Username × Int)) :
    (lookupA (l.foldl payoutEntry acc) v).getD 0 =
      (lookupA acc v).getD 0 + ((l.map (entryCommitted v)).sum : Int) * 100 ∧
    ((lookupA (l.foldl payoutEntry acc) v).isSome ↔
      (lookupA acc v).isSome ∨ l.any (fun e => e.winner = some v) = true) := by
  induction l generalizing acc with
  | nil =>
    refine ⟨by simp, by simp⟩
  | cons e rest ih =>
    rw [List.foldl_cons]
    cases hwv : e.winner with
    | none =>
      have hred : payoutEntry acc e = acc := by
        unfold payoutEntry
        rw [hwv]
      rw [hred]
      obtain ⟨ih1, ih2⟩ := ih acc
      have hec : entryCommitted v e = 0 := by
        unfold entryCommitted
        rw [if_neg (by rw [hwv]; exact fun hh => Option.noConfusion hh)]
      refine ⟨?_, ?_⟩
      · rw [ih1]
        simp only [List.map_cons, List.sum_cons, hec]
        push_cast
        ring
      · rw [ih2]
        simp [hwv]
    | some w =>
      by_cases hwe : w = ""
      · subst hwe
        have hred : payoutEntry acc e = acc := by
          unfold payoutEntry
          rw [hwv]
          simp
        rw [hred]
        obtain ⟨ih1, ih2⟩ := ih acc
        have hec : entryCommitted v e = 0 := by
          unfold entryCommitted
          rw [if_neg (by
            rw [hwv]
            intro hh
            injection hh with hh
            exact hv hh.symm)]
        refine ⟨?_, ?_⟩
        · rw [ih1]
          simp only [List.map_cons, List.sum_cons, hec]
          push_cast
          ring
        · rw [ih2]
          simp [hwv, Ne.symm hv]
      · by_cases hwvv : w = v
        · subst hwvv
          have hred : payoutEntry acc e = payoutsAdd acc w e.price := by
            unfold payoutEntry
            rw [hwv]
            dsimp only
            rw [if_pos hv]
          rw [hred]
          obtain ⟨ih1, ih2⟩ := ih (payoutsAdd acc w e.price)
          have hec : entryCommitted w e = e.price := by
            unfold entryCommitted
            rw [if_pos (by rw [hwv])]
          refine ⟨?_, ?_⟩
          · rw [ih1, payoutsAdd_lookup_self]
            simp only [List.map_cons, List.sum_cons, hec, Option.getD_some]
            push_cast
            ring
          · rw [ih2, payoutsAdd_lookup_self]
            simp [hwv]
        · have hred : payoutEntry acc e = payoutsAdd acc w e.price := by
            unfold payoutEntry
            rw [hwv]
            dsimp only
            rw [if_pos hwe]
          rw [hred]
          obtain ⟨ih1, ih2⟩ := ih (payoutsAdd acc w e.price)
          have hec : entryCommitted v e = 0 := by
            unfold entryCommitted
            rw [if_neg (by
              rw [hwv]
              intro hh
              injection hh with hh
              exact hwvv hh)]
          have hlk := payoutsAdd_lookup_ne acc w e.price v
            (fun he => hwvv he.symm)
          refine ⟨?_, ?_⟩
          · rw [ih1, hlk]
            simp only [List.map_cons, List.sum_cons, hec]
            push_cast
            ring
          · rw [ih2, hlk]
            simp [hwv, hwvv]

theorem payoutSlot_fold (v : Username) (hv : v ≠ "")
    (slots : List (Nat × Slot)) (acc : List (Username × Int)) :
    (lookupA (slots.foldl payoutSlot acc) v).getD 0 =
      (lookupA acc v).getD 0 +
        ((slots.map (fun kv => slotCommitted v kv.2)).sum : Int) * 100 ∧
    ((lookupA (slots.foldl payoutSlot acc) v).isSome ↔
      (lookupA acc v).isSome ∨
        slots.any (fun kv => kv.2.gpu_prices.any
          (fun e => e.winner = some v)) = true) := by
  induction slots generalizing acc with
  | nil => exact ⟨by simp, by simp⟩
  | cons kv rest ih =>
    rw [List.foldl_cons]
    obtain ⟨h1, h2⟩ := payoutEntry_fold v hv kv.2.gpu_prices acc
    obtain ⟨ih1, ih2⟩ := ih (payoutSlot acc kv)
    have hps : payoutSlot acc kv = kv.2.gpu_prices.foldl payoutEntry acc :=
      rfl
    refine ⟨?_, ?_⟩
    · rw [ih1, hps, h1]
      simp only [List.map_cons, List.sum_cons]
      have hsc : slotCommitted v kv.2 =
          (kv.2.gpu_prices.map (entryCommitted v)).sum := rfl
      rw [hsc]
      push_cast
      ring
    · rw [ih2, hps, h2]
      simp only [List.any_cons, Bool.or_eq_true]
      tauto

theorem payoutsOf_spec (d : Day) (v : Username) (hv : v ≠ "") :
    (lookupA (payoutsOf d) v).getD 0 = (dayCommitted v d : Int) * 100 ∧
    ((lookupA (payoutsOf d) v).isSome ↔
      d.slots.any (fun kv => kv.2.gpu_prices.any
        (fun e => e.winner = some v)) = true) := by
  obtain ⟨h1, h2⟩ := payoutSlot_fold v hv d.slots []
  unfold payoutsOf
  have hnil : lookupA ([] : List (Username × Int)) v = none := rfl
  constructor
  · rw [h1, hnil]
    have hdc : dayCommitted v d =
        (d.slots.map (fun kv => slotCommitted v kv.2)).sum := rfl
    rw [hdc]
    simp
  · rw [h2, hnil]
    simp

theorem deduct_preserve (ps : List (Username × Int))
    (us : List (Username × User)) (v : Username)
    (hv : v ∉ ps.map Prod.fst) :
    lookupA (apply_payout_deductions us ps) v = lookupA us v := by
  induction ps generalizing us with
  | nil => rfl
  | cons wa rest ih =>
    simp only [List.map_cons, List.mem_cons] at hv
    push_neg at hv
    have hunf : apply_payout_deductions us (wa :: rest) =
        apply_payout_deductions
          (match lookupA us wa.1 with
           | none => us
           | some u => updateA us wa.1
               { u with balance := max 0 (u.balance - wa.2) }) rest := rfl
    rw [hunf, ih _ hv.2]
    split
    · rfl
    next u hu =>
      exact lookupA_updateA_ne _ _ _ _ hv.1

theorem deduct_lookup (ps : List (Username × Int))
    (hnd : (ps.map Prod.fst).Nodup)
    (us : List (Username × User)) (v : Username) :
    lookupA (apply_payout_deductions us ps) v =
      match lookupA ps v with
      | none => lookupA us v
      | some a => (lookupA us v).map
          (fun usr => { usr with balance := max 0 (usr.balance - a) }) := by
  induction ps generalizing us with
  | nil => rfl
  | cons wa rest ih =>
    obtain ⟨w, a⟩ := wa
    simp only [List.map_cons, List.nodup_cons] at hnd
    have hunf : apply_payout_deductions us ((w, a) :: rest) =
        apply_payout_deductions
          (match lookupA us w with
           | none => us
           | some u => updateA us w
               { u with balance := max 0 (u.balance - a) }) rest := rfl
    by_cases hvw : v = w
    · subst hvw
      rw [hunf, deduct_preserve rest _ v hnd.1]
      rw [lookupA_cons, if_pos rfl]
      dsimp only
      split
      next hu =>
        rw [hu]
        simp
      next u hu =>
        rw [lookupA_updateA_self, hu]
        simp
    · rw [hunf, ih hnd.2]
      rw [lookupA_cons, if_neg (fun he => hvw he.symm)]
      have hstep : lookupA (match lookupA us w with
          | none => us
          | some u => updateA us w
              { u with balance := max 0 (u.balance - a) }) v
          = lookupA us v := by
        split
        · rfl
        next u hu => exact lookupA_updateA_ne _ _ _ _ hvw
      rw [hstep]

theorem budget_lookup (us : List (Username × User)) (v : Username) :
    lookupA (apply_daily_budgets us) v = (lookupA us v).map
      (fun usr => if usr.enabled then
        { usr with balance := usr.balance + (usr.weekly_budget : Int) * 100 }
      else usr) := by
  induction us with
  | nil => rfl
  | cons p rest ih =>
    obtain ⟨k, usr⟩ := p
    have hunf : apply_daily_budgets ((k, usr) :: rest) =
        (if usr.enabled then
          (k, { usr with
            balance := usr.balance + (usr.weekly_budget : Int) * 100 })
         else (k, usr)) :: apply_daily_budgets rest := by
      unfold apply_daily_budgets
      rw [List.map_cons]
    by_cases he : usr.enabled
    · rw [hunf, if_pos he]
      by_cases hk : k = v
      · rw [lookupA_cons, if_pos hk, lookupA_cons, if_pos hk]
        dsimp only
        simp only [Option.map_some']
        rw [if_pos he]
      · rw [lookupA_cons, if_neg hk, lookupA_cons, if_neg hk, ih]
    · rw [hunf, if_neg he]
      by_cases hk : k = v
      · rw [lookupA_cons, if_pos hk, lookupA_cons, if_pos hk]
        dsimp only
        simp only [Option.map_some']
        rw [if_neg he]
      · rw [lookupA_cons, if_neg hk, lookupA_cons, if_neg hk, ih]

theorem advanceFinalizeCurrent_users (s : SysState) (ck now : Nat) :
    (advanceFinalizeCurrent s ck now).users = s.users := by
  unfold advanceFinalizeCurrent
  split
  · rfl
  · rfl

theorem advancePromoteNext_users (s : SysState) (nk now : Nat) :
    (advancePromoteNext s nk now).users = s.users := by
  unfold advancePromoteNext
  split
  · rfl
  · rfl

theorem ensure_day_exists_users (s : SysState) (k : Nat) (st : DayStatus) :
    (ensure_day_exists s k st).users = s.users := by
  unfold ensure_day_exists
  split
  · rfl
  · rfl

theorem find_day_lookup {s : SysState} {st : DayStatus} {ck : Nat} {cd : Day}
    (hnd : (s.days.map Prod.fst).Nodup)
    (h : find_day_by_status s st = some (ck, cd)) :
    lookupA s.days ck = some cd ∧ cd.status = st := by
  unfold find_day_by_status at h
  have hmem := List.mem_of_find?_eq_some h
  have hpred := List.find?_some h
  refine ⟨lookupA_eq_of_mem hnd hmem, ?_⟩
  simpa using hpred

theorem find_days_head_mem {s : SysState} {st : DayStatus} {o : Nat}
    {od : Day} {rest : List (Nat × Day)}
    (h : find_days_by_status s st = (o, od) :: rest) :
    (o, od) ∈ s.days ∧ od.status = st := by
  have hmem : (o, od) ∈ find_days_by_status s st := by
    rw [h]
    exact List.mem_cons_self _ _
  unfold find_days_by_status at hmem
  rw [mem_sortBy] at hmem
  have := List.mem_filter.mp hmem
  refine ⟨this.1, by simpa using this.2⟩

theorem advanceFinalizeCurrent_days (t : SysState) (ck now : Nat) (cd : Day)
    (hlc : lookupA t.days ck = some cd) :
    (advanceFinalizeCurrent t ck now).days = updateA t.days ck
      { cd with
          status := .final
          finalized_at := match cd.finalized_at with
            | some tt => some tt
            | none => some now } := by
  unfold advanceFinalizeCurrent
  rw [hlc]

theorem advancePromoteNext_days (t : SysState) (nk now : Nat) (nd : Day)
    (hln : lookupA t.days nk = some nd) :
    (advancePromoteNext t nk now).days = updateA t.days nk
      { nd with status := .executing, finalized_at := some now } := by
  unfold advancePromoteNext
  rw [hln]

theorem ensure_day_exists_days_new (t : SysState) (k : Nat) (st : DayStatus)
    (hnone : lookupA t.days k = none) :
    (ensure_day_exists t k st).days = t.days ++ [(k, freshDay k st)] := by
  unfold ensure_day_exists
  rw [hnone]

/-- C3: with an executing day `(ck, cd)` and a non-empty open-day list
headed by `(o, od)`, a successful `advance_day_cycle` deducts each
winner's payout (floored at zero), then adds the daily budget to every
enabled user, finalizes `ck` (keeping an existing `finalized_at`),
promotes `o` to executing, replaces the day at `o + 6` with a fresh open
day, and leaves every other day untouched; `o` is the earliest open day,
the per-winner payout equals 100 × the winner's committed total on `od`,
and with no open days the call returns the error without constructing a
state. -/
theorem advance_day_cycle_elim (s : SysState) (now : Nat) (s' : SysState)
    (hnd : (s.days.map Prod.fst).Nodup)
    (o : Nat) (od : Day) (rest : List (Nat × Day))
    (hopen : find_days_by_status s .opened = (o, od) :: rest)
    (ck : Nat) (cd : Day)
    (hexec : find_day_by_status s .executing = some (ck, cd))
    (hck6 : ck ≠ o + 6)
    (h : advance_day_cycle s now = .ok s') :
    (∀ v, lookupA s'.users v = (lookupA s.users v).map (fun usr =>
      let usr1 := match lookupA (payoutsOf od) v with
        | none => usr
        | some a => { usr with balance := max 0 (usr.balance - a) }
      if usr1.enabled then
        { usr1 with
            balance := usr1.balance + (usr1.weekly_budget : Int) * 100 }
      else usr1)) ∧
    (∀ v a, v ≠ "" → lookupA (payoutsOf od) v = some a →
      a = (dayCommitted v od : Int) * 100) ∧
    (∀ kd ∈ find_days_by_status s .opened, o ≤ kd.1) ∧
    lookupA s'.days ck = some { cd with
      status := .final
      finalized_at := match cd.finalized_at with
        | some tt => some tt
        | none => some now } ∧
    lookupA s'.days o =
      some { od with status := .executing, finalized_at := some now } ∧
    lookupA s'.days (o + 6) = some (freshDay (o + 6) .opened) ∧
    (∀ k, k ≠ ck → k ≠ o → k ≠ o + 6 →
      lookupA s'.days k = lookupA s.days k) ∧
    (∀ t : SysState, find_days_by_status t .opened = [] →
      advance_day_cycle t now = .error "No open days to promote.") ∧
    (s'.days.map Prod.fst).Nodup := by
  obtain ⟨hlc, hcst⟩ := find_day_lookup hnd hexec
  obtain ⟨homem, host⟩ := find_days_head_mem hopen
  have hlo : lookupA s.days o = some od := lookupA_eq_of_mem hnd homem
  have hco : ck ≠ o := by
    intro he
    rw [he, hlo] at hlc
    injection hlc with hlc
    rw [← hlc] at hcst
    exact DayStatus.noConfusion (host.symm.trans hcst)
  unfold advance_day_cycle at h
  rw [hopen] at h
  dsimp only at h
  rw [hexec] at h
  dsimp only at h
  injection h with hs'
  have h4days := advanceFinalizeCurrent_days
    { s with users := apply_daily_budgets (apply_payout_deductions s.users (payoutsOf od)) } ck now cd hlc
  have hl4o : lookupA (advanceFinalizeCurrent
      { s with users := apply_daily_budgets (apply_payout_deductions s.users (payoutsOf od)) } ck now).days o =
      some od := by
    rw [h4days, lookupA_updateA_ne _ _ _ _ (Ne.symm hco)]
    exact hlo
  have h5days := advancePromoteNext_days _ o now od hl4o
  have hnd5 : ((advancePromoteNext (advanceFinalizeCurrent
      { s with users := apply_daily_budgets (apply_payout_deductions s.users (payoutsOf od)) } ck now)
      o now).days.map Prod.fst).Nodup := by
    rw [h5days, h4days]
    exact nodup_keys_updateA _ _ _ (nodup_keys_updateA _ _ _ hnd)
  have h6none : lookupA (removeA (advancePromoteNext
      (advanceFinalizeCurrent
        { s with users := apply_daily_budgets (apply_payout_deductions s.users (payoutsOf od)) } ck now)
      o now).days (o + 6)) (o + 6) = none :=
    lookupA_removeA_self _ _ hnd5
  have hfdays : s'.days = removeA (updateA (updateA s.days ck
      { cd with
          status := .final
          finalized_at := match cd.finalized_at with
            | some tt => some tt
            | none => some now } ) o
      { od with status := .executing, finalized_at := some now }) (o + 6)
      ++ [(o + 6, freshDay (o + 6) .opened)] := by
    rw [← hs']
    rw [ensure_day_exists_days_new _ _ _ h6none]
    dsimp only
    rw [h5days, h4days]
  have hfusers : s'.users = apply_daily_budgets
      (apply_payout_deductions s.users (payoutsOf od)) := by
    rw [← hs']
    rw [ensure_day_exists_users]
    dsimp only
    rw [advancePromoteNext_users, advanceFinalizeCurrent_users]
  refine ⟨?_, ?_, ?_, ?_, ?_, ?_, ?_, ?_, ?_⟩
  · intro v
    rw [hfusers, budget_lookup, deduct_lookup _ (payoutsOf_keys_nodup od)]
    cases hp : lookupA (payoutsOf od) v with
    | none =>
      cases hu : lookupA s.users v with
      | none => rfl
      | some usr => rfl
    | some a =>
      cases hu : lookupA s.users v with
      | none => rfl
      | some usr => rfl
  · intro v a hv hp
    have := (payoutsOf_spec od v hv).1
    rw [hp] at this
    simpa using this
  · intro kd hkd
    unfold find_days_by_status at hopen hkd
    have hpw := sortBy_pairwise (fun a b : Nat × Day => decide (a.1 ≤ b.1))
      (fun a b hf => by
        simp only [decide_eq_false_iff_not, Nat.not_le] at hf
        simpa using Nat.le_of_lt hf)
      (fun a b c h1 h2 => by
        simp only [decide_eq_true_eq] at h1 h2 ⊢
        omega)
      (s.days.filter (fun kd => kd.2.status = DayStatus.opened))
    rw [hopen] at hpw
    rw [hopen] at hkd
    rcases List.mem_cons.mp hkd with hkd | hkd
    · rw [hkd]
    · have := (List.pairwise_cons.mp hpw).1 kd hkd
      simpa using this
  · rw [hfdays, lookupA_append_left _ _ _ _ hck6,
      lookupA_removeA_ne _ _ _ hck6,
      lookupA_updateA_ne _ _ _ _ hco, lookupA_updateA_self]
  · rw [hfdays, lookupA_append_left _ _ _ _ (by omega),
      lookupA_removeA_ne _ _ _ (by omega), lookupA_updateA_self]
  · rw [hfdays]
    refine lookupA_append_right _ _ _ ?_
    refine keys_removeA_not_mem _ _ ?_
    exact nodup_keys_updateA _ _ _ (nodup_keys_updateA _ _ _ hnd)
  · intro k hk1 hk2 hk3
    rw [hfdays, lookupA_append_left _ _ _ _ hk3,
      lookupA_removeA_ne _ _ _ hk3,
      lookupA_updateA_ne _ _ _ _ hk2, lookupA_updateA_ne _ _ _ _ hk1]
  · intro t ht
    unfold advance_day_cycle
    rw [ht]
  · rw [hfdays, List.map_append]
    have hnd5' := hnd5
    rw [h5days, h4days] at hnd5'
    have hndrem := (keys_removeA_sublist _ (o + 6)).nodup hnd5'
    have hnm := keys_removeA_not_mem _ (o + 6) hnd5'
    simp [List.nodup_append, hndrem, hnm]

/-- C3: restatement of `advance_day_cycle_elim` as the claim theorem
(without the auxiliary key-uniqueness conclusion). -/
theorem advance_day_cycle_correct (s : SysState) (now : Nat) (s' : SysState)
    (hnd : (s.days.map Prod.fst).Nodup)
    (o : Nat) (od : Day) (rest : List (Nat × Day))
    (hopen : find_days_by_status s .opened = (o, od) :: rest)
    (ck : Nat) (cd : Day)
    (hexec : find_day_by_status s .executing = some (ck, cd))
    (hck6 : ck ≠ o + 6)
    (h : advance_day_cycle s now = .ok s') :
    (∀ v, lookupA s'.users v = (lookupA s.users v).map (fun usr =>
      let usr1 := match lookupA (payoutsOf od) v with
        | none => usr
        | some a => { usr with balance := max 0 (usr.balance - a) }
      if usr1.enabled then
        { usr1 with
            balance := usr1.balance + (usr1.weekly_budget : Int) * 100 }
      else usr1)) ∧
    (∀ v a, v ≠ "" → lookupA (payoutsOf od) v = some a →
      a = (dayCommitted v od : Int) * 100) ∧
    (∀ kd ∈ find_days_by_status s .opened, o ≤ kd.1) ∧
    lookupA s'.days ck = some { cd with
      status := .final
      finalized_at := match cd.finalized_at with
        | some tt => some tt
        | none => some now } ∧
    lookupA s'.days o =
      some { od with status := .executing, finalized_at := some now } ∧
    lookupA s'.days (o + 6) = some (freshDay (o + 6) .opened) ∧
    (∀ k, k ≠ ck → k ≠ o → k ≠ o + 6 →
      lookupA s'.days k = lookupA s.days k) ∧
    (∀ t : SysState, find_days_by_status t .opened = [] →
      advance_day_cycle t now = .error "No open days to promote.") := by
  obtain ⟨h1, h2, h3, h4, h5, h6, h7, h8, _⟩ :=
    advance_day_cycle_elim s now s' hnd o od rest hopen ck cd hexec hck6 h
  exact ⟨h1, h2, h3, h4, h5, h6, h7, h8⟩

/-- Extract the success state of an `Except`-returning operation (used
only to name concrete witness states). -/
def okOr (r : Except String SysState) (d : SysState) : SysState :=
  match r with
  | .ok t => t
  | .error _ => d

/-- Slot 269 of open day 11 whose gpu 1 is won by `"u2"` at price 3. -/
def advWitSlot : Slot :=
  { gpu_prices := (List.range NUM_GPUS).map (fun g =>
      if g = 1 then
        { gpu := 1, price := 3, winner := some "u2", bids := [],
          actual_user := none }
      else freshEntry g) }

def advWitOpenDay : Day :=
  let d := freshDay 11 .opened
  { d with slots := updateA d.slots 269 advWitSlot }

/-- Executing day 10, open day 11 with one won entry, one funded user. -/
def advWitState : SysState :=
  { users := [("u2", mkUser "u2" 100)]
    days := [(10, freshDay 10 .executing), (11, advWitOpenDay)]
    bid_log := []
    reserved_slots := []
    day_transition_hour := 0 }

def advWitResult : SysState :=
  okOr (advance_day_cycle advWitState 999) advWitState

/-- Witness for C3: the concrete advancement deducts `"u2"`'s payout of
3.00, adds the 100-credit budget, finalizes day 10, promotes day 11 and
creates the fresh open day 17. -/
theorem advance_day_cycle_correct_witness :
    (∀ v, lookupA advWitResult.users v =
      (lookupA advWitState.users v).map (fun usr =>
      let usr1 := match lookupA (payoutsOf advWitOpenDay) v with
        | none => usr
        | some a => { usr with balance := max 0 (usr.balance - a) }
      if usr1.enabled then
        { usr1 with
            balance := usr1.balance + (usr1.weekly_budget : Int) * 100 }
      else usr1)) ∧
    (∀ v a, v ≠ "" → lookupA (payoutsOf advWitOpenDay) v = some a →
      a = (dayCommitted v advWitOpenDay : Int) * 100) ∧
    (∀ kd ∈ find_days_by_status advWitState .opened, 11 ≤ kd.1) ∧
    lookupA advWitResult.days 10 = some { freshDay 10 .executing with
      status := .final
      finalized_at := match (freshDay 10 .executing).finalized_at with
        | some tt => some tt
        | none => some 999 } ∧
    lookupA advWitResult.days 11 =
      some { advWitOpenDay with
        status := .executing, finalized_at := some 999 } ∧
    lookupA advWitResult.days (11 + 6) = some (freshDay (11 + 6) .opened) ∧
    (∀ k, k ≠ 10 → k ≠ 11 → k ≠ 11 + 6 →
      lookupA advWitResult.days k = lookupA advWitState.days k) ∧
    (∀ t : SysState, find_days_by_status t .opened = [] →
      advance_day_cycle t 999 = .error "No open days to promote.") :=
  advance_day_cycle_correct advWitState 999 advWitResult (by decide)
    11 advWitOpenDay [] (by decide) 10 (freshDay 10 .executing) (by decide)
    (by decide) rfl

/-! ### System-state shape (C2) -/

theorem find_status_some {s : SysState} {st : DayStatus} {k : Nat}
    (hk : statusOf s k = some st) :
    ∃ kd, find_day_by_status s st = some kd := by
  obtain ⟨d, hd, hds⟩ := statusOf_some_elim hk
  have hmem := mem_of_lookupA_eq_some hd
  unfold find_day_by_status
  have hsome : (s.days.find? (fun kd => kd.2.status = st)).isSome := by
    rw [List.find?_isSome]
    exact ⟨(k, d), hmem, by simp [hds]⟩
  exact Option.isSome_iff_exists.mp hsome

/-- The day-cycle shape: exactly one executing day `e` and open days at
exactly the six keys following it. -/
def ShapeInv (t : SysState) (e : Nat) : Prop :=
  (t.days.map Prod.fst).Nodup ∧
  (∀ k, statusOf t k = some .executing ↔ k = e) ∧
  (∀ k, statusOf t k = some .opened ↔ e + 1 ≤ k ∧ k ≤ e + 6)

theorem ensureOpen_step (ck i : Nat) (s : SysState)
    (hnd : (s.days.map Prod.fst).Nodup) :
    ((ensureOpen ck s i).days.map Prod.fst).Nodup ∧
    statusOf (ensureOpen ck s i) (ck + i + 1) = some .opened ∧
    (∀ k, k ≠ ck + i + 1 →
      statusOf (ensureOpen ck s i) k = statusOf s k) := by
  unfold ensureOpen
  dsimp only
  split
  next hlk =>
    have hdays := ensure_day_exists_days_new s (ck + i + 1) .opened hlk
    have hnm : (ck + i + 1) ∉ s.days.map Prod.fst := by
      intro hm
      have := (lookupA_isSome_iff_mem_keys _ _).mpr hm
      rw [hlk] at this
      simp at this
    refine ⟨?_, ?_, ?_⟩
    · rw [hdays, List.map_append]
      simp [List.nodup_append, hnd, hnm]
    · unfold statusOf
      rw [hdays, lookupA_append_right _ _ _ hnm]
      rfl
    · intro k hk
      unfold statusOf
      rw [hdays, lookupA_append_left _ _ _ _ hk]
  next d hlk =>
    split
    next hne =>
      refine ⟨?_, ?_, ?_⟩
      · dsimp only
        exact nodup_keys_updateA _ _ _ hnd
      · unfold statusOf
        dsimp only
        rw [lookupA_updateA_self]
        rfl
      · intro k hk
        unfold statusOf
        dsimp only
        rw [lookupA_updateA_ne _ _ _ _ hk]
    next hne =>
      refine ⟨hnd, ?_, fun k hk => rfl⟩
      have hop : d.status = .opened := not_not.mp hne
      unfold statusOf
      rw [hlk]
      simp [hop]

theorem ensureOpen_fold (ck : Nat) (l : List Nat) (s : SysState)
    (hnd : (s.days.map Prod.fst).Nodup) :
    (((l.foldl (ensureOpen ck) s).days.map Prod.fst).Nodup) ∧
    (∀ k, (∃ i ∈ l, k = ck + i + 1) →
      statusOf (l.foldl (ensureOpen ck) s) k = some .opened) ∧
    (∀ k, (∀ i ∈ l, k ≠ ck + i + 1) →
      statusOf (l.foldl (ensureOpen ck) s) k = statusOf s k) := by
  induction l generalizing s with
  | nil =>
    exact ⟨hnd, fun k hk => absurd hk (by simp), fun k _ => rfl⟩
  | cons i l' ih =>
    rw [List.foldl_cons]
    obtain ⟨hs1, hs2, hs3⟩ := ensureOpen_step ck i s hnd
    obtain ⟨ih1, ih2, ih3⟩ := ih (ensureOpen ck s i) hs1
    refine ⟨ih1, ?_, ?_⟩
    · intro k hk
      obtain ⟨j, hj, hkj⟩ := hk
      rcases List.mem_cons.mp hj with hj | hj
      · subst hj
        by_cases hrest : ∃ j' ∈ l', k = ck + j' + 1
        · exact ih2 k hrest
        · push_neg at hrest
          rw [ih3 k hrest, hkj]
          exact hs2
      · exact ih2 k ⟨j, hj, hkj⟩
    · intro k hk
      rw [ih3 k (fun j hj => hk j (List.mem_cons_of_mem _ hj))]
      exact hs3 k (hk i (List.mem_cons_self _ _))

/-- One successful advancement from a well-shaped state shifts the whole
day window forward by one. -/
theorem advance_shape (t : SysState) (now : Nat) (t' : SysState) (e : Nat)
    (h : ShapeInv t e) (hadv : advance_day_cycle t now = .ok t') :
    ShapeInv t' (e + 1) := by
  obtain ⟨hnd, hexe, hop⟩ := h
  obtain ⟨kd0, hfind⟩ := find_status_some ((hexe e).mpr rfl)
  obtain ⟨ck, cd⟩ := kd0
  obtain ⟨hlc, hcst⟩ := find_day_lookup hnd hfind
  have hcke : ck = e := (hexe ck).mp (by
    unfold statusOf
    rw [hlc]
    simp [hcst])
  subst hcke
  have hop1 : statusOf t (ck + 1) = some .opened :=
    (hop (ck + 1)).mpr ⟨by omega, by omega⟩
  obtain ⟨d1, hld1, hd1s⟩ := statusOf_some_elim hop1
  have hmem1 : (ck + 1, d1) ∈ find_days_by_status t .opened := by
    unfold find_days_by_status
    rw [mem_sortBy]
    exact List.mem_filter.mpr ⟨mem_of_lookupA_eq_some hld1, by simp [hd1s]⟩
  cases hfd : find_days_by_status t .opened with
  | nil =>
    rw [hfd] at hmem1
    simp at hmem1
  | cons hd rest =>
    obtain ⟨o, od⟩ := hd
    obtain ⟨homem, host⟩ := find_days_head_mem hfd
    have hoint : ck + 1 ≤ o ∧ o ≤ ck + 6 := (hop o).mp (by
      unfold statusOf
      rw [lookupA_eq_of_mem hnd homem]
      simp [host])
    have hole : o ≤ ck + 1 := by
      rw [hfd] at hmem1
      rcases List.mem_cons.mp hmem1 with hm | hm
      · injection hm with h1 _
        omega
      · have hpw := sortBy_pairwise (fun a b : Nat × Day => decide (a.1 ≤ b.1))
          (fun a b hf => by
            simp only [decide_eq_false_iff_not, Nat.not_le] at hf
            simpa using Nat.le_of_lt hf)
          (fun a b c h1 h2 => by
            simp only [decide_eq_true_eq] at h1 h2 ⊢
            omega)
          (t.days.filter (fun kd => kd.2.status = DayStatus.opened))
        have hpw' : ((o, od) :: rest).Pairwise
            (fun a b : Nat × Day => decide (a.1 ≤ b.1) = true) := by
          rw [← hfd]
          exact hpw
        have := (List.pairwise_cons.mp hpw').1 (ck + 1, d1) hm
        simpa using this
    have ho : o = ck + 1 := by omega
    subst ho
    obtain ⟨_, _, _, hck, hpo, hfresh, hpres, _, hnd'⟩ :=
      advance_day_cycle_elim t now t' hnd (ck + 1) od rest hfd ck cd hfind
        (by omega) hadv
    have hpres' : ∀ k, k ≠ ck → k ≠ ck + 1 → k ≠ ck + 1 + 6 →
        statusOf t' k = statusOf t k := by
      intro k h1 h2 h3
      unfold statusOf
      rw [hpres k h1 h2 h3]
    refine ⟨hnd', ?_, ?_⟩
    · intro k
      constructor
      · intro hst
        by_cases hk1 : k = ck
        · subst hk1
          unfold statusOf at hst
          rw [hck] at hst
          simp at hst
        · by_cases hk2 : k = ck + 1
          · exact hk2
          · by_cases hk3 : k = ck + 1 + 6
            · subst hk3
              unfold statusOf at hst
              rw [hfresh] at hst
              simp [freshDay] at hst
            · rw [hpres' k hk1 hk2 hk3] at hst
              exact absurd ((hexe k).mp hst) hk1
      · intro hk
        subst hk
        unfold statusOf
        rw [hpo]
        rfl
    · intro k
      constructor
      · intro hst
        by_cases hk1 : k = ck
        · subst hk1
          unfold statusOf at hst
          rw [hck] at hst
          simp at hst
        · by_cases hk2 : k = ck + 1
          · subst hk2
            unfold statusOf at hst
            rw [hpo] at hst
            simp at hst
          · by_cases hk3 : k = ck + 1 + 6
            · omega
            · rw [hpres' k hk1 hk2 hk3] at hst
              have := (hop k).mp hst
              omega
      · rintro ⟨hk1, hk2⟩
        by_cases hk3 : k = ck + 1 + 6
        · subst hk3
          unfold statusOf
          rw [hfresh]
          rfl
        · have hp := hpres' k (by omega) (by omega) hk3
          rw [hp]
          exact (hop k).mpr ⟨by omega, by omega⟩

theorem autoAdvanceLoop_shape (now : Nat) (fuel : Nat) (t : SysState)
    (e : Nat) (h : ShapeInv t e) :
    ∃ e', e ≤ e' ∧ ShapeInv (autoAdvanceLoop now fuel t) e' := by
  induction fuel generalizing t e with
  | zero => exact ⟨e, Nat.le_refl e, h⟩
  | succ n ih =>
    unfold autoAdvanceLoop
    split
    · exact ⟨e, Nat.le_refl e, h⟩
    next kd hkd =>
      split
      · exact ⟨e, Nat.le_refl e, h⟩
      · split
        next s1 hadv =>
          obtain ⟨e', hle, hsh⟩ := ih s1 (e + 1) (advance_shape t now s1 e h hadv)
          exact ⟨e', by omega, hsh⟩
        next msg herr =>
          exact ih t e h

/-- C2: from any state whose executing day is `e`, whose days have unique
keys, and whose open days (if any) already lie in the window
`[e+1, e+6]`, `update_system_state` leaves exactly one executing day
`e' ≥ e` and open days at exactly the six consecutive keys following
it. -/
theorem update_system_state_correct (s : SysState) (tr : Tracking)
    (now : Nat) (e : Nat)
    (hnd : (s.days.map Prod.fst).Nodup)
    (he : statusOf s e = some .executing)
    (hexe : ∀ kd ∈ s.days, kd.2.status = .executing → kd.1 = e)
    (hopenb : ∀ kd ∈ s.days, kd.2.status = .opened →
      e + 1 ≤ kd.1 ∧ kd.1 ≤ e + 6) :
    ∃ e', e ≤ e' ∧
      (∀ k, statusOf (update_system_state s tr now).1 k =
        some .executing ↔ k = e') ∧
      (∀ k, statusOf (update_system_state s tr now).1 k =
        some .opened ↔ e' + 1 ≤ k ∧ k ≤ e' + 6) := by
  obtain ⟨kd0, hfind⟩ := find_status_some he
  obtain ⟨k0, d0⟩ := kd0
  obtain ⟨hlc0, hcst0⟩ := find_day_lookup hnd hfind
  have hk0 : k0 = e := hexe (k0, d0) (mem_of_lookupA_eq_some hlc0) hcst0
  subst hk0
  have hredval : (update_system_state s tr now).1 =
      (finalize_past_gpu_slots (maybe_auto_advance
        ((List.range 6).foldl (ensureOpen k0) s) now) tr now).1 := by
    unfold update_system_state
    rw [hfind]
  obtain ⟨hf1, hf2, hf3⟩ := ensureOpen_fold k0 (List.range 6) s hnd
  have hshape2 : ShapeInv ((List.range 6).foldl (ensureOpen k0) s) k0 := by
    refine ⟨hf1, ?_, ?_⟩
    · intro k
      constructor
      · intro hst
        by_cases hkr : ∃ i ∈ List.range 6, k = k0 + i + 1
        · rw [hf2 k hkr] at hst
          injection hst with hst
          exact DayStatus.noConfusion hst
        · push_neg at hkr
          rw [hf3 k hkr] at hst
          obtain ⟨d, hld, hds⟩ := statusOf_some_elim hst
          exact hexe (k, d) (mem_of_lookupA_eq_some hld) hds
      · intro hk
        rw [hk]
        have hne : ∀ i ∈ List.range 6, k0 ≠ k0 + i + 1 := by
          intro i _
          omega
        rw [hf3 k0 hne]
        exact he
    · intro k
      constructor
      · intro hst
        by_cases hkr : ∃ i ∈ List.range 6, k = k0 + i + 1
        · obtain ⟨i, hi, hik⟩ := hkr
          simp only [List.mem_range] at hi
          omega
        · push_neg at hkr
          rw [hf3 k hkr] at hst
          obtain ⟨d, hld, hds⟩ := statusOf_some_elim hst
          exact hopenb (k, d) (mem_of_lookupA_eq_some hld) hds
      · rintro ⟨hk1, hk2⟩
        refine hf2 k ⟨k - k0 - 1, ?_, by omega⟩
        simp only [List.mem_range]
        omega
  obtain ⟨e', hle, hnd', hexe', hopen'⟩ :=
    autoAdvanceLoop_shape now 10 _ k0 hshape2
  have hfin : ∀ k, statusOf (update_system_state s tr now).1 k =
      statusOf (autoAdvanceLoop now 10
        ((List.range 6).foldl (ensureOpen k0) s)) k := by
    intro k
    rw [hredval]
    exact statusOf_finalize_fold now tr _ k
  refine ⟨e', hle, ?_, ?_⟩
  · intro k
    rw [hfin k]
    exact hexe' k
  · intro k
    rw [hfin k]
    exact hopen' k

/-- Executing day 10 followed by the six open days 11–16. -/
def updWitState : SysState :=
  { users := []
    days := (10, freshDay 10 .executing) ::
      (List.range 6).map (fun i => (11 + i, freshDay (11 + i) .opened))
    bid_log := []
    reserved_slots := []
    day_transition_hour := 0 }

/-- Witness for C2: the concrete well-shaped state keeps its shape
through `update_system_state`. -/
theorem update_system_state_correct_witness :
    ∃ e', 10 ≤ e' ∧
      (∀ k, statusOf (update_system_state updWitState [] 0).1 k =
        some .executing ↔ k = e') ∧
      (∀ k, statusOf (update_system_state updWitState [] 0).1 k =
        some .opened ↔ e' + 1 ≤ k ∧ k ≤ e' + 6) :=
  update_system_state_correct updWitState [] 0 10 (by decide) (by decide)
    (by decide) (by decide)

end GpuSched
